import Mathlib

/-!
Verification of `src/ids_association_manager.py`.

The Python module defines two association managers:

* `IDsAssociationManager` — exclusive one-to-many associations between owner
  ids (`id_a`, an int or tuple of ints) and slot ids (`id_b`, a non-negative
  int) backed by a reclaimable free pool;
* `IDsManyToManyManager` — shared many-to-many associations with
  reference-counted return of slots to the free pool.

The embedding below models the Python state faithfully:

* Python `dict` is modelled by an association list (`dlookup` / `dset` /
  `ddel`), keeping insertion order and distinct keys, mirroring `d.get`,
  `d[k] = v` and `del d[k]`;
* Python `set` of slot ids is modelled by `Finset Nat`, and a set of owner
  ids by `Finset α`; where Python iterates over a set in an unspecified
  order (`list(s)`, `next(iter(s))`) the embedding fixes the ascending
  order, a valid refinement of CPython's unspecified iteration order;
* the free pool (`self._free_pool`) is a `List Nat`: in ordered mode it is
  the Python sorted list, in unordered mode it represents the Python set,
  whose arbitrary `pop()` is refined to popping the head;
* Python exceptions are modelled by `PyErr`; operations that can raise
  return the raised error together with the state of the object at the
  moment of the raise.

Owner ids are a variable `α` with a linear order (integers and tuples of
integers under lexicographic order both instantiate it).
-/

namespace IdsAssoc

/-- The exceptions the Python module can raise during mutations:
`ValueError("Single mode active...")`, `MemoryError("No free B IDs...")`
and the `StopIteration` escaping `next(iter(set()))`. -/
inductive PyErr : Type where
  | valueMulti : PyErr
  | memError : PyErr
  | stopIter : PyErr
deriving DecidableEq, Repr

/-- Decidable equality for results of fallible draws, so claims about
concrete allocation runs can be settled by evaluation. -/
instance {β : Type} [DecidableEq β] : DecidableEq (Except PyErr β) := fun x y =>
  match x, y with
  | .ok a, .ok b =>
      if h : a = b then .isTrue (by rw [h])
      else .isFalse (fun hh => h (Except.ok.inj hh))
  | .error a, .error b =>
      if h : a = b then .isTrue (by rw [h])
      else .isFalse (fun hh => h (Except.error.inj hh))
  | .ok _, .error _ => .isFalse (fun hh => Except.noConfusion hh)
  | .error _, .ok _ => .isFalse (fun hh => Except.noConfusion hh)

/-- Python dict lookup `d.get(k)` on an association list. -/
def dlookup {κ β : Type} [DecidableEq κ] (k : κ) : List (κ × β) → Option β
  | [] => none
  | p :: rest => if p.1 = k then some p.2 else dlookup k rest

/-- Python dict assignment `d[k] = v`: replaces the value in place if the
key is present, else appends the new binding (insertion order). -/
def dset {κ β : Type} [DecidableEq κ] (k : κ) (v : β) : List (κ × β) → List (κ × β)
  | [] => [(k, v)]
  | p :: rest => if p.1 = k then (k, v) :: rest else p :: dset k v rest

/-- Python dict deletion `del d[k]` (removes the binding of `k`, if any). -/
def ddel {κ β : Type} [DecidableEq κ] (k : κ) : List (κ × β) → List (κ × β)
  | [] => []
  | p :: rest => if p.1 = k then rest else p :: ddel k rest

/-- The keys of a modelled dict, in insertion order. -/
def dkeys {κ β : Type} : List (κ × β) → List κ := List.map Prod.fst

/-- `bisect.insort(pool, b)` as executed on a sorted list: insert `b`
keeping the ascending order. -/
def insort : List Nat → Nat → List Nat
  | [], b => [b]
  | y :: ys, b => if b < y then b :: y :: ys else y :: insort ys b

/-- Unordered-mode `set.add` on the list modelling the Python set. -/
def setAdd (pool : List Nat) (b : Nat) : List Nat :=
  if b ∈ pool then pool else b :: pool

/-- Ordered-mode removal: `bisect.bisect_left` followed by `pop` when the
element at the found index equals `b`, as executed on a sorted list. -/
def removeSorted : List Nat → Nat → List Nat
  | [], _ => []
  | y :: ys, b => if y < b then y :: removeSorted ys b else if y = b then ys else y :: ys

/-- `sorted(l)`: insertion sort (agrees with Python `sorted` on lists of
naturals). -/
def sortNat (l : List Nat) : List Nat := l.foldl insort []

/-- `list(s)` for a Python set of slot ids: the embedding fixes ascending
iteration order (a refinement of CPython's unspecified set order). -/
def finList (S : Finset Nat) : List Nat := S.sort (· ≤ ·)

/-- The state of an `IDsAssociationManager` instance: `pool` is
`_free_pool` (sorted list in ordered mode, the set as a list otherwise),
`b_to_a` is `_b_to_a`, `a_to_bs` is `_a_to_bs`, and the two mode flags. -/
structure ExclState (α : Type) where
  pool : List Nat
  b_to_a : List (Nat × α)
  a_to_bs : List (α × Finset Nat)
  single : Bool
  ordered : Bool
deriving DecidableEq

variable {α : Type} [DecidableEq α] [LinearOrder α]

/-- The slot set recorded for owner `a` (`_a_to_bs.get(id_a, set())`);
also the value `get_bs` wraps into a frozenset in multi mode. -/
def slotsOf (s : ExclState α) (a : α) : Finset Nat :=
  (dlookup a s.a_to_bs).getD ∅

/-- Removing id `b` from the free pool if present: ordered mode does
`bisect_left` + `pop`, unordered mode does `if b in pool: pool.remove(b)`. -/
def poolDiscard (ordered : Bool) (pool : List Nat) (b : Nat) : List Nat :=
  if ordered then removeSorted pool b else pool.erase b

/-- `_release_id(b_id, check_duplicates)`: return an id to the pool.
Ordered mode re-inserts with `bisect.insort`, guarding against a duplicate
only when `check_duplicates` is set; unordered mode is `set.add`. -/
def releaseId (ordered checkDup : Bool) (pool : List Nat) (b : Nat) : List Nat :=
  if ordered then
    if checkDup then (if b ∈ pool then pool else insort pool b) else insort pool b
  else setAdd pool b

/-- The attach step shared by `associate` and `allocate`:
`self._b_to_a[b_id] = id_a; target_set.add(b_id)`. -/
def exclAttach (a : α) (b : Nat) (s : ExclState α) : ExclState α :=
  { s with b_to_a := dset b a s.b_to_a,
           a_to_bs := dset a (insert b (slotsOf s a)) s.a_to_bs }

/-- The detach step shared by `remove_b` and the stealing branch of
`associate`: `old_set.remove(b_id); if not old_set: del _a_to_bs[old_a]`.
In Python a missing `_a_to_bs[old_a]` entry would raise KeyError; by
invariant I2 the entry is always present on reachable states, so the
`slotsOf` default (empty set) is never exercised. -/
def detachOwner (s : ExclState α) (oldA : α) (b : Nat) : ExclState α :=
  { s with a_to_bs := if (slotsOf s oldA).erase b = ∅ then ddel oldA s.a_to_bs
                      else dset oldA ((slotsOf s oldA).erase b) s.a_to_bs }

/-- The owned branch of `remove_b`: pop the `_b_to_a` binding, detach
from the owner entry, release the id without the duplicate check. -/
def removeOwned (s : ExclState α) (oldA : α) (b : Nat) : ExclState α :=
  { detachOwner s oldA b with b_to_a := ddel b s.b_to_a,
                              pool := releaseId s.ordered false s.pool b }

/-- `remove_b(id_b)`: detach `id_b` from its owner (pruning the owner
entry if now empty) and release it; ids with no recorded owner are
released with the duplicate check. -/
def remove_b (s : ExclState α) (b : Nat) : ExclState α :=
  match dlookup b s.b_to_a with
  | some oldA => removeOwned s oldA b
  | none => { s with pool := releaseId s.ordered true s.pool b }

/-- One iteration of the `associate` loop body for target slot `b`:
steal from the old owner, or take from the pool, then attach. -/
def assocStep (a : α) (s : ExclState α) (b : Nat) : ExclState α :=
  match dlookup b s.b_to_a with
  | some oldA =>
      if oldA = a then s
      else exclAttach a b (detachOwner s oldA b)
  | none => exclAttach a b { s with pool := poolDiscard s.ordered s.pool b }

/-- `if id_a not in self._a_to_bs: self._a_to_bs[id_a] = set()`. -/
def ensureA (s : ExclState α) (a : α) : ExclState α :=
  if (dlookup a s.a_to_bs).isSome = true then s
  else { s with a_to_bs := dset a ∅ s.a_to_bs }

/-- The single-mode preamble of `associate`: release every id currently
held by `id_a` via `remove_b`. -/
def singlePreRelease (s : ExclState α) (a : α) : ExclState α :=
  match dlookup a s.a_to_bs with
  | some S => (finList S).foldl remove_b s
  | none => s

/-- `associate(id_a, id_bs)`; the `bs` list covers both the single-int and
the list form of `id_bs`.  Returns the raised error (if any) together with
the state of the object when the call ends. -/
def associate (s : ExclState α) (a : α) (bs : List Nat) : Option PyErr × ExclState α :=
  if s.single = true ∧ 1 < bs.length then (some .valueMulti, s)
  else
    (none, bs.foldl (assocStep a)
      (ensureA (if s.single = true then singlePreRelease s a else s) a))

/-- The draw phase of `allocate`: pop from the pool (head = `pop(0)` in
ordered mode, and the refined choice for the unordered `set.pop()`),
then attach to `id_a`. -/
def allocDraw (s : ExclState α) (a : α) : Except PyErr Nat × ExclState α :=
  match s.pool with
  | [] => (.error .memError, s)
  | b :: rest => (.ok b, exclAttach a b (ensureA { s with pool := rest } a))

/-- `allocate(id_a, force)`.  In single mode with an existing entry:
`force=False` returns `next(iter(entry))` (raising `StopIteration` when the
entry is the empty set), `force=True` first releases every held id via
`remove_b`.  Otherwise draws from the pool. -/
def allocate (s : ExclState α) (a : α) (force : Bool) : Except PyErr Nat × ExclState α :=
  if s.single = true then
    match dlookup a s.a_to_bs with
    | some S =>
        if force = true then allocDraw ((finList S).foldl remove_b s) a
        else
          match (finList S).head? with
          | some b => (.ok b, s)
          | none => (.error .stopIter, s)
    | none => allocDraw s a
  else allocDraw s a

/-- One iteration of the `remove_a` loop body:
`del self._b_to_a[b_id]; self._release_id(b_id)`. -/
def releaseStep (t : ExclState α) (b : Nat) : ExclState α :=
  { t with b_to_a := ddel b t.b_to_a, pool := releaseId t.ordered false t.pool b }

/-- `remove_a(id_a)`: pop the owner entry and free every held id. -/
def remove_a (s : ExclState α) (a : α) : ExclState α :=
  match dlookup a s.a_to_bs with
  | some S => (finList S).foldl releaseStep { s with a_to_bs := ddel a s.a_to_bs }
  | none => s

/-- `clear()`: drop both indexes and return every held id to the pool. -/
def exclClear (s : ExclState α) : ExclState α :=
  let held := dkeys s.b_to_a
  { s with b_to_a := [], a_to_bs := [],
           pool := if s.ordered then sortNat (held ++ s.pool)
                   else held.foldl setAdd s.pool }

/-- `get_a(id_b)`. -/
def get_a (s : ExclState α) (b : Nat) : Option α := dlookup b s.b_to_a

/-- `get_bs(id_a)` in multi mode (`frozenset(self._a_to_bs.get(id_a, ()))`). -/
def get_bs_multi (s : ExclState α) (a : α) : Finset Nat := slotsOf s a

/-- `get_bs(id_a)` in single mode: `next(iter(bs))` when the entry is
non-empty, `None` otherwise. -/
def get_bs_single (s : ExclState α) (a : α) : Option Nat :=
  match dlookup a s.a_to_bs with
  | some S => (finList S).head?
  | none => none

/-- `get_all_active_a()`. -/
def get_all_active_a (s : ExclState α) : List α := dkeys s.a_to_bs

/-- `get_all_active_b()`. -/
def get_all_active_b (s : ExclState α) : List Nat := dkeys s.b_to_a

/-- `count_free`. -/
def count_free (s : ExclState α) : Nat := s.pool.length

/-- `is_empty`. -/
def is_empty (s : ExclState α) : Bool := s.a_to_bs.isEmpty

/-- The public mutating operations of `IDsAssociationManager`. -/
inductive ExclOp (α : Type) where
  | assoc (a : α) (bs : List Nat)
  | alloc (a : α) (force : Bool)
  | rmA (a : α)
  | rmB (b : Nat)
  | clr
deriving DecidableEq

/-- Apply one public operation; a raised exception propagates to the
caller and the object keeps the state it had at the raise. -/
def applyExclOp (s : ExclState α) : ExclOp α → ExclState α
  | .assoc a bs => (associate s a bs).2
  | .alloc a f => (allocate s a f).2
  | .rmA a => remove_a s a
  | .rmB b => remove_b s b
  | .clr => exclClear s

/-- `IDsAssociationManager(univ, single_mode, ordered)`: the initial state.
`univ` is the configured universe of slot ids (for `max_b_ids = n` it is
`range(n)`, i.e. `List.range n`). -/
def initExcl (univ : List Nat) (single ordered : Bool) : ExclState α :=
  { pool := if ordered then sortNat univ else univ,
    b_to_a := [], a_to_bs := [], single := single, ordered := ordered }

/-- Run a sequence of public operations from a fresh manager. -/
def runExcl (univ : List Nat) (single ordered : Bool) (ops : List (ExclOp α)) : ExclState α :=
  ops.foldl applyExclOp (initExcl univ single ordered)

/-- The reachable states of a manager built over universe `univ` with the
given mode flags: all states produced by some sequence of public calls. -/
def ExclReach (univ : List Nat) (single ordered : Bool) (s : ExclState α) : Prop :=
  ∃ ops : List (ExclOp α), runExcl univ single ordered ops = s

/-- `list(s)` for a Python set of owner ids, again with ascending
iteration order as the refinement of CPython's unspecified set order. -/
def finListA (T : Finset α) : List α := T.sort (· ≤ ·)

/-- The state of an `IDsManyToManyManager` instance. -/
structure MMState (α : Type) where
  pool : List Nat
  b_to_as : List (Nat × Finset α)
  a_to_bs : List (α × Finset Nat)
  ordered : Bool
deriving DecidableEq

/-- The slot set recorded for owner `a` in the shared table. -/
def mmSlotsOf (s : MMState α) (a : α) : Finset Nat :=
  (dlookup a s.a_to_bs).getD ∅

/-- The owner set recorded for slot `b` in the shared table. -/
def mmOwnersOf (s : MMState α) (b : Nat) : Finset α :=
  (dlookup b s.b_to_as).getD ∅

/-- `if id_a not in self._a_to_bs: self._a_to_bs[id_a] = set()` (shared). -/
def mmEnsureA (s : MMState α) (a : α) : MMState α :=
  if (dlookup a s.a_to_bs).isSome = true then s
  else { s with a_to_bs := dset a ∅ s.a_to_bs }

/-- The edge-adding state transformation shared by the `associate` loop
body and `allocate` reasoning: pool already reduced to an erase, the edge
`(a, b)` inserted on both sides. -/
def mmAddEdge (s : MMState α) (a : α) (b : Nat) : MMState α :=
  { s with pool := s.pool.erase b,
           b_to_as := dset b (insert a (mmOwnersOf s b)) s.b_to_as,
           a_to_bs := dset a (insert b (mmSlotsOf s a)) s.a_to_bs }

/-- One iteration of the shared `associate` loop body: pool discard, then
add the edge on both sides (`_b_to_as[b].add(a)`, `target_set.add(b)`). -/
def mmAssocStep (a : α) (s : MMState α) (b : Nat) : MMState α :=
  let s1 := { s with pool := poolDiscard s.ordered s.pool b }
  { s1 with b_to_as := dset b (insert a (mmOwnersOf s1 b)) s1.b_to_as,
            a_to_bs := dset a (insert b (mmSlotsOf s1 a)) s1.a_to_bs }

/-- Shared `associate(id_a, id_bs)` (never raises, no stealing). -/
def mmAssociate (s : MMState α) (a : α) (bs : List Nat) : MMState α :=
  bs.foldl (mmAssocStep a) (mmEnsureA s a)

/-- One iteration of the `dissociate` loop body for target slot `b`.
The first conditional is `if b_id in self._a_to_bs[id_a]: remove`; the
match is `if b_id in self._b_to_as and id_a in self._b_to_as[b_id]`
followed by the empty-set check and pool return.  (The owner-side update
does not touch `_b_to_as`, so the match reads the original slot index.) -/
def mmDissocStep (a : α) (t : MMState α) (b : Nat) : MMState α :=
  let t1 := if b ∈ mmSlotsOf t a
            then { t with a_to_bs := dset a ((mmSlotsOf t a).erase b) t.a_to_bs }
            else t
  match dlookup b t.b_to_as with
  | some T =>
      if a ∈ T then
        if T.erase a = ∅ then
          { t1 with b_to_as := ddel b t.b_to_as,
                    pool := releaseId t.ordered false t.pool b }
        else { t1 with b_to_as := dset b (T.erase a) t.b_to_as }
      else t1
  | none => t1

/-- The owner-side half of a `dissociate` step:
`self._a_to_bs[id_a].remove(b_id)` (entry present throughout the loop). -/
def mmEraseSlotFromOwner (s : MMState α) (a : α) (b : Nat) : MMState α :=
  { s with a_to_bs := dset a ((mmSlotsOf s a).erase b) s.a_to_bs }

/-- The `dissociate` step outcome when the slot loses its last owner:
both sides updated, the slot entry dropped and the id released. -/
def mmDissocDrop (s : MMState α) (a : α) (b : Nat) : MMState α :=
  { mmEraseSlotFromOwner s a b with b_to_as := ddel b s.b_to_as,
                                    pool := releaseId s.ordered false s.pool b }

/-- The `dissociate` step outcome when other owners remain: both sides
updated, the slot entry kept with the reduced owner set. -/
def mmDissocKeep (s : MMState α) (a : α) (b : Nat) (T : Finset α) : MMState α :=
  { mmEraseSlotFromOwner s a b with b_to_as := dset b (T.erase a) s.b_to_as }

/-- The final pruning step of `dissociate`:
`if not self._a_to_bs[id_a]: del self._a_to_bs[id_a]`.  (In Python a
missing entry would raise KeyError; the loop never deletes it.) -/
def mmPostPrune (a : α) (t : MMState α) : MMState α :=
  match dlookup a t.a_to_bs with
  | some S => if S = ∅ then { t with a_to_bs := ddel a t.a_to_bs } else t
  | none => t

/-- `dissociate(id_a, id_bs)`: remove the named edges; a slot whose owner
set becomes empty returns to the pool; the owner entry is pruned at the
end of the call if it became empty. -/
def mmDissociate (s : MMState α) (a : α) (bs : List Nat) : MMState α :=
  if (dlookup a s.a_to_bs).isSome = true then
    mmPostPrune a (bs.foldl (mmDissocStep a) s)
  else s

/-- `if id_b not in self._b_to_as: self._b_to_as[id_b] = set()` (shared). -/
def mmEnsureB (s : MMState α) (b : Nat) : MMState α :=
  if (dlookup b s.b_to_as).isSome = true then s
  else { s with b_to_as := dset b ∅ s.b_to_as }

/-- `self._a_to_bs[id_a].add(b_id); self._b_to_as[b_id].add(id_a)`. -/
def mmAttachBoth (t : MMState α) (a : α) (b : Nat) : MMState α :=
  { t with b_to_as := dset b (insert a (mmOwnersOf t b)) t.b_to_as,
           a_to_bs := dset a (insert b (mmSlotsOf t a)) t.a_to_bs }

/-- Shared `allocate(id_a)`: pop a free id and attach it on both sides. -/
def mmAllocate (s : MMState α) (a : α) : Except PyErr Nat × MMState α :=
  match s.pool with
  | [] => (.error .memError, s)
  | b :: rest =>
      (.ok b, mmAttachBoth (mmEnsureB (mmEnsureA { s with pool := rest } a) b) a b)

/-- Dropping a slot entry and releasing the id (shared `remove_a` branch
when the discarded owner was the last one). -/
def mmDropSlot (t : MMState α) (b : Nat) : MMState α :=
  { t with b_to_as := ddel b t.b_to_as, pool := releaseId t.ordered false t.pool b }

/-- Replacing a slot entry's owner set (shared `remove_a` branch when
other owners remain). -/
def mmShrinkSlot (t : MMState α) (b : Nat) (T2 : Finset α) : MMState α :=
  { t with b_to_as := dset b T2 t.b_to_as }

/-- One iteration of the shared `remove_a` loop body for slot `b`:
`self._b_to_as[b_id].discard(id_a)` and release when it became empty. -/
def mmRemove_aStep (a : α) (t : MMState α) (b : Nat) : MMState α :=
  match dlookup b t.b_to_as with
  | some T =>
      if T.erase a = ∅ then mmDropSlot t b else mmShrinkSlot t b (T.erase a)
  | none => t

/-- Shared `remove_a(id_a)`: pop the owner entry, then for each slot it
held discard the owner from the slot's set, releasing the slot when the
set becomes empty. -/
def mmRemove_a (s : MMState α) (a : α) : MMState α :=
  match dlookup a s.a_to_bs with
  | some S =>
      (finList S).foldl (mmRemove_aStep a) { s with a_to_bs := ddel a s.a_to_bs }
  | none => s

/-- Pruning an owner entry (shared `remove_b` branch when the discarded
slot was the owner's last one). -/
def mmPruneOwner (t : MMState α) (a : α) : MMState α :=
  { t with a_to_bs := ddel a t.a_to_bs }

/-- Replacing an owner entry's slot set (shared `remove_b` branch when
other slots remain). -/
def mmShrinkOwner (t : MMState α) (a : α) (S2 : Finset Nat) : MMState α :=
  { t with a_to_bs := dset a S2 t.a_to_bs }

/-- One iteration of the shared `remove_b` loop body for owner `a`:
`self._a_to_bs[owner_a].discard(id_b)` and prune the owner if now empty. -/
def mmRemove_bStep (b : Nat) (t : MMState α) (a : α) : MMState α :=
  match dlookup a t.a_to_bs with
  | some S =>
      if S.erase b = ∅ then mmPruneOwner t a else mmShrinkOwner t a (S.erase b)
  | none => t

/-- The final pool return of shared `remove_b`: `self._release_id(id_b)`. -/
def mmFinishRemove_b (t : MMState α) (b : Nat) : MMState α :=
  { t with pool := releaseId t.ordered false t.pool b }

/-- Shared `remove_b(id_b)`: pop the slot entry, discard the slot from
every owner that held it (pruning empty owner entries), then release the
slot; unknown slots are released with the duplicate check. -/
def mmRemove_b (s : MMState α) (b : Nat) : MMState α :=
  match dlookup b s.b_to_as with
  | some T =>
      mmFinishRemove_b
        ((finListA T).foldl (mmRemove_bStep b) { s with b_to_as := ddel b s.b_to_as }) b
  | none => { s with pool := releaseId s.ordered true s.pool b }

/-- Shared `clear()`. -/
def mmClear (s : MMState α) : MMState α :=
  let held := dkeys s.b_to_as
  { s with b_to_as := [], a_to_bs := [],
           pool := if s.ordered then sortNat (held ++ s.pool)
                   else held.foldl setAdd s.pool }

/-- `get_bs(id_a)` of the shared table. -/
def mmGet_bs (s : MMState α) (a : α) : Finset Nat := mmSlotsOf s a

/-- `get_as(id_b)` of the shared table. -/
def mmGet_as (s : MMState α) (b : Nat) : Finset α := mmOwnersOf s b

/-- Shared `get_all_active_a()`. -/
def mmActiveA (s : MMState α) : List α := dkeys s.a_to_bs

/-- Shared `get_all_active_b()`. -/
def mmActiveB (s : MMState α) : List Nat := dkeys s.b_to_as

/-- Shared `count_free`. -/
def mmCountFree (s : MMState α) : Nat := s.pool.length

/-- Shared `is_empty`. -/
def mmIsEmpty (s : MMState α) : Bool := s.a_to_bs.isEmpty

/-- The public mutating operations of `IDsManyToManyManager`. -/
inductive MMOp (α : Type) where
  | assoc (a : α) (bs : List Nat)
  | dissoc (a : α) (bs : List Nat)
  | alloc (a : α)
  | rmA (a : α)
  | rmB (b : Nat)
  | clr
deriving DecidableEq

/-- Apply one shared-table operation (errors propagate, state kept). -/
def applyMMOp (s : MMState α) : MMOp α → MMState α
  | .assoc a bs => mmAssociate s a bs
  | .dissoc a bs => mmDissociate s a bs
  | .alloc a => (mmAllocate s a).2
  | .rmA a => mmRemove_a s a
  | .rmB b => mmRemove_b s b
  | .clr => mmClear s

/-- `IDsManyToManyManager(univ, ordered)`: the initial state. -/
def initMM (univ : List Nat) (ordered : Bool) : MMState α :=
  { pool := if ordered then sortNat univ else univ,
    b_to_as := [], a_to_bs := [], ordered := ordered }

/-- Run a sequence of public operations from a fresh shared manager. -/
def runMM (univ : List Nat) (ordered : Bool) (ops : List (MMOp α)) : MMState α :=
  ops.foldl applyMMOp (initMM univ ordered)

/-- Reachable states of the shared manager. -/
def MMReach (univ : List Nat) (ordered : Bool) (s : MMState α) : Prop :=
  ∃ ops : List (MMOp α), runMM univ ordered ops = s

/-- Well-formedness of the free pool representation: no duplicate ids,
and ascending order in ordered mode. -/
def PoolOK (ordered : Bool) (pool : List Nat) : Prop :=
  pool.Nodup ∧ (ordered = true → pool.Pairwise (· < ·))

/-- Marks the exclusive-table operations whose target-slot list is
non-empty; `associate` with an empty list is the one call that plants an
empty owner entry, so the amended pruning claim excludes it. -/
def ExclOpNE : ExclOp α → Bool
  | ExclOp.assoc _ bs => !bs.isEmpty
  | _ => true

/-- The shared-table analogue of `ExclOpNE`. -/
def MMOpNE : MMOp α → Bool
  | MMOp.assoc _ bs => !bs.isEmpty
  | _ => true

/-- No owner entry of the exclusive table carries an empty slot set. -/
def ExclNE (s : ExclState α) : Prop :=
  ∀ (a : α) (S : Finset Nat), dlookup a s.a_to_bs = some S → S ≠ ∅

/-- No owner entry of the shared table carries an empty slot set. -/
def MMNE (t : MMState α) : Prop :=
  ∀ (a : α) (S : Finset Nat), dlookup a t.a_to_bs = some S → S ≠ ∅

/-- The inductive invariant of the exclusive manager: modes are constant,
the pool is well-formed, dict keys are distinct, the two indexes are
bidirectionally consistent (I2), pooled ids are unowned (half of I1), and
every universe id is pooled or owned (the other half of I1). -/
structure ExclInv (univ : List Nat) (sm om : Bool) (s : ExclState α) : Prop where
  singleEq : s.single = sm
  orderedEq : s.ordered = om
  pool_ok : PoolOK s.ordered s.pool
  keysB : (dkeys s.b_to_a).Nodup
  keysA : (dkeys s.a_to_bs).Nodup
  bidir : ∀ (a : α) (b : Nat), dlookup b s.b_to_a = some a ↔ b ∈ slotsOf s a
  poolFree : ∀ b ∈ s.pool, dlookup b s.b_to_a = none
  cover : ∀ b ∈ univ, b ∈ s.pool ∨ (dlookup b s.b_to_a).isSome = true

/-- Single-owner-mode cardinality invariant (I4): when the flag is set,
every owner holds at most one slot. -/
def Single1 (s : ExclState α) : Prop :=
  s.single = true → ∀ a : α, (slotsOf s a).card ≤ 1

/-- The inductive invariant of the shared manager: pool well-formedness,
distinct dict keys, bidirectional edge consistency (I2'), pooled slots
unindexed and universe coverage (I1'), and slot entries never empty (the
slot half of I3'). -/
structure MMInv (univ : List Nat) (om : Bool) (s : MMState α) : Prop where
  orderedEq : s.ordered = om
  pool_ok : PoolOK s.ordered s.pool
  keysB : (dkeys s.b_to_as).Nodup
  keysA : (dkeys s.a_to_bs).Nodup
  bidir : ∀ (a : α) (b : Nat), a ∈ mmOwnersOf s b ↔ b ∈ mmSlotsOf s a
  poolFree : ∀ b ∈ s.pool, dlookup b s.b_to_as = none
  cover : ∀ b ∈ univ, b ∈ s.pool ∨ (dlookup b s.b_to_as).isSome = true
  slotNE : ∀ (b : Nat) (T : Finset α), dlookup b s.b_to_as = some T → T ≠ ∅

section DictLemmas

variable {κ β : Type} [DecidableEq κ]

theorem dlookup_cons_self {k : κ} {v : β} {d : List (κ × β)} :
    dlookup k ((k, v) :: d) = some v := by
  simp [dlookup]

theorem dlookup_cons_ne {k pk : κ} {pv : β} {d : List (κ × β)} (h : pk ≠ k) :
    dlookup k ((pk, pv) :: d) = dlookup k d := by
  simp [dlookup, h]

theorem dset_cons_self {k : κ} {v w : β} {d : List (κ × β)} :
    dset k v ((k, w) :: d) = (k, v) :: d := by
  simp [dset]

theorem dset_cons_ne {k pk : κ} {v pv : β} {d : List (κ × β)} (h : pk ≠ k) :
    dset k v ((pk, pv) :: d) = (pk, pv) :: dset k v d := by
  simp [dset, h]

theorem ddel_cons_self {k : κ} {v : β} {d : List (κ × β)} :
    ddel k ((k, v) :: d) = d := by
  simp [ddel]

theorem ddel_cons_ne {k pk : κ} {pv : β} {d : List (κ × β)} (h : pk ≠ k) :
    ddel k ((pk, pv) :: d) = (pk, pv) :: ddel k d := by
  simp [ddel, h]

theorem dkeys_cons {p : κ × β} {d : List (κ × β)} :
    dkeys (p :: d) = p.1 :: dkeys d := rfl

theorem dlookup_eq_none {k : κ} {d : List (κ × β)} :
    dlookup k d = none ↔ k ∉ dkeys d := by
  induction d with
  | nil => simp [dlookup, dkeys]
  | cons p rest ih =>
    obtain ⟨pk, pv⟩ := p
    simp only [dlookup, dkeys, List.map_cons, List.mem_cons]
    by_cases h : pk = k
    · subst h
      simp
    · simp only [if_neg h, ih, dkeys, not_or]
      constructor
      · intro hk
        exact ⟨fun he => h he.symm, hk⟩
      · intro hk
        exact hk.2

theorem dlookup_isSome {k : κ} {d : List (κ × β)} :
    (dlookup k d).isSome = true ↔ k ∈ dkeys d := by
  constructor
  · intro hs
    by_contra hk
    rw [dlookup_eq_none.mpr hk] at hs
    simp at hs
  · intro hk
    rcases hmem : dlookup k d with _ | v
    · exact absurd (dlookup_eq_none.mp hmem) (by simp [hk])
    · simp

theorem dlookup_dset_self {k : κ} {v : β} {d : List (κ × β)} :
    dlookup k (dset k v d) = some v := by
  induction d with
  | nil => simp [dlookup, dset]
  | cons p rest ih =>
    obtain ⟨pk, pv⟩ := p
    by_cases h : pk = k
    · subst h
      simp [dlookup, dset]
    · simp [dlookup, dset, h, ih]

theorem dlookup_dset_ne {k k' : κ} {v : β} {d : List (κ × β)} (h : k' ≠ k) :
    dlookup k' (dset k v d) = dlookup k' d := by
  induction d with
  | nil => simp [dlookup, dset, Ne.symm h]
  | cons p rest ih =>
    obtain ⟨pk, pv⟩ := p
    by_cases hp : pk = k
    · subst hp
      rw [dset_cons_self, dlookup_cons_ne (Ne.symm h), dlookup_cons_ne (Ne.symm h)]
    · rw [dset_cons_ne hp]
      by_cases hp' : pk = k'
      · subst hp'
        rw [dlookup_cons_self, dlookup_cons_self]
      · rw [dlookup_cons_ne hp', dlookup_cons_ne hp', ih]

theorem dlookup_ddel_ne {k k' : κ} {d : List (κ × β)} (h : k' ≠ k) :
    dlookup k' (ddel k d) = dlookup k' d := by
  induction d with
  | nil => simp [ddel]
  | cons p rest ih =>
    obtain ⟨pk, pv⟩ := p
    by_cases hp : pk = k
    · subst hp
      rw [ddel_cons_self, dlookup_cons_ne (Ne.symm h)]
    · rw [ddel_cons_ne hp]
      by_cases hp' : pk = k'
      · subst hp'
        rw [dlookup_cons_self, dlookup_cons_self]
      · rw [dlookup_cons_ne hp', dlookup_cons_ne hp', ih]

theorem ddel_sublist {k : κ} {d : List (κ × β)} : (ddel k d).Sublist d := by
  induction d with
  | nil => simp [ddel]
  | cons p rest ih =>
    by_cases hp : p.1 = k
    · simpa [ddel, hp] using List.sublist_cons_self p rest
    · simpa [ddel, hp] using ih.cons₂ p

theorem dkeys_nodup_ddel {k : κ} {d : List (κ × β)} (h : (dkeys d).Nodup) :
    (dkeys (ddel k d)).Nodup :=
  h.sublist (((ddel_sublist : (ddel k d).Sublist d)).map Prod.fst)

theorem dlookup_ddel_self {k : κ} {d : List (κ × β)} (h : (dkeys d).Nodup) :
    dlookup k (ddel k d) = none := by
  induction d with
  | nil => simp [ddel, dlookup]
  | cons p rest ih =>
    obtain ⟨pk, pv⟩ := p
    simp only [dkeys, List.map_cons, List.nodup_cons] at h
    by_cases hp : pk = k
    · subst hp
      simpa [ddel, dlookup_eq_none, dkeys] using h.1
    · simp [ddel, hp, dlookup, ih h.2]

theorem mem_dkeys_ddel {k k' : κ} {d : List (κ × β)} :
    k' ∈ dkeys (ddel k d) → k' ∈ dkeys d := fun h =>
  (((ddel_sublist : (ddel k d).Sublist d)).map Prod.fst).mem h

theorem mem_dkeys_dset {k k' : κ} {v : β} {d : List (κ × β)} :
    k' ∈ dkeys (dset k v d) ↔ k' ∈ dkeys d ∨ k' = k := by
  induction d with
  | nil => simp [dset, dkeys]
  | cons p rest ih =>
    obtain ⟨pk, pv⟩ := p
    by_cases hp : pk = k
    · subst hp
      rw [dset_cons_self, dkeys_cons, dkeys_cons]
      simp only [List.mem_cons]
      tauto
    · rw [dset_cons_ne hp, dkeys_cons, dkeys_cons]
      simp only [List.mem_cons, ih]
      tauto

theorem dkeys_nodup_dset {k : κ} {v : β} {d : List (κ × β)} (h : (dkeys d).Nodup) :
    (dkeys (dset k v d)).Nodup := by
  induction d with
  | nil => simp [dset, dkeys]
  | cons p rest ih =>
    obtain ⟨pk, pv⟩ := p
    simp only [dkeys, List.map_cons, List.nodup_cons] at h
    by_cases hp : pk = k
    · subst hp
      rw [dset_cons_self, dkeys_cons]
      exact List.nodup_cons.mpr ⟨h.1, h.2⟩
    · rw [dset_cons_ne hp, dkeys_cons]
      refine List.nodup_cons.mpr ⟨?_, ih h.2⟩
      intro hmem
      rcases mem_dkeys_dset.mp hmem with hm | hm
      · exact h.1 hm
      · exact hp hm

end DictLemmas

section PoolLemmas

theorem insort_perm (l : List Nat) (b : Nat) : (insort l b).Perm (b :: l) := by
  induction l with
  | nil => simp [insort]
  | cons y ys ih =>
    by_cases h : b < y
    · simp [insort, h]
    · simp only [insort, if_neg h]
      exact (ih.cons y).trans (List.Perm.swap b y ys)

theorem mem_insort {l : List Nat} {b x : Nat} : x ∈ insort l b ↔ x = b ∨ x ∈ l := by
  simpa using (insort_perm l b).mem_iff

theorem length_insort {l : List Nat} {b : Nat} : (insort l b).length = l.length + 1 := by
  simpa using (insort_perm l b).length_eq

theorem nodup_insort {l : List Nat} {b : Nat} (hl : l.Nodup) (hb : b ∉ l) :
    (insort l b).Nodup :=
  (insort_perm l b).nodup_iff.mpr (by simp [hl, hb])

theorem sorted_insort {l : List Nat} {b : Nat} (hl : l.Pairwise (· < ·)) (hb : b ∉ l) :
    (insort l b).Pairwise (· < ·) := by
  induction l with
  | nil => simp [insort]
  | cons y ys ih =>
    rcases List.pairwise_cons.mp hl with ⟨hy, hys⟩
    simp only [List.mem_cons, not_or] at hb
    rw [insort]
    by_cases h : b < y
    · rw [if_pos h]
      refine List.pairwise_cons.mpr ⟨?_, hl⟩
      intro z hz
      rcases List.mem_cons.mp hz with rfl | hz2
      · exact h
      · exact h.trans (hy z hz2)
    · rw [if_neg h]
      refine List.pairwise_cons.mpr ⟨?_, ih hys hb.2⟩
      intro z hz
      rcases mem_insort.mp hz with rfl | hz2
      · exact lt_of_le_of_ne (not_lt.mp h) (fun hh => hb.1 hh.symm)
      · exact hy z hz2

theorem removeSorted_eq_erase {l : List Nat} {b : Nat} (hl : l.Pairwise (· < ·)) :
    removeSorted l b = l.erase b := by
  induction l with
  | nil => simp [removeSorted]
  | cons y ys ih =>
    rcases List.pairwise_cons.mp hl with ⟨hy, hys⟩
    by_cases h1 : y < b
    · rw [removeSorted, if_pos h1, List.erase_cons_tail (by simp [Nat.ne_of_lt h1]), ih hys]
    · by_cases h2 : y = b
      · subst h2
        simp [removeSorted, List.erase_cons_head]
      · rw [removeSorted, if_neg h1, if_neg h2, List.erase_cons_tail (by simp [h2]),
          List.erase_of_not_mem]
        intro hmem
        exact h1 (hy b hmem)

theorem sorted_erase {l : List Nat} {b : Nat} (hl : l.Pairwise (· < ·)) :
    (l.erase b).Pairwise (· < ·) :=
  hl.sublist (List.erase_sublist b l)

theorem mem_setAdd {l : List Nat} {b x : Nat} : x ∈ setAdd l b ↔ x = b ∨ x ∈ l := by
  unfold setAdd
  by_cases h : b ∈ l <;> simp [h]
  intro he
  subst he
  exact h

theorem nodup_setAdd {l : List Nat} {b : Nat} (hl : l.Nodup) : (setAdd l b).Nodup := by
  unfold setAdd
  by_cases h : b ∈ l <;> simp [h, hl]

theorem sortNat_perm (l : List Nat) : (sortNat l).Perm l := by
  suffices h : ∀ (acc : List Nat), (l.foldl insort acc).Perm (acc ++ l) by
    simpa using h []
  induction l with
  | nil => intro acc; simp
  | cons y ys ih =>
    intro acc
    simp only [List.foldl_cons]
    refine (ih (insort acc y)).trans ?_
    refine ((insort_perm acc y).append_right ys).trans ?_
    simpa using (List.perm_middle : (acc ++ y :: ys).Perm (y :: (acc ++ ys))).symm

theorem foldl_insort_sorted : ∀ (l acc : List Nat), acc.Pairwise (· < ·) → (acc ++ l).Nodup →
    (l.foldl insort acc).Pairwise (· < ·)
  | [], acc, h1, _ => by simpa using h1
  | y :: ys, acc, h1, h2 => by
    simp only [List.foldl_cons]
    have hy : y ∉ acc := by
      intro hmem
      exact (List.disjoint_of_nodup_append h2) hmem (by simp)
    refine foldl_insort_sorted ys (insort acc y) (sorted_insort h1 hy) ?_
    have hperm : ((insort acc y) ++ ys).Perm (acc ++ y :: ys) := by
      refine ((insort_perm acc y).append_right ys).trans ?_
      simpa using (List.perm_middle : (acc ++ y :: ys).Perm (y :: (acc ++ ys))).symm
    exact hperm.nodup_iff.mpr h2

theorem sorted_sortNat {l : List Nat} (hl : l.Nodup) : (sortNat l).Pairwise (· < ·) :=
  foldl_insort_sorted l [] (by simp) (by simpa using hl)

theorem nodup_sortNat {l : List Nat} (hl : l.Nodup) : (sortNat l).Nodup :=
  (sortNat_perm l).nodup_iff.mpr hl

theorem length_sortNat (l : List Nat) : (sortNat l).length = l.length :=
  (sortNat_perm l).length_eq

theorem mem_sortNat {l : List Nat} {x : Nat} : x ∈ sortNat l ↔ x ∈ l :=
  (sortNat_perm l).mem_iff

end PoolLemmas

section PoolOKLemmas

theorem poolOK_erase {o : Bool} {p : List Nat} {b : Nat} (h : PoolOK o p) :
    PoolOK o (p.erase b) :=
  ⟨h.1.erase b, fun ho => sorted_erase (h.2 ho)⟩

theorem poolDiscard_eq_erase {o : Bool} {p : List Nat} {b : Nat} (h : PoolOK o p) :
    poolDiscard o p b = p.erase b := by
  cases o
  · rfl
  · exact removeSorted_eq_erase (h.2 rfl)

theorem mem_releaseId {o c : Bool} {p : List Nat} {b x : Nat} :
    x ∈ releaseId o c p b ↔ x = b ∨ x ∈ p := by
  unfold releaseId
  cases o
  · exact mem_setAdd
  · cases c
    · exact mem_insort
    · by_cases hb : b ∈ p
      · simp only [if_pos hb]
        constructor
        · exact Or.inr
        · rintro (rfl | h)
          · exact hb
          · exact h
      · simp only [if_neg hb]
        exact mem_insort

theorem poolOK_releaseId_not_mem {o c : Bool} {p : List Nat} {b : Nat}
    (h : PoolOK o p) (hb : b ∉ p) : PoolOK o (releaseId o c p b) := by
  unfold releaseId
  cases o
  · exact ⟨nodup_setAdd h.1, fun hh => Bool.noConfusion hh⟩
  · have hins : PoolOK true (insort p b) :=
      ⟨nodup_insort h.1 hb, fun _ => sorted_insort (h.2 rfl) hb⟩
    cases c
    · exact hins
    · simpa [if_neg hb] using hins

theorem poolOK_releaseId_chk {o : Bool} {p : List Nat} {b : Nat}
    (h : PoolOK o p) : PoolOK o (releaseId o true p b) := by
  by_cases hb : b ∈ p
  · unfold releaseId setAdd
    cases o
    · simpa [hb] using h
    · simpa [hb] using h
  · exact poolOK_releaseId_not_mem h hb

end PoolOKLemmas

section FoldHelpers

theorem foldl_preserves {σ β : Type} (P : σ → Prop) {f : σ → β → σ}
    (hf : ∀ t x, P t → P (f t x)) : ∀ (L : List β) (t : σ), P t → P (L.foldl f t)
  | [], _, h => h
  | x :: xs, t, h => foldl_preserves P hf xs (f t x) (hf t x h)

theorem foldl_proj {σ β γ : Type} (g : σ → γ) {f : σ → β → σ}
    (hf : ∀ t x, g (f t x) = g t) : ∀ (L : List β) (t : σ), g (L.foldl f t) = g t
  | [], _ => rfl
  | x :: xs, t => by rw [List.foldl_cons, foldl_proj g hf xs, hf]

end FoldHelpers

section FinListLemmas

theorem mem_finList {S : Finset Nat} {b : Nat} : b ∈ finList S ↔ b ∈ S :=
  Finset.mem_sort _

theorem nodup_finList {S : Finset Nat} : (finList S).Nodup :=
  Finset.sort_nodup _ _

theorem finList_empty : finList (∅ : Finset Nat) = [] :=
  Finset.sort_empty _

theorem finList_singleton {x : Nat} : finList {x} = [x] :=
  Finset.sort_singleton _ x

theorem mem_finListA {T : Finset α} {a : α} : a ∈ finListA T ↔ a ∈ T :=
  Finset.mem_sort _

theorem nodup_finListA {T : Finset α} : (finListA T).Nodup :=
  Finset.sort_nodup _ _

theorem card_le_one_cases {S : Finset Nat} (h : S.card ≤ 1) :
    S = ∅ ∨ ∃ x, S = {x} := by
  rcases S.eq_empty_or_nonempty with he | ⟨x, hx⟩
  · exact Or.inl he
  · refine Or.inr ⟨x, ?_⟩
    apply Finset.eq_singleton_iff_unique_mem.mpr
    refine ⟨hx, fun y hy => ?_⟩
    by_contra hne
    have : 2 ≤ S.card := Finset.one_lt_card.mpr ⟨y, hy, x, hx, hne⟩
    omega

end FinListLemmas

section SlotsOfLemmas

theorem slotsOf_eq_of_lookup {s : ExclState α} {a : α} {S : Finset Nat}
    (h : dlookup a s.a_to_bs = some S) : slotsOf s a = S := by
  unfold slotsOf
  rw [h]
  rfl

theorem slotsOf_eq_empty_of_none {s : ExclState α} {a : α}
    (h : dlookup a s.a_to_bs = none) : slotsOf s a = ∅ := by
  unfold slotsOf
  rw [h]
  rfl

end SlotsOfLemmas

section ExclEquations

theorem remove_b_owned_eq {s : ExclState α} {b : Nat} {oldA : α}
    (hb : dlookup b s.b_to_a = some oldA) :
    remove_b s b = removeOwned s oldA b := by
  unfold remove_b
  rw [hb]

theorem removeOwned_b_to_a {s : ExclState α} {oldA : α} {b : Nat} :
    (removeOwned s oldA b).b_to_a = ddel b s.b_to_a := rfl

theorem removeOwned_pool {s : ExclState α} {oldA : α} {b : Nat} :
    (removeOwned s oldA b).pool = releaseId s.ordered false s.pool b := rfl

theorem slotsOf_removeOwned {s : ExclState α} {oldA a' : α} {b : Nat} :
    slotsOf (removeOwned s oldA b) a' = slotsOf (detachOwner s oldA b) a' := rfl

theorem remove_b_unknown_eq {s : ExclState α} {b : Nat}
    (hb : dlookup b s.b_to_a = none) :
    remove_b s b = { s with pool := releaseId s.ordered true s.pool b } := by
  unfold remove_b
  rw [hb]

theorem assocStep_self_eq {s : ExclState α} {a : α} {b : Nat}
    (hb : dlookup b s.b_to_a = some a) : assocStep a s b = s := by
  unfold assocStep
  rw [hb]
  simp

theorem assocStep_steal_eq {s : ExclState α} {a oldA : α} {b : Nat}
    (hb : dlookup b s.b_to_a = some oldA) (hne : oldA ≠ a) :
    assocStep a s b = exclAttach a b (detachOwner s oldA b) := by
  unfold assocStep
  rw [hb]
  simp [hne]

theorem assocStep_free_eq {s : ExclState α} {a : α} {b : Nat}
    (hb : dlookup b s.b_to_a = none) :
    assocStep a s b = exclAttach a b { s with pool := poolDiscard s.ordered s.pool b } := by
  unfold assocStep
  rw [hb]

theorem associate_err_eq {s : ExclState α} {a : α} {bs : List Nat}
    (h1 : s.single = true) (h2 : 1 < bs.length) :
    associate s a bs = (some .valueMulti, s) := by
  unfold associate
  rw [if_pos ⟨h1, h2⟩]

theorem associate_ok_eq {s : ExclState α} {a : α} {bs : List Nat}
    (h : ¬(s.single = true ∧ 1 < bs.length)) :
    associate s a bs =
      (none, bs.foldl (assocStep a)
        (ensureA (if s.single = true then singlePreRelease s a else s) a)) := by
  unfold associate
  rw [if_neg h]

end ExclEquations

section SlotsOfUpdateLemmas

theorem slotsOf_detachOwner {s : ExclState α} {oldA a' : α} {b : Nat}
    (hkA : (dkeys s.a_to_bs).Nodup) :
    slotsOf (detachOwner s oldA b) a'
      = if a' = oldA then (slotsOf s oldA).erase b else slotsOf s a' := by
  unfold detachOwner
  by_cases hps : (slotsOf s oldA).erase b = ∅
  · rw [if_pos hps]
    by_cases ha : a' = oldA
    · subst ha
      rw [if_pos rfl, hps]
      exact slotsOf_eq_empty_of_none (dlookup_ddel_self hkA)
    · rw [if_neg ha]
      unfold slotsOf
      rw [dlookup_ddel_ne ha]
  · rw [if_neg hps]
    by_cases ha : a' = oldA
    · subst ha
      rw [if_pos rfl]
      exact slotsOf_eq_of_lookup dlookup_dset_self
    · rw [if_neg ha]
      unfold slotsOf
      rw [dlookup_dset_ne ha]

theorem keysA_detachOwner {s : ExclState α} {oldA : α} {b : Nat}
    (hkA : (dkeys s.a_to_bs).Nodup) :
    (dkeys (detachOwner s oldA b).a_to_bs).Nodup := by
  unfold detachOwner
  by_cases hps : (slotsOf s oldA).erase b = ∅
  · rw [if_pos hps]
    exact dkeys_nodup_ddel hkA
  · rw [if_neg hps]
    exact dkeys_nodup_dset hkA

theorem slotsOf_exclAttach_self {s : ExclState α} {a : α} {b : Nat} :
    slotsOf (exclAttach a b s) a = insert b (slotsOf s a) := by
  unfold exclAttach slotsOf
  rw [dlookup_dset_self]
  rfl

theorem slotsOf_exclAttach_ne {s : ExclState α} {a a' : α} {b : Nat} (h : a' ≠ a) :
    slotsOf (exclAttach a b s) a' = slotsOf s a' := by
  unfold exclAttach slotsOf
  rw [dlookup_dset_ne h]

theorem slotsOf_ensureA {s : ExclState α} {a a' : α} :
    slotsOf (ensureA s a) a' = slotsOf s a' := by
  unfold ensureA
  by_cases hs : (dlookup a s.a_to_bs).isSome = true
  · rw [if_pos hs]
  · rw [if_neg hs]
    by_cases ha : a' = a
    · subst ha
      have hnone : dlookup a' s.a_to_bs = none := by
        rcases h : dlookup a' s.a_to_bs with _ | v
        · rfl
        · rw [h] at hs
          simp at hs
      rw [slotsOf_eq_empty_of_none hnone]
      exact slotsOf_eq_of_lookup dlookup_dset_self
    · unfold slotsOf
      rw [dlookup_dset_ne ha]

theorem keysA_ensureA {s : ExclState α} {a : α} (hkA : (dkeys s.a_to_bs).Nodup) :
    (dkeys (ensureA s a).a_to_bs).Nodup := by
  unfold ensureA
  by_cases hs : (dlookup a s.a_to_bs).isSome = true
  · rw [if_pos hs]
    exact hkA
  · rw [if_neg hs]
    exact dkeys_nodup_dset hkA

end SlotsOfUpdateLemmas

section ExclPreservation

variable {univ : List Nat} {sm om : Bool}

/-- Attaching a fresh edge `b ↦ a` preserves the invariant, provided `b`
is not currently pooled nor recorded in any owner set. -/
theorem exclInv_attach {s : ExclState α} {a : α} {b : Nat}
    (hse : s.single = sm) (hoe : s.ordered = om)
    (hpool : PoolOK s.ordered s.pool)
    (hkB : (dkeys s.b_to_a).Nodup) (hkA : (dkeys s.a_to_bs).Nodup)
    (hbid : ∀ (a' : α) (b' : Nat), b' ≠ b →
      (dlookup b' s.b_to_a = some a' ↔ b' ∈ slotsOf s a'))
    (hnb : ∀ a' : α, b ∉ slotsOf s a')
    (hbp : b ∉ s.pool)
    (hfree : ∀ x ∈ s.pool, dlookup x s.b_to_a = none)
    (hcov : ∀ u ∈ univ, u ≠ b → u ∈ s.pool ∨ (dlookup u s.b_to_a).isSome = true) :
    ExclInv univ sm om (exclAttach a b s) := by
  refine ⟨hse, hoe, hpool, dkeys_nodup_dset hkB, dkeys_nodup_dset hkA, ?_, ?_, ?_⟩
  · intro a' b'
    have hba : (exclAttach a b s).b_to_a = dset b a s.b_to_a := rfl
    by_cases hbb : b' = b
    · subst hbb
      rw [hba, dlookup_dset_self]
      by_cases haa : a' = a
      · subst haa
        rw [slotsOf_exclAttach_self]
        simp
      · rw [slotsOf_exclAttach_ne haa]
        constructor
        · intro h
          exact absurd (Option.some.inj h).symm haa
        · intro h
          exact absurd h (hnb a')
    · rw [hba, dlookup_dset_ne hbb]
      by_cases haa : a' = a
      · subst haa
        rw [slotsOf_exclAttach_self, Finset.mem_insert]
        constructor
        · intro h
          exact Or.inr ((hbid a' b' hbb).mp h)
        · rintro (rfl | h)
          · exact absurd rfl hbb
          · exact (hbid a' b' hbb).mpr h
      · rw [slotsOf_exclAttach_ne haa]
        exact hbid a' b' hbb
  · intro x hx
    have hxb : x ≠ b := fun he => hbp (he ▸ hx)
    have hba : (exclAttach a b s).b_to_a = dset b a s.b_to_a := rfl
    rw [hba, dlookup_dset_ne hxb]
    exact hfree x hx
  · intro u hu
    have hba : (exclAttach a b s).b_to_a = dset b a s.b_to_a := rfl
    by_cases hub : u = b
    · subst hub
      rw [hba, dlookup_dset_self]
      exact Or.inr rfl
    · rcases hcov u hu hub with h | h
      · exact Or.inl h
      · rw [hba, dlookup_dset_ne hub]
        exact Or.inr h

/-- `remove_b` preserves the invariant. -/
theorem exclInv_remove_b {s : ExclState α} (hv : ExclInv univ sm om s) (b : Nat) :
    ExclInv univ sm om (remove_b s b) := by
  rcases hb : dlookup b s.b_to_a with _ | oldA
  · rw [remove_b_unknown_eq hb]
    refine ⟨hv.singleEq, hv.orderedEq, poolOK_releaseId_chk hv.pool_ok,
      hv.keysB, hv.keysA, hv.bidir, ?_, ?_⟩
    · intro x hx
      rcases mem_releaseId.mp hx with rfl | hx2
      · exact hb
      · exact hv.poolFree x hx2
    · intro u hu
      rcases hv.cover u hu with h | h
      · exact Or.inl (mem_releaseId.mpr (Or.inr h))
      · exact Or.inr h
  · rw [remove_b_owned_eq hb]
    have hbp : b ∉ s.pool := fun hp => by rw [hv.poolFree b hp] at hb; cases hb
    refine ⟨hv.singleEq, hv.orderedEq, poolOK_releaseId_not_mem hv.pool_ok hbp,
      dkeys_nodup_ddel hv.keysB, keysA_detachOwner hv.keysA, ?_, ?_, ?_⟩
    · intro a' b'
      rw [slotsOf_removeOwned, slotsOf_detachOwner hv.keysA, removeOwned_b_to_a]
      by_cases hbb : b' = b
      · subst hbb
        rw [dlookup_ddel_self hv.keysB]
        constructor
        · intro h
          cases h
        · intro h
          by_cases haa : a' = oldA
          · rw [if_pos haa] at h
            exact absurd h (Finset.not_mem_erase b' _)
          · rw [if_neg haa] at h
            have := (hv.bidir a' b').mpr h
            rw [hb] at this
            exact absurd (Option.some.inj this).symm haa
      · rw [dlookup_ddel_ne hbb]
        by_cases haa : a' = oldA
        · subst haa
          rw [if_pos rfl, Finset.mem_erase]
          constructor
          · intro h
            exact ⟨hbb, (hv.bidir a' b').mp h⟩
          · intro h
            exact (hv.bidir a' b').mpr h.2
        · rw [if_neg haa]
          exact hv.bidir a' b'
    · intro x hx
      rw [removeOwned_pool] at hx
      rw [removeOwned_b_to_a]
      rcases mem_releaseId.mp hx with rfl | hx2
      · exact dlookup_ddel_self hv.keysB
      · have hxb : x ≠ b := fun he => hbp (he ▸ hx2)
        rw [dlookup_ddel_ne hxb]
        exact hv.poolFree x hx2
    · intro u hu
      rw [removeOwned_pool, removeOwned_b_to_a]
      by_cases hub : u = b
      · subst hub
        exact Or.inl (mem_releaseId.mpr (Or.inl rfl))
      · rcases hv.cover u hu with h | h
        · exact Or.inl (mem_releaseId.mpr (Or.inr h))
        · rw [dlookup_ddel_ne hub]
          exact Or.inr h

/-- `remove_b` preserves the single-mode cardinality invariant. -/
theorem single1_remove_b {s : ExclState α} (hv : ExclInv univ sm om s)
    (h1 : Single1 s) (b : Nat) : Single1 (remove_b s b) := by
  rcases hb : dlookup b s.b_to_a with _ | oldA
  · rw [remove_b_unknown_eq hb]
    exact h1
  · rw [remove_b_owned_eq hb]
    intro hs a
    rw [slotsOf_removeOwned, slotsOf_detachOwner hv.keysA]
    have hs0 : s.single = true := hs
    by_cases haa : a = oldA
    · rw [if_pos haa]
      exact le_trans (Finset.card_le_card (Finset.erase_subset b _)) (h1 hs0 oldA)
    · rw [if_neg haa]
      exact h1 hs0 a

/-- The `associate` loop body preserves the invariant. -/
theorem exclInv_assocStep {s : ExclState α} (hv : ExclInv univ sm om s) (a : α) (b : Nat) :
    ExclInv univ sm om (assocStep a s b) := by
  rcases hb : dlookup b s.b_to_a with _ | oldA
  · rw [assocStep_free_eq hb]
    rw [poolDiscard_eq_erase hv.pool_ok]
    have hpe : ({ s with pool := s.pool.erase b } : ExclState α).pool = s.pool.erase b := rfl
    refine exclInv_attach hv.singleEq hv.orderedEq (poolOK_erase hv.pool_ok)
      hv.keysB hv.keysA ?_ ?_ ?_ ?_ ?_
    · intro a' b' _
      exact hv.bidir a' b'
    · intro a' hmem
      have := (hv.bidir a' b).mpr hmem
      rw [hb] at this
      cases this
    · rw [hpe]
      intro hmem
      exact ((hv.pool_ok.1.mem_erase_iff).mp hmem).1 rfl
    · intro x hx
      exact hv.poolFree x (List.mem_of_mem_erase hx)
    · intro u hu hub
      rcases hv.cover u hu with h | h
      · exact Or.inl ((hv.pool_ok.1.mem_erase_iff).mpr ⟨hub, h⟩)
      · exact Or.inr h
  · by_cases haa : oldA = a
    · subst haa
      rw [assocStep_self_eq hb]
      exact hv
    · rw [assocStep_steal_eq hb haa]
      have hbp : b ∉ s.pool := fun hp => by rw [hv.poolFree b hp] at hb; cases hb
      refine exclInv_attach hv.singleEq hv.orderedEq hv.pool_ok
        hv.keysB (keysA_detachOwner hv.keysA) ?_ ?_ ?_ ?_ ?_
      · intro a' b' hbb
        rw [slotsOf_detachOwner hv.keysA]
        by_cases ha' : a' = oldA
        · subst ha'
          rw [if_pos rfl, Finset.mem_erase]
          constructor
          · intro h
            exact ⟨hbb, (hv.bidir a' b').mp h⟩
          · intro h
            exact (hv.bidir a' b').mpr h.2
        · rw [if_neg ha']
          exact hv.bidir a' b'
      · intro a'
        rw [slotsOf_detachOwner hv.keysA]
        by_cases ha' : a' = oldA
        · rw [if_pos ha']
          exact Finset.not_mem_erase b _
        · rw [if_neg ha']
          intro hmem
          have := (hv.bidir a' b).mpr hmem
          rw [hb] at this
          exact absurd (Option.some.inj this).symm ha'
      · exact hbp
      · intro x hx
        exact hv.poolFree x hx
      · intro u hu _
        exact hv.cover u hu

/-- `assocStep` keeps every owner at one slot at most, provided the
target owner's entry is empty beforehand. -/
theorem single1_assocStep_of_empty {s : ExclState α} (hkA : (dkeys s.a_to_bs).Nodup)
    (h1 : Single1 s) {a : α} (ha : slotsOf s a = ∅) (b : Nat) :
    Single1 (assocStep a s b) := by
  intro hs a'
  have hs0 : s.single = true := by
    rcases hb : dlookup b s.b_to_a with _ | oldA
    · rw [assocStep_free_eq hb] at hs
      exact hs
    · by_cases haa : oldA = a
      · subst haa
        rw [assocStep_self_eq hb] at hs
        exact hs
      · rw [assocStep_steal_eq hb haa] at hs
        exact hs
  rcases hb : dlookup b s.b_to_a with _ | oldA
  · rw [assocStep_free_eq hb]
    by_cases ha' : a' = a
    · subst ha'
      rw [slotsOf_exclAttach_self]
      have hsp : slotsOf ({ s with pool := poolDiscard s.ordered s.pool b } : ExclState α) a' = slotsOf s a' := rfl
      rw [hsp, ha]
      simp
    · rw [slotsOf_exclAttach_ne ha']
      exact h1 hs0 a'
  · by_cases haa : oldA = a
    · subst haa
      rw [assocStep_self_eq hb]
      exact h1 hs0 a'
    · rw [assocStep_steal_eq hb haa]
      by_cases ha' : a' = a
      · subst ha'
        rw [slotsOf_exclAttach_self, slotsOf_detachOwner hkA, if_neg (fun h => haa h.symm), ha]
        simp
      · rw [slotsOf_exclAttach_ne ha', slotsOf_detachOwner hkA]
        by_cases h2 : a' = oldA
        · rw [if_pos h2]
          exact le_trans (Finset.card_le_card (Finset.erase_subset b _)) (h1 hs0 oldA)
        · rw [if_neg h2]
          exact h1 hs0 a'

/-- `ensureA` preserves the invariant. -/
theorem exclInv_ensureA {s : ExclState α} (hv : ExclInv univ sm om s) (a : α) :
    ExclInv univ sm om (ensureA s a) := by
  unfold ensureA
  by_cases hs : (dlookup a s.a_to_bs).isSome = true
  · rw [if_pos hs]
    exact hv
  · rw [if_neg hs]
    have hnone : dlookup a s.a_to_bs = none := by
      rcases h : dlookup a s.a_to_bs with _ | v
      · rfl
      · rw [h] at hs
        simp at hs
    refine ⟨hv.singleEq, hv.orderedEq, hv.pool_ok, hv.keysB, dkeys_nodup_dset hv.keysA,
      ?_, hv.poolFree, hv.cover⟩
    intro a' b'
    have heq : slotsOf ({ s with a_to_bs := dset a ∅ s.a_to_bs } : ExclState α) a' = slotsOf s a' := by
      by_cases ha' : a' = a
      · subst ha'
        rw [slotsOf_eq_empty_of_none hnone]
        exact slotsOf_eq_of_lookup dlookup_dset_self
      · unfold slotsOf
        rw [dlookup_dset_ne ha']
    rw [heq]
    exact hv.bidir a' b'

/-- `ensureA` preserves the cardinality invariant. -/
theorem single1_ensureA {s : ExclState α} (h1 : Single1 s) (a : α) :
    Single1 (ensureA s a) := by
  intro hs a'
  have hs0 : s.single = true := by
    unfold ensureA at hs
    by_cases h : (dlookup a s.a_to_bs).isSome = true
    · rw [if_pos h] at hs
      exact hs
    · rw [if_neg h] at hs
      exact hs
  rw [slotsOf_ensureA]
  exact h1 hs0 a'

/-- The single-mode preamble preserves the invariant. -/
theorem exclInv_singlePreRelease {s : ExclState α} (hv : ExclInv univ sm om s)
    (h1 : Single1 s) (a : α) :
    ExclInv univ sm om (singlePreRelease s a) ∧ Single1 (singlePreRelease s a) := by
  unfold singlePreRelease
  rcases h : dlookup a s.a_to_bs with _ | S
  · exact ⟨hv, h1⟩
  · refine foldl_preserves (fun t => ExclInv univ sm om t ∧ Single1 t)
      (fun t b ht => ⟨exclInv_remove_b ht.1 b, single1_remove_b ht.1 ht.2 b⟩) _ s ⟨hv, h1⟩

theorem ensureA_single {s : ExclState α} {a : α} : (ensureA s a).single = s.single := by
  unfold ensureA
  split <;> rfl

theorem ensureA_ordered {s : ExclState α} {a : α} : (ensureA s a).ordered = s.ordered := by
  unfold ensureA
  split <;> rfl

theorem ensureA_pool {s : ExclState α} {a : α} : (ensureA s a).pool = s.pool := by
  unfold ensureA
  split <;> rfl

theorem ensureA_b_to_a {s : ExclState α} {a : α} : (ensureA s a).b_to_a = s.b_to_a := by
  unfold ensureA
  split <;> rfl

theorem singlePreRelease_some_eq {s : ExclState α} {a : α} {S : Finset Nat}
    (h : dlookup a s.a_to_bs = some S) :
    singlePreRelease s a = (finList S).foldl remove_b s := by
  unfold singlePreRelease
  rw [h]

theorem singlePreRelease_none_eq {s : ExclState α} {a : α}
    (h : dlookup a s.a_to_bs = none) : singlePreRelease s a = s := by
  unfold singlePreRelease
  rw [h]

/-- After the single-mode preamble, the target owner's recorded slot set
is empty (it held at most one slot, which `remove_b` released). -/
theorem slotsOf_singlePreRelease_self {s : ExclState α} (hv : ExclInv univ sm om s)
    (h1 : Single1 s) (hs : s.single = true) (a : α) :
    slotsOf (singlePreRelease s a) a = ∅ := by
  rcases h : dlookup a s.a_to_bs with _ | S
  · rw [singlePreRelease_none_eq h]
    exact slotsOf_eq_empty_of_none h
  · rw [singlePreRelease_some_eq h]
    have hcard : S.card ≤ 1 := by
      have := h1 hs a
      rwa [slotsOf_eq_of_lookup h] at this
    rcases card_le_one_cases hcard with rfl | ⟨x, rfl⟩
    · rw [finList_empty]
      simpa [slotsOf] using slotsOf_eq_of_lookup h
    · rw [finList_singleton]
      simp only [List.foldl_cons, List.foldl_nil]
      have hx : dlookup x s.b_to_a = some a := by
        refine (hv.bidir a x).mpr ?_
        rw [slotsOf_eq_of_lookup h]
        simp
      rw [remove_b_owned_eq hx, slotsOf_removeOwned, slotsOf_detachOwner hv.keysA,
        if_pos rfl, slotsOf_eq_of_lookup h]
      simp

/-- `associate` preserves the invariant and the cardinality bound. -/
theorem exclInv_associate {s : ExclState α} (hv : ExclInv univ sm om s)
    (h1 : Single1 s) (a : α) (bs : List Nat) :
    ExclInv univ sm om (associate s a bs).2 ∧ Single1 (associate s a bs).2 := by
  by_cases herr : s.single = true ∧ 1 < bs.length
  · rw [associate_err_eq herr.1 herr.2]
    exact ⟨hv, h1⟩
  · rw [associate_ok_eq herr]
    by_cases hsm : s.single = true
    · have hlen : bs.length ≤ 1 := by
        by_contra hl
        exact herr ⟨hsm, by omega⟩
      obtain ⟨hv1, h11⟩ := exclInv_singlePreRelease hv h1 a
      rw [if_pos hsm]
      have hvt : ExclInv univ sm om (ensureA (singlePreRelease s a) a) :=
        exclInv_ensureA hv1 a
      have h1t : Single1 (ensureA (singlePreRelease s a) a) := single1_ensureA h11 a
      have hta : slotsOf (ensureA (singlePreRelease s a) a) a = ∅ := by
        rw [slotsOf_ensureA]
        exact slotsOf_singlePreRelease_self hv h1 hsm a
      rcases bs with _ | ⟨b, rest⟩
      · exact ⟨hvt, h1t⟩
      · have hrest : rest = [] := by
          rcases rest with _ | ⟨c, r2⟩
          · rfl
          · simp at hlen
        subst hrest
        simp only [List.foldl_cons, List.foldl_nil]
        exact ⟨exclInv_assocStep hvt a b,
          single1_assocStep_of_empty hvt.keysA h1t hta b⟩
    · rw [if_neg hsm]
      have hvt : ExclInv univ sm om (ensureA s a) := exclInv_ensureA hv a
      have hfin : ExclInv univ sm om (bs.foldl (assocStep a) (ensureA s a)) :=
        foldl_preserves (fun t => ExclInv univ sm om t)
          (fun t b ht => exclInv_assocStep ht a b) bs _ hvt
      refine ⟨hfin, ?_⟩
      intro hs _
      rw [hfin.singleEq] at hs
      rw [hs] at hv
      exact absurd hv.singleEq hsm

theorem allocDraw_cons_eq {s : ExclState α} {a : α} {b : Nat} {rest : List Nat}
    (hp : s.pool = b :: rest) :
    allocDraw s a = (.ok b, exclAttach a b (ensureA { s with pool := rest } a)) := by
  unfold allocDraw
  rw [hp]

theorem allocDraw_nil_eq {s : ExclState α} {a : α} (hp : s.pool = []) :
    allocDraw s a = (.error .memError, s) := by
  unfold allocDraw
  rw [hp]

/-- `allocDraw` preserves the invariant. -/
theorem exclInv_allocDraw {s : ExclState α} (hv : ExclInv univ sm om s) (a : α) :
    ExclInv univ sm om (allocDraw s a).2 := by
  rcases hp : s.pool with _ | ⟨b, rest⟩
  · rw [allocDraw_nil_eq hp]
    exact hv
  · rw [allocDraw_cons_eq hp]
    have hpool1 : PoolOK s.ordered rest := by
      have h := hv.pool_ok
      rw [hp] at h
      exact ⟨(List.nodup_cons.mp h.1).2, fun ho => (h.2 ho).of_cons⟩
    have hbrest : b ∉ rest := by
      have h := hv.pool_ok.1
      rw [hp] at h
      exact (List.nodup_cons.mp h).1
    have hbfree : dlookup b s.b_to_a = none :=
      hv.poolFree b (by rw [hp]; simp)
    refine exclInv_attach
      (by rw [ensureA_single]; exact hv.singleEq)
      (by rw [ensureA_ordered]; exact hv.orderedEq)
      ?_ ?_ ?_ ?_ ?_ ?_ ?_ ?_
    · rw [show (ensureA ({ s with pool := rest } : ExclState α) a).ordered
          = s.ordered from ensureA_ordered, ensureA_pool]
      exact hpool1
    · rw [ensureA_b_to_a]
      exact hv.keysB
    · exact keysA_ensureA hv.keysA
    · intro a' b' _
      rw [ensureA_b_to_a, slotsOf_ensureA]
      exact hv.bidir a' b'
    · intro a'
      rw [slotsOf_ensureA]
      intro hmem
      have : dlookup b s.b_to_a = some a' :=
        (hv.bidir a' b).mpr hmem
      rw [hbfree] at this
      cases this
    · rw [ensureA_pool]
      exact hbrest
    · intro x hx
      rw [ensureA_pool] at hx
      rw [ensureA_b_to_a]
      exact hv.poolFree x (by rw [hp]; exact List.mem_cons_of_mem b hx)
    · intro u hu hub
      rw [ensureA_pool, ensureA_b_to_a]
      rcases hv.cover u hu with h | h
      · rw [hp] at h
        rcases List.mem_cons.mp h with rfl | h2
        · exact absurd rfl hub
        · exact Or.inl h2
      · exact Or.inr h

/-- `allocDraw` preserves the cardinality bound, provided the target
owner's entry is empty in single mode. -/
theorem single1_allocDraw {s : ExclState α} (hkA : (dkeys s.a_to_bs).Nodup)
    (h1 : Single1 s) {a : α} (ha : s.single = true → slotsOf s a = ∅) :
    Single1 (allocDraw s a).2 := by
  rcases hp : s.pool with _ | ⟨b, rest⟩
  · rw [allocDraw_nil_eq hp]
    exact h1
  · rw [allocDraw_cons_eq hp]
    intro hs a'
    have hs0 : s.single = true := by
      have : (exclAttach a b (ensureA ({ s with pool := rest } : ExclState α) a)).single
          = s.single := ensureA_single
      rwa [this] at hs
    by_cases ha' : a' = a
    · subst ha'
      rw [slotsOf_exclAttach_self, slotsOf_ensureA]
      have : slotsOf ({ s with pool := rest } : ExclState α) a' = slotsOf s a' := rfl
      rw [this, ha hs0]
      simp
    · rw [slotsOf_exclAttach_ne ha', slotsOf_ensureA]
      exact h1 hs0 a'

/-- `allocate` preserves the invariant and the cardinality bound. -/
theorem exclInv_allocate {s : ExclState α} (hv : ExclInv univ sm om s)
    (h1 : Single1 s) (a : α) (force : Bool) :
    ExclInv univ sm om (allocate s a force).2 ∧ Single1 (allocate s a force).2 := by
  unfold allocate
  by_cases hsm : s.single = true
  · rw [if_pos hsm]
    rcases h : dlookup a s.a_to_bs with _ | S
    · exact ⟨exclInv_allocDraw hv a,
        single1_allocDraw hv.keysA h1 (fun _ => slotsOf_eq_empty_of_none h)⟩
    · cases force with
      | false =>
          show ExclInv univ sm om ((match (finList S).head? with
              | some b => ((Except.ok b : Except PyErr Nat), s)
              | none => (Except.error PyErr.stopIter, s)) :
                Except PyErr Nat × ExclState α).2 ∧
            Single1 ((match (finList S).head? with
              | some b => ((Except.ok b : Except PyErr Nat), s)
              | none => (Except.error PyErr.stopIter, s)) :
                Except PyErr Nat × ExclState α).2
          rcases (finList S).head? with _ | b <;> exact ⟨hv, h1⟩
      | true =>
          show ExclInv univ sm om (allocDraw ((finList S).foldl remove_b s) a).2 ∧
            Single1 (allocDraw ((finList S).foldl remove_b s) a).2
          have hpre : ExclInv univ sm om (singlePreRelease s a)
              ∧ Single1 (singlePreRelease s a) := exclInv_singlePreRelease hv h1 a
          have hempty : slotsOf (singlePreRelease s a) a = ∅ :=
            slotsOf_singlePreRelease_self hv h1 hsm a
          rw [singlePreRelease_some_eq h] at hpre hempty
          refine ⟨exclInv_allocDraw hpre.1 a, single1_allocDraw hpre.1.keysA hpre.2 ?_⟩
          intro _
          exact hempty
  · rw [if_neg hsm]
    refine ⟨exclInv_allocDraw hv a, single1_allocDraw hv.keysA h1 ?_⟩
    intro hss
    exact absurd hss hsm

theorem remove_a_some_eq {s : ExclState α} {a : α} {S : Finset Nat}
    (h : dlookup a s.a_to_bs = some S) :
    remove_a s a = (finList S).foldl releaseStep { s with a_to_bs := ddel a s.a_to_bs } := by
  unfold remove_a
  rw [h]

theorem remove_a_none_eq {s : ExclState α} {a : α}
    (h : dlookup a s.a_to_bs = none) : remove_a s a = s := by
  unfold remove_a
  rw [h]

/-- The behaviour of the `remove_a` release loop: every listed id loses
its `_b_to_a` binding and lands in the pool; nothing else changes. -/
theorem releaseStep_fold :
    ∀ (L : List Nat) (t : ExclState α), (dkeys t.b_to_a).Nodup →
    PoolOK t.ordered t.pool → L.Nodup →
    (∀ b ∈ L, (dlookup b t.b_to_a).isSome = true) →
    (∀ x ∈ t.pool, dlookup x t.b_to_a = none) →
    (dkeys (L.foldl releaseStep t).b_to_a).Nodup ∧
    PoolOK (L.foldl releaseStep t).ordered (L.foldl releaseStep t).pool ∧
    (L.foldl releaseStep t).a_to_bs = t.a_to_bs ∧
    (L.foldl releaseStep t).single = t.single ∧
    (L.foldl releaseStep t).ordered = t.ordered ∧
    (∀ b : Nat, dlookup b (L.foldl releaseStep t).b_to_a
      = if b ∈ L then none else dlookup b t.b_to_a) ∧
    (∀ x : Nat, x ∈ (L.foldl releaseStep t).pool ↔ x ∈ L ∨ x ∈ t.pool)
  | [], t, hkB, hpo, _, _, hfree => by
      refine ⟨hkB, hpo, rfl, rfl, rfl, ?_, ?_⟩
      · intro b
        rw [if_neg (List.not_mem_nil b)]
        rfl
      · intro x
        simp
  | b :: bs, t, hkB, hpo, hLnd, hheld, hfree => by
      have hbp : b ∉ t.pool := by
        intro hp
        have h1 := hfree b hp
        have h2 := hheld b (by simp)
        rw [h1] at h2
        cases h2
      have hkB' : (dkeys (releaseStep t b).b_to_a).Nodup := dkeys_nodup_ddel hkB
      have hpo' : PoolOK (releaseStep t b).ordered (releaseStep t b).pool :=
        poolOK_releaseId_not_mem hpo hbp
      have hLnd' := (List.nodup_cons.mp hLnd).2
      have hbnotbs := (List.nodup_cons.mp hLnd).1
      have hheld' : ∀ b' ∈ bs, (dlookup b' (releaseStep t b).b_to_a).isSome = true := by
        intro b' hb'
        have hne : b' ≠ b := fun he => hbnotbs (he ▸ hb')
        show (dlookup b' (ddel b t.b_to_a)).isSome = true
        rw [dlookup_ddel_ne hne]
        exact hheld b' (List.mem_cons_of_mem b hb')
      have hfree' : ∀ x ∈ (releaseStep t b).pool, dlookup x (releaseStep t b).b_to_a = none := by
        intro x hx
        rcases mem_releaseId.mp hx with rfl | hx2
        · exact dlookup_ddel_self hkB
        · have hne : x ≠ b := fun he => hbp (he ▸ hx2)
          show dlookup x (ddel b t.b_to_a) = none
          rw [dlookup_ddel_ne hne]
          exact hfree x hx2
      obtain ⟨c1, c2, c3, c4, c5, c6, c7⟩ :=
        releaseStep_fold bs (releaseStep t b) hkB' hpo' hLnd' hheld' hfree'
      rw [List.foldl_cons]
      refine ⟨c1, c2, c3, c4, c5, ?_, ?_⟩
      · intro z
        rw [c6 z]
        by_cases hzb : z = b
        · have hz1 : z ∈ b :: bs := by
            rw [hzb]
            exact List.mem_cons_self b bs
          rw [if_pos hz1]
          by_cases hzbs : z ∈ bs
          · rw [if_pos hzbs]
          · rw [if_neg hzbs,
              show dlookup z (releaseStep t b).b_to_a = dlookup z (ddel b t.b_to_a) from rfl,
              hzb]
            exact dlookup_ddel_self hkB
        · by_cases hzbs : z ∈ bs
          · rw [if_pos hzbs, if_pos (List.mem_cons_of_mem b hzbs)]
          · have hz2 : z ∉ b :: bs := by
              simp only [List.mem_cons, not_or]
              exact ⟨hzb, hzbs⟩
            rw [if_neg hzbs, if_neg hz2,
              show dlookup z (releaseStep t b).b_to_a = dlookup z (ddel b t.b_to_a) from rfl,
              dlookup_ddel_ne hzb]
      · intro x
        rw [c7 x]
        constructor
        · rintro (h | h)
          · exact Or.inl (List.mem_cons_of_mem b h)
          · rcases mem_releaseId.mp h with rfl | h2
            · exact Or.inl (by simp)
            · exact Or.inr h2
        · rintro (h | h)
          · rcases List.mem_cons.mp h with rfl | h2
            · exact Or.inr (mem_releaseId.mpr (Or.inl rfl))
            · exact Or.inl h2
          · exact Or.inr (mem_releaseId.mpr (Or.inr h))

/-- `remove_a` preserves the invariant and the cardinality bound. -/
theorem exclInv_remove_a {s : ExclState α} (hv : ExclInv univ sm om s)
    (h1 : Single1 s) (a : α) :
    ExclInv univ sm om (remove_a s a) ∧ Single1 (remove_a s a) := by
  rcases h : dlookup a s.a_to_bs with _ | S
  · rw [remove_a_none_eq h]
    exact ⟨hv, h1⟩
  · rw [remove_a_some_eq h]
    have hS : slotsOf s a = S := slotsOf_eq_of_lookup h
    have hheld : ∀ b ∈ finList S, (dlookup b ({ s with a_to_bs := ddel a s.a_to_bs } :
        ExclState α).b_to_a).isSome = true := by
      intro b hb
      have : dlookup b s.b_to_a = some a := by
        refine (hv.bidir a b).mpr ?_
        rw [hS]
        exact mem_finList.mp hb
      show (dlookup b s.b_to_a).isSome = true
      rw [this]
      rfl
    obtain ⟨c1, c2, c3, c4, c5, c6, c7⟩ :=
      releaseStep_fold (finList S) ({ s with a_to_bs := ddel a s.a_to_bs } : ExclState α)
        hv.keysB hv.pool_ok nodup_finList hheld hv.poolFree
    have hsl : ∀ a' : α, slotsOf ((finList S).foldl releaseStep
        ({ s with a_to_bs := ddel a s.a_to_bs } : ExclState α)) a'
        = if a' = a then ∅ else slotsOf s a' := by
      intro a'
      have : slotsOf ((finList S).foldl releaseStep
          ({ s with a_to_bs := ddel a s.a_to_bs } : ExclState α)) a'
          = (dlookup a' (ddel a s.a_to_bs)).getD ∅ := by
        unfold slotsOf
        rw [c3]
      rw [this]
      by_cases ha' : a' = a
      · subst ha'
        rw [if_pos rfl, dlookup_ddel_self hv.keysA]
        rfl
      · rw [if_neg ha', dlookup_ddel_ne ha']
        rfl
    refine ⟨⟨c4.trans hv.singleEq, c5.trans hv.orderedEq, c2, c1, ?_, ?_, ?_, ?_⟩, ?_⟩
    · rw [c3]
      exact dkeys_nodup_ddel hv.keysA
    · intro a' b
      rw [c6 b, hsl a']
      by_cases hbS : b ∈ finList S
      · rw [if_pos hbS]
        have hba : dlookup b s.b_to_a = some a := by
          refine (hv.bidir a b).mpr ?_
          rw [hS]
          exact mem_finList.mp hbS
        constructor
        · intro hcon
          cases hcon
        · intro hmem
          by_cases ha' : a' = a
          · subst ha'
            rw [if_pos rfl] at hmem
            exact absurd hmem (Finset.not_mem_empty b)
          · rw [if_neg ha'] at hmem
            have := (hv.bidir a' b).mpr hmem
            rw [hba] at this
            exact absurd (Option.some.inj this).symm ha'
      · rw [if_neg hbS]
        by_cases ha' : a' = a
        · subst ha'
          rw [if_pos rfl]
          constructor
          · intro hba
            exact absurd (mem_finList.mpr (hS ▸ (hv.bidir a' b).mp hba)) hbS
          · intro hmem
            exact absurd hmem (Finset.not_mem_empty b)
        · rw [if_neg ha']
          exact hv.bidir a' b
    · intro x hx
      rw [c6 x]
      rcases (c7 x).mp hx with hxS | hxp
      · rw [if_pos hxS]
      · by_cases hxS2 : x ∈ finList S
        · rw [if_pos hxS2]
        · rw [if_neg hxS2]
          exact hv.poolFree x hxp
    · intro u hu
      rcases hv.cover u hu with hup | huh
      · exact Or.inl ((c7 u).mpr (Or.inr hup))
      · by_cases huS : u ∈ finList S
        · exact Or.inl ((c7 u).mpr (Or.inl huS))
        · rw [c6 u, if_neg huS]
          exact Or.inr huh
    · intro hs a'
      rw [hsl a']
      have hs0 : s.single = true := by
        rw [c4] at hs
        exact hs
      by_cases ha' : a' = a
      · rw [if_pos ha']
        simp
      · rw [if_neg ha']
        exact h1 hs0 a'

theorem exclClear_b_to_a {s : ExclState α} : (exclClear s).b_to_a = [] := rfl

theorem exclClear_a_to_bs {s : ExclState α} : (exclClear s).a_to_bs = [] := rfl

theorem exclClear_pool {s : ExclState α} :
    (exclClear s).pool = if s.ordered then sortNat (dkeys s.b_to_a ++ s.pool)
                         else (dkeys s.b_to_a).foldl setAdd s.pool := rfl

theorem mem_foldl_setAdd {x : Nat} :
    ∀ (L : List Nat) (p : List Nat), x ∈ L.foldl setAdd p ↔ x ∈ p ∨ x ∈ L
  | [], p => by simp
  | y :: ys, p => by
      rw [List.foldl_cons, mem_foldl_setAdd ys (setAdd p y)]
      rw [mem_setAdd]
      simp only [List.mem_cons]
      tauto

theorem nodup_foldl_setAdd :
    ∀ (L : List Nat) (p : List Nat), p.Nodup → (L.foldl setAdd p).Nodup
  | [], _, h => h
  | y :: ys, p, h => by
      rw [List.foldl_cons]
      exact nodup_foldl_setAdd ys (setAdd p y) (nodup_setAdd h)

theorem length_foldl_setAdd :
    ∀ (L : List Nat) (p : List Nat), (∀ x ∈ L, x ∉ p) → L.Nodup →
      (L.foldl setAdd p).length = p.length + L.length
  | [], _, _, _ => rfl
  | y :: ys, p, hdisj, hnd => by
      rw [List.foldl_cons]
      have hyp : y ∉ p := hdisj y (by simp)
      have hset : setAdd p y = y :: p := by
        unfold setAdd
        rw [if_neg hyp]
      rw [hset]
      have hdisj' : ∀ x ∈ ys, x ∉ (y :: p) := by
        intro x hx
        simp only [List.mem_cons, not_or]
        exact ⟨fun he => (List.nodup_cons.mp hnd).1 (he ▸ hx),
          hdisj x (List.mem_cons_of_mem y hx)⟩
      rw [length_foldl_setAdd ys (y :: p) hdisj' (List.nodup_cons.mp hnd).2]
      simp only [List.length_cons]
      omega

/-- The held ids and the pool are disjoint lists. -/
theorem held_pool_disjoint {s : ExclState α} (hv : ExclInv univ sm om s) :
    ∀ x ∈ dkeys s.b_to_a, x ∉ s.pool := by
  intro x hx hp
  have h1 := hv.poolFree x hp
  rw [dlookup_eq_none] at h1
  exact h1 hx

/-- `clear` preserves the invariant and the cardinality bound. -/
theorem exclInv_exclClear {s : ExclState α} (hv : ExclInv univ sm om s) :
    ExclInv univ sm om (exclClear s) ∧ Single1 (exclClear s) := by
  have hpool : PoolOK (exclClear s).ordered (exclClear s).pool := by
    rw [show (exclClear s).ordered = s.ordered from rfl, exclClear_pool]
    cases ho : s.ordered
    · rw [if_neg (by simp)]
      exact ⟨nodup_foldl_setAdd _ _ hv.pool_ok.1, fun hh => Bool.noConfusion hh⟩
    · rw [if_pos rfl]
      have hnd : (dkeys s.b_to_a ++ s.pool).Nodup :=
        List.Nodup.append hv.keysB hv.pool_ok.1 (held_pool_disjoint hv)
      exact ⟨nodup_sortNat hnd, fun _ => sorted_sortNat hnd⟩
  refine ⟨⟨hv.singleEq, hv.orderedEq, hpool, ?_, ?_, ?_, ?_, ?_⟩, ?_⟩
  · rw [exclClear_b_to_a]
    exact List.nodup_nil
  · rw [exclClear_a_to_bs]
    exact List.nodup_nil
  · intro a b
    constructor
    · intro h
      rw [show dlookup b (exclClear s).b_to_a = (none : Option α) from rfl] at h
      cases h
    · intro h
      rw [show slotsOf (exclClear s) a = ∅ from rfl] at h
      exact absurd h (Finset.not_mem_empty b)
  · intro x _
    rfl
  · intro u hu
    refine Or.inl ?_
    rw [exclClear_pool]
    have hor : u ∈ dkeys s.b_to_a ++ s.pool := by
      rcases hv.cover u hu with h | h
      · exact List.mem_append.mpr (Or.inr h)
      · exact List.mem_append.mpr (Or.inl (dlookup_isSome.mp h))
    cases ho : s.ordered
    · rw [if_neg (by simp)]
      rcases List.mem_append.mp hor with h | h
      · exact (mem_foldl_setAdd _ _).mpr (Or.inr h)
      · exact (mem_foldl_setAdd _ _).mpr (Or.inl h)
    · rw [if_pos rfl]
      exact mem_sortNat.mpr hor
  · intro _ a
    rw [show slotsOf (exclClear s) a = ∅ from rfl]
    simp

/-- The initial state satisfies the invariant. -/
theorem exclInv_init (univ : List Nat) (sm om : Bool) (hnd : univ.Nodup) :
    ExclInv univ sm om (initExcl univ sm om : ExclState α)
      ∧ Single1 (initExcl univ sm om : ExclState α) := by
  have hpool : PoolOK om (if om = true then sortNat univ else univ) := by
    cases om
    · rw [if_neg (by simp)]
      exact ⟨hnd, fun hh => Bool.noConfusion hh⟩
    · rw [if_pos rfl]
      exact ⟨nodup_sortNat hnd, fun _ => sorted_sortNat hnd⟩
  refine ⟨⟨rfl, rfl, hpool, List.nodup_nil, List.nodup_nil, ?_, ?_, ?_⟩, ?_⟩
  · intro a b
    constructor
    · intro h
      cases h
    · intro h
      exact absurd h (Finset.not_mem_empty b)
  · intro x _
    rfl
  · intro u hu
    refine Or.inl ?_
    show u ∈ (if om = true then sortNat univ else univ)
    cases om
    · rw [if_neg (by simp)]
      exact hu
    · rw [if_pos rfl]
      exact mem_sortNat.mpr hu
  · intro _ a
    show ((dlookup a ([] : List (α × Finset Nat))).getD ∅).card ≤ 1
    simp [dlookup]

/-- Main induction: every reachable state of the exclusive manager
satisfies the invariant and the cardinality bound. -/
theorem exclInv_run (univ : List Nat) (sm om : Bool) (hnd : univ.Nodup)
    (ops : List (ExclOp α)) :
    ExclInv univ sm om (runExcl univ sm om ops)
      ∧ Single1 (runExcl univ sm om ops) := by
  refine foldl_preserves (fun t => ExclInv univ sm om t ∧ Single1 t)
    ?_ ops _ (exclInv_init univ sm om hnd)
  intro t op ht
  cases op with
  | assoc a bs => exact exclInv_associate ht.1 ht.2 a bs
  | alloc a f => exact exclInv_allocate ht.1 ht.2 a f
  | rmA a => exact exclInv_remove_a ht.1 ht.2 a
  | rmB b => exact ⟨exclInv_remove_b ht.1 b, single1_remove_b ht.1 ht.2 b⟩
  | clr => exact exclInv_exclClear ht.1

/-- Every reachable state of the exclusive manager satisfies the
invariant and the cardinality bound. -/
theorem exclInv_reach {univ : List Nat} {sm om : Bool} {s : ExclState α}
    (hnd : univ.Nodup) (hr : ExclReach univ sm om s) :
    ExclInv univ sm om s ∧ Single1 s := by
  obtain ⟨ops, rfl⟩ := hr
  exact exclInv_run univ sm om hnd ops

end ExclPreservation

section MMPreservation

variable {univ : List Nat} {om : Bool}

theorem mmSlotsOf_eq_of_lookup {s : MMState α} {a : α} {S : Finset Nat}
    (h : dlookup a s.a_to_bs = some S) : mmSlotsOf s a = S := by
  unfold mmSlotsOf
  rw [h]
  rfl

theorem mmSlotsOf_eq_empty_of_none {s : MMState α} {a : α}
    (h : dlookup a s.a_to_bs = none) : mmSlotsOf s a = ∅ := by
  unfold mmSlotsOf
  rw [h]
  rfl

theorem mmOwnersOf_eq_of_lookup {s : MMState α} {b : Nat} {T : Finset α}
    (h : dlookup b s.b_to_as = some T) : mmOwnersOf s b = T := by
  unfold mmOwnersOf
  rw [h]
  rfl

theorem mmOwnersOf_eq_empty_of_none {s : MMState α} {b : Nat}
    (h : dlookup b s.b_to_as = none) : mmOwnersOf s b = ∅ := by
  unfold mmOwnersOf
  rw [h]
  rfl

theorem mmEnsureA_pool {s : MMState α} {a : α} : (mmEnsureA s a).pool = s.pool := by
  unfold mmEnsureA
  split <;> rfl

theorem mmEnsureA_ordered {s : MMState α} {a : α} :
    (mmEnsureA s a).ordered = s.ordered := by
  unfold mmEnsureA
  split <;> rfl

theorem mmEnsureA_b_to_as {s : MMState α} {a : α} :
    (mmEnsureA s a).b_to_as = s.b_to_as := by
  unfold mmEnsureA
  split <;> rfl

theorem mmSlotsOf_mmEnsureA {s : MMState α} {a a' : α} :
    mmSlotsOf (mmEnsureA s a) a' = mmSlotsOf s a' := by
  unfold mmEnsureA
  by_cases hs : (dlookup a s.a_to_bs).isSome = true
  · rw [if_pos hs]
  · rw [if_neg hs]
    have hnone : dlookup a s.a_to_bs = none := by
      rcases h : dlookup a s.a_to_bs with _ | v
      · rfl
      · rw [h] at hs
        simp at hs
    by_cases ha : a' = a
    · subst ha
      rw [mmSlotsOf_eq_empty_of_none hnone]
      exact mmSlotsOf_eq_of_lookup dlookup_dset_self
    · unfold mmSlotsOf
      rw [dlookup_dset_ne ha]

theorem keysA_mmEnsureA {s : MMState α} {a : α} (hkA : (dkeys s.a_to_bs).Nodup) :
    (dkeys (mmEnsureA s a).a_to_bs).Nodup := by
  unfold mmEnsureA
  by_cases hs : (dlookup a s.a_to_bs).isSome = true
  · rw [if_pos hs]
    exact hkA
  · rw [if_neg hs]
    exact dkeys_nodup_dset hkA

/-- `mmEnsureA` preserves the invariant. -/
theorem mmInv_mmEnsureA {s : MMState α} (hv : MMInv univ om s) (a : α) :
    MMInv univ om (mmEnsureA s a) := by
  refine ⟨?_, ?_, ?_, keysA_mmEnsureA hv.keysA, ?_, ?_, ?_, ?_⟩
  · rw [mmEnsureA_ordered]
    exact hv.orderedEq
  · rw [mmEnsureA_ordered, mmEnsureA_pool]
    exact hv.pool_ok
  · rw [mmEnsureA_b_to_as]
    exact hv.keysB
  · intro a' b
    rw [mmSlotsOf_mmEnsureA,
      show mmOwnersOf (mmEnsureA s a) b = mmOwnersOf s b from by
        unfold mmOwnersOf
        rw [mmEnsureA_b_to_as]]
    exact hv.bidir a' b
  · intro b hb
    rw [mmEnsureA_pool] at hb
    rw [mmEnsureA_b_to_as]
    exact hv.poolFree b hb
  · intro b hb
    rw [mmEnsureA_pool, mmEnsureA_b_to_as]
    exact hv.cover b hb
  · intro b T hT
    rw [mmEnsureA_b_to_as] at hT
    exact hv.slotNE b T hT

theorem mmAddEdge_pool {s : MMState α} {a : α} {b : Nat} :
    (mmAddEdge s a b).pool = s.pool.erase b := rfl

theorem mmAddEdge_ordered {s : MMState α} {a : α} {b : Nat} :
    (mmAddEdge s a b).ordered = s.ordered := rfl

theorem mmAddEdge_b_to_as {s : MMState α} {a : α} {b : Nat} :
    (mmAddEdge s a b).b_to_as = dset b (insert a (mmOwnersOf s b)) s.b_to_as := rfl

theorem mmOwnersOf_mmAddEdge {s : MMState α} {a : α} {b b' : Nat} :
    mmOwnersOf (mmAddEdge s a b) b'
      = if b' = b then insert a (mmOwnersOf s b) else mmOwnersOf s b' := by
  by_cases hbb : b' = b
  · subst hbb
    rw [if_pos rfl]
    exact mmOwnersOf_eq_of_lookup dlookup_dset_self
  · rw [if_neg hbb]
    unfold mmOwnersOf
    rw [mmAddEdge_b_to_as, dlookup_dset_ne hbb]

theorem mmSlotsOf_mmAddEdge {s : MMState α} {a a' : α} {b : Nat} :
    mmSlotsOf (mmAddEdge s a b) a'
      = if a' = a then insert b (mmSlotsOf s a) else mmSlotsOf s a' := by
  by_cases haa : a' = a
  · subst haa
    rw [if_pos rfl]
    exact mmSlotsOf_eq_of_lookup dlookup_dset_self
  · rw [if_neg haa]
    unfold mmSlotsOf
    rw [show (mmAddEdge s a b).a_to_bs
        = dset a (insert b (mmSlotsOf s a)) s.a_to_bs from rfl, dlookup_dset_ne haa]

theorem mmAssocStep_eq_addEdge {s : MMState α} {a : α} {b : Nat}
    (h : PoolOK s.ordered s.pool) : mmAssocStep a s b = mmAddEdge s a b := by
  unfold mmAssocStep mmAddEdge
  rw [poolDiscard_eq_erase h]
  rfl

/-- Adding the edge `(a, b)` on both sides preserves the invariant; the
coverage and slot-non-emptiness hypotheses are only needed away from `b`
(which the updated state covers by itself). -/
theorem mmInv_mmAddEdge {s : MMState α} {a : α} {b : Nat}
    (hoe : s.ordered = om)
    (hpool : PoolOK s.ordered s.pool)
    (hkB : (dkeys s.b_to_as).Nodup) (hkA : (dkeys s.a_to_bs).Nodup)
    (hbid : ∀ (a' : α) (b' : Nat), a' ∈ mmOwnersOf s b' ↔ b' ∈ mmSlotsOf s a')
    (hfree : ∀ x ∈ s.pool, dlookup x s.b_to_as = none)
    (hcov : ∀ u ∈ univ, u ≠ b → u ∈ s.pool ∨ (dlookup u s.b_to_as).isSome = true)
    (hNE : ∀ (b' : Nat) (T : Finset α), b' ≠ b → dlookup b' s.b_to_as = some T → T ≠ ∅) :
    MMInv univ om (mmAddEdge s a b) := by
  refine ⟨hoe, ?_, ?_, ?_, ?_, ?_, ?_, ?_⟩
  · rw [mmAddEdge_ordered, mmAddEdge_pool]
    exact poolOK_erase hpool
  · rw [mmAddEdge_b_to_as]
    exact dkeys_nodup_dset hkB
  · exact dkeys_nodup_dset hkA
  · intro a' b'
    rw [mmOwnersOf_mmAddEdge, mmSlotsOf_mmAddEdge]
    by_cases hbb : b' = b
    · subst hbb
      rw [if_pos rfl, Finset.mem_insert]
      by_cases haa : a' = a
      · subst haa
        rw [if_pos rfl, Finset.mem_insert]
        simp
      · rw [if_neg haa]
        constructor
        · rintro (h | h)
          · exact absurd h haa
          · exact (hbid a' b').mp h
        · intro h2
          exact Or.inr ((hbid a' b').mpr h2)
    · rw [if_neg hbb]
      by_cases haa : a' = a
      · subst haa
        rw [if_pos rfl, Finset.mem_insert]
        constructor
        · intro h
          exact Or.inr ((hbid a' b').mp h)
        · rintro (rfl | h2)
          · exact absurd rfl hbb
          · exact (hbid a' b').mpr h2
      · rw [if_neg haa]
        exact hbid a' b'
  · intro x hx
    rw [mmAddEdge_pool] at hx
    have hxne : x ≠ b := (hpool.1.mem_erase_iff.mp hx).1
    rw [mmAddEdge_b_to_as, dlookup_dset_ne hxne]
    exact hfree x (List.mem_of_mem_erase hx)
  · intro u hu
    rw [mmAddEdge_pool, mmAddEdge_b_to_as]
    by_cases hub : u = b
    · subst hub
      rw [dlookup_dset_self]
      exact Or.inr rfl
    · rcases hcov u hu hub with h | h
      · exact Or.inl (hpool.1.mem_erase_iff.mpr ⟨hub, h⟩)
      · rw [dlookup_dset_ne hub]
        exact Or.inr h
  · intro b' T hT
    rw [mmAddEdge_b_to_as] at hT
    by_cases hbb : b' = b
    · subst hbb
      rw [dlookup_dset_self] at hT
      rw [← Option.some.inj hT]
      exact Finset.insert_ne_empty a _
    · rw [dlookup_dset_ne hbb] at hT
      exact hNE b' T hbb hT

/-- The shared `associate` loop body preserves the invariant. -/
theorem mmInv_mmAssocStep {s : MMState α} (hv : MMInv univ om s) (a : α) (b : Nat) :
    MMInv univ om (mmAssocStep a s b) := by
  rw [mmAssocStep_eq_addEdge hv.pool_ok]
  exact mmInv_mmAddEdge hv.orderedEq hv.pool_ok hv.keysB hv.keysA hv.bidir
    hv.poolFree (fun u hu _ => hv.cover u hu) (fun b' T _ hT => hv.slotNE b' T hT)

theorem mmDissocStep_skip_none {s : MMState α} {a : α} {b : Nat}
    (hmem : b ∉ mmSlotsOf s a) (hT : dlookup b s.b_to_as = none) :
    mmDissocStep a s b = s := by
  unfold mmDissocStep
  rw [hT, if_neg hmem]

theorem mmDissocStep_skip_some {s : MMState α} {a : α} {b : Nat} {T : Finset α}
    (hmem : b ∉ mmSlotsOf s a) (hT : dlookup b s.b_to_as = some T) (ha : a ∉ T) :
    mmDissocStep a s b = s := by
  unfold mmDissocStep
  rw [hT, if_neg hmem]
  simp only [if_neg ha]

theorem mmDissocStep_drop {s : MMState α} {a : α} {b : Nat} {T : Finset α}
    (hmem : b ∈ mmSlotsOf s a) (hT : dlookup b s.b_to_as = some T)
    (ha : a ∈ T) (he : T.erase a = ∅) :
    mmDissocStep a s b = mmDissocDrop s a b := by
  unfold mmDissocStep
  rw [hT, if_pos hmem]
  simp only [if_pos ha, if_pos he]
  rfl

theorem mmDissocStep_keep {s : MMState α} {a : α} {b : Nat} {T : Finset α}
    (hmem : b ∈ mmSlotsOf s a) (hT : dlookup b s.b_to_as = some T)
    (ha : a ∈ T) (he : ¬T.erase a = ∅) :
    mmDissocStep a s b = mmDissocKeep s a b T := by
  unfold mmDissocStep
  rw [hT, if_pos hmem]
  simp only [if_pos ha, if_neg he]
  rfl

theorem mmSlotsOf_mmEraseSlotFromOwner {s : MMState α} {a a' : α} {b : Nat} :
    mmSlotsOf (mmEraseSlotFromOwner s a b) a'
      = if a' = a then (mmSlotsOf s a).erase b else mmSlotsOf s a' := by
  by_cases haa : a' = a
  · subst haa
    rw [if_pos rfl]
    exact mmSlotsOf_eq_of_lookup dlookup_dset_self
  · rw [if_neg haa]
    unfold mmSlotsOf
    rw [show (mmEraseSlotFromOwner s a b).a_to_bs
        = dset a ((mmSlotsOf s a).erase b) s.a_to_bs from rfl, dlookup_dset_ne haa]

theorem mmDissocDrop_b_to_as {s : MMState α} {a : α} {b : Nat} :
    (mmDissocDrop s a b).b_to_as = ddel b s.b_to_as := rfl

theorem mmDissocDrop_pool {s : MMState α} {a : α} {b : Nat} :
    (mmDissocDrop s a b).pool = releaseId s.ordered false s.pool b := rfl

theorem mmDissocKeep_b_to_as {s : MMState α} {a : α} {b : Nat} {T : Finset α} :
    (mmDissocKeep s a b T).b_to_as = dset b (T.erase a) s.b_to_as := rfl

theorem mmDissocKeep_pool {s : MMState α} {a : α} {b : Nat} {T : Finset α} :
    (mmDissocKeep s a b T).pool = s.pool := rfl

/-- The `dissociate` loop body preserves the invariant. -/
theorem mmInv_mmDissocStep {s : MMState α} (hv : MMInv univ om s) (a : α) (b : Nat) :
    MMInv univ om (mmDissocStep a s b) := by
  rcases hT : dlookup b s.b_to_as with _ | T
  · have hmem : b ∉ mmSlotsOf s a := by
      intro hm
      have h2 := (hv.bidir a b).mpr hm
      rw [mmOwnersOf_eq_empty_of_none hT] at h2
      exact absurd h2 (Finset.not_mem_empty a)
    rw [mmDissocStep_skip_none hmem hT]
    exact hv
  · have hTO : mmOwnersOf s b = T := mmOwnersOf_eq_of_lookup hT
    by_cases ha : a ∈ T
    · have hmem : b ∈ mmSlotsOf s a := (hv.bidir a b).mp (by rw [hTO]; exact ha)
      have hbp : b ∉ s.pool := by
        intro hp
        rw [hv.poolFree b hp] at hT
        cases hT
      by_cases he : T.erase a = ∅
      · rw [mmDissocStep_drop hmem hT ha he]
        refine ⟨hv.orderedEq, ?_, ?_, dkeys_nodup_dset hv.keysA, ?_, ?_, ?_, ?_⟩
        · rw [show (mmDissocDrop s a b).ordered = s.ordered from rfl, mmDissocDrop_pool]
          exact poolOK_releaseId_not_mem hv.pool_ok hbp
        · rw [mmDissocDrop_b_to_as]
          exact dkeys_nodup_ddel hv.keysB
        · intro a' b'
          rw [show mmSlotsOf (mmDissocDrop s a b) a'
              = mmSlotsOf (mmEraseSlotFromOwner s a b) a' from rfl,
            mmSlotsOf_mmEraseSlotFromOwner]
          have hown : mmOwnersOf (mmDissocDrop s a b) b'
              = if b' = b then ∅ else mmOwnersOf s b' := by
            unfold mmOwnersOf
            rw [mmDissocDrop_b_to_as]
            by_cases hbb : b' = b
            · subst hbb
              rw [if_pos rfl, dlookup_ddel_self hv.keysB]
              rfl
            · rw [if_neg hbb, dlookup_ddel_ne hbb]
          rw [hown]
          by_cases hbb : b' = b
          · subst hbb
            rw [if_pos rfl]
            constructor
            · intro h
              exact absurd h (Finset.not_mem_empty a')
            · intro h
              by_cases haa : a' = a
              · rw [if_pos haa] at h
                exact absurd h (Finset.not_mem_erase b' _)
              · rw [if_neg haa] at h
                have h2 := (hv.bidir a' b').mpr h
                rw [hTO] at h2
                have h3 : a' ∈ T.erase a := Finset.mem_erase.mpr ⟨haa, h2⟩
                rw [he] at h3
                exact absurd h3 (Finset.not_mem_empty a')
          · rw [if_neg hbb]
            by_cases haa : a' = a
            · subst haa
              rw [if_pos rfl, Finset.mem_erase]
              constructor
              · intro h
                exact ⟨hbb, (hv.bidir a' b').mp h⟩
              · intro h
                exact (hv.bidir a' b').mpr h.2
            · rw [if_neg haa]
              exact hv.bidir a' b'
        · intro x hx
          rw [mmDissocDrop_pool] at hx
          rw [mmDissocDrop_b_to_as]
          rcases mem_releaseId.mp hx with rfl | hx2
          · exact dlookup_ddel_self hv.keysB
          · have hxne : x ≠ b := fun he2 => hbp (he2 ▸ hx2)
            rw [dlookup_ddel_ne hxne]
            exact hv.poolFree x hx2
        · intro u hu
          rw [mmDissocDrop_pool, mmDissocDrop_b_to_as]
          by_cases hub : u = b
          · subst hub
            exact Or.inl (mem_releaseId.mpr (Or.inl rfl))
          · rcases hv.cover u hu with h | h
            · exact Or.inl (mem_releaseId.mpr (Or.inr h))
            · rw [dlookup_ddel_ne hub]
              exact Or.inr h
        · intro b' T' hT'
          rw [mmDissocDrop_b_to_as] at hT'
          by_cases hbb : b' = b
          · subst hbb
            rw [dlookup_ddel_self hv.keysB] at hT'
            cases hT'
          · rw [dlookup_ddel_ne hbb] at hT'
            exact hv.slotNE b' T' hT'
      · rw [mmDissocStep_keep hmem hT ha he]
        refine ⟨hv.orderedEq, ?_, ?_, dkeys_nodup_dset hv.keysA, ?_, ?_, ?_, ?_⟩
        · rw [show (mmDissocKeep s a b T).ordered = s.ordered from rfl, mmDissocKeep_pool]
          exact hv.pool_ok
        · rw [mmDissocKeep_b_to_as]
          exact dkeys_nodup_dset hv.keysB
        · intro a' b'
          rw [show mmSlotsOf (mmDissocKeep s a b T) a'
              = mmSlotsOf (mmEraseSlotFromOwner s a b) a' from rfl,
            mmSlotsOf_mmEraseSlotFromOwner]
          have hown : mmOwnersOf (mmDissocKeep s a b T) b'
              = if b' = b then T.erase a else mmOwnersOf s b' := by
            unfold mmOwnersOf
            rw [mmDissocKeep_b_to_as]
            by_cases hbb : b' = b
            · subst hbb
              rw [if_pos rfl, dlookup_dset_self]
              rfl
            · rw [if_neg hbb, dlookup_dset_ne hbb]
          rw [hown]
          by_cases hbb : b' = b
          · subst hbb
            rw [if_pos rfl]
            by_cases haa : a' = a
            · subst haa
              rw [if_pos rfl]
              constructor
              · intro h
                exact absurd h (Finset.not_mem_erase a' T)
              · intro h
                exact absurd h (Finset.not_mem_erase b' _)
            · rw [if_neg haa, Finset.mem_erase]
              constructor
              · intro h
                exact (hv.bidir a' b').mp (by rw [hTO]; exact h.2)
              · intro h
                refine ⟨haa, ?_⟩
                have h2 := (hv.bidir a' b').mpr h
                rw [hTO] at h2
                exact h2
          · rw [if_neg hbb]
            by_cases haa : a' = a
            · subst haa
              rw [if_pos rfl, Finset.mem_erase]
              constructor
              · intro h
                exact ⟨hbb, (hv.bidir a' b').mp h⟩
              · intro h
                exact (hv.bidir a' b').mpr h.2
            · rw [if_neg haa]
              exact hv.bidir a' b'
        · intro x hx
          rw [mmDissocKeep_pool] at hx
          rw [mmDissocKeep_b_to_as]
          have hxne : x ≠ b := fun he2 => hbp (he2 ▸ hx)
          rw [dlookup_dset_ne hxne]
          exact hv.poolFree x hx
        · intro u hu
          rw [mmDissocKeep_pool, mmDissocKeep_b_to_as]
          by_cases hub : u = b
          · subst hub
            rw [dlookup_dset_self]
            exact Or.inr rfl
          · rcases hv.cover u hu with h | h
            · exact Or.inl h
            · rw [dlookup_dset_ne hub]
              exact Or.inr h
        · intro b' T' hT'
          rw [mmDissocKeep_b_to_as] at hT'
          by_cases hbb : b' = b
          · subst hbb
            rw [dlookup_dset_self] at hT'
            rw [← Option.some.inj hT']
            exact he
          · rw [dlookup_dset_ne hbb] at hT'
            exact hv.slotNE b' T' hT'
    · have hmem : b ∉ mmSlotsOf s a := by
        intro hm
        have h2 := (hv.bidir a b).mpr hm
        rw [hTO] at h2
        exact ha h2
      rw [mmDissocStep_skip_some hmem hT ha]
      exact hv

/-- The final pruning of `dissociate` preserves the invariant. -/
theorem mmInv_mmPostPrune {s : MMState α} (hv : MMInv univ om s) (a : α) :
    MMInv univ om (mmPostPrune a s) := by
  unfold mmPostPrune
  rcases h : dlookup a s.a_to_bs with _ | S
  · exact hv
  · show MMInv univ om
      (if S = ∅ then ({ s with a_to_bs := ddel a s.a_to_bs } : MMState α) else s)
    by_cases he : S = ∅
    · rw [if_pos he]
      refine ⟨hv.orderedEq, hv.pool_ok, hv.keysB, dkeys_nodup_ddel hv.keysA,
        ?_, hv.poolFree, hv.cover, hv.slotNE⟩
      intro a' b
      have hsl : mmSlotsOf ({ s with a_to_bs := ddel a s.a_to_bs } : MMState α) a'
          = mmSlotsOf s a' := by
        by_cases haa : a' = a
        · subst haa
          rw [mmSlotsOf_eq_of_lookup h, he]
          unfold mmSlotsOf
          rw [show ({ s with a_to_bs := ddel a' s.a_to_bs } : MMState α).a_to_bs
              = ddel a' s.a_to_bs from rfl, dlookup_ddel_self hv.keysA]
          rfl
        · unfold mmSlotsOf
          rw [show ({ s with a_to_bs := ddel a s.a_to_bs } : MMState α).a_to_bs
              = ddel a s.a_to_bs from rfl, dlookup_ddel_ne haa]
      rw [hsl]
      exact hv.bidir a' b
    · rw [if_neg he]
      exact hv

/-- `dissociate` preserves the invariant. -/
theorem mmInv_mmDissociate {s : MMState α} (hv : MMInv univ om s) (a : α)
    (bs : List Nat) : MMInv univ om (mmDissociate s a bs) := by
  unfold mmDissociate
  by_cases hs : (dlookup a s.a_to_bs).isSome = true
  · rw [if_pos hs]
    exact mmInv_mmPostPrune (foldl_preserves (fun t => MMInv univ om t)
      (fun t b ht => mmInv_mmDissocStep ht a b) bs _ hv) a
  · rw [if_neg hs]
    exact hv

theorem mmEnsureB_pool {s : MMState α} {b : Nat} : (mmEnsureB s b).pool = s.pool := by
  unfold mmEnsureB
  split <;> rfl

theorem mmEnsureB_ordered {s : MMState α} {b : Nat} :
    (mmEnsureB s b).ordered = s.ordered := by
  unfold mmEnsureB
  split <;> rfl

theorem mmEnsureB_a_to_bs {s : MMState α} {b : Nat} :
    (mmEnsureB s b).a_to_bs = s.a_to_bs := by
  unfold mmEnsureB
  split <;> rfl

theorem mmOwnersOf_mmEnsureB {s : MMState α} {b b' : Nat} :
    mmOwnersOf (mmEnsureB s b) b' = mmOwnersOf s b' := by
  unfold mmEnsureB
  by_cases hs : (dlookup b s.b_to_as).isSome = true
  · rw [if_pos hs]
  · rw [if_neg hs]
    have hnone : dlookup b s.b_to_as = none := by
      rcases h : dlookup b s.b_to_as with _ | v
      · rfl
      · rw [h] at hs
        simp at hs
    by_cases hbb : b' = b
    · subst hbb
      rw [mmOwnersOf_eq_empty_of_none hnone]
      exact mmOwnersOf_eq_of_lookup dlookup_dset_self
    · unfold mmOwnersOf
      rw [dlookup_dset_ne hbb]

theorem dlookup_mmEnsureB_ne {s : MMState α} {b b' : Nat} (hne : b' ≠ b) :
    dlookup b' (mmEnsureB s b).b_to_as = dlookup b' s.b_to_as := by
  unfold mmEnsureB
  by_cases hs : (dlookup b s.b_to_as).isSome = true
  · rw [if_pos hs]
  · rw [if_neg hs]
    exact dlookup_dset_ne hne

theorem keysB_mmEnsureB {s : MMState α} {b : Nat} (hkB : (dkeys s.b_to_as).Nodup) :
    (dkeys (mmEnsureB s b).b_to_as).Nodup := by
  unfold mmEnsureB
  by_cases hs : (dlookup b s.b_to_as).isSome = true
  · rw [if_pos hs]
    exact hkB
  · rw [if_neg hs]
    exact dkeys_nodup_dset hkB

theorem mmSlotsOf_mmEnsureB {s : MMState α} {a : α} {b : Nat} :
    mmSlotsOf (mmEnsureB s b) a = mmSlotsOf s a := by
  unfold mmSlotsOf
  rw [mmEnsureB_a_to_bs]

theorem mmOwnersOf_mmEnsureA {s : MMState α} {a : α} {b : Nat} :
    mmOwnersOf (mmEnsureA s a) b = mmOwnersOf s b := by
  unfold mmOwnersOf
  rw [mmEnsureA_b_to_as]

theorem mmAttachBoth_eq_addEdge {t : MMState α} {a : α} {b : Nat}
    (hb : b ∉ t.pool) : mmAttachBoth t a b = mmAddEdge t a b := by
  unfold mmAttachBoth mmAddEdge
  rw [List.erase_of_not_mem hb]

theorem mmAllocate_nil_eq {s : MMState α} {a : α} (hp : s.pool = []) :
    mmAllocate s a = (.error .memError, s) := by
  unfold mmAllocate
  rw [hp]

theorem mmAllocate_cons_eq {s : MMState α} {a : α} {b : Nat} {rest : List Nat}
    (hp : s.pool = b :: rest) :
    mmAllocate s a
      = (.ok b, mmAttachBoth (mmEnsureB (mmEnsureA { s with pool := rest } a) b) a b) := by
  unfold mmAllocate
  rw [hp]

/-- Shared `allocate` preserves the invariant. -/
theorem mmInv_mmAllocate {s : MMState α} (hv : MMInv univ om s) (a : α) :
    MMInv univ om (mmAllocate s a).2 := by
  rcases hp : s.pool with _ | ⟨b, rest⟩
  · rw [mmAllocate_nil_eq hp]
    exact hv
  · rw [mmAllocate_cons_eq hp]
    have hbrest : b ∉ rest := by
      have h := hv.pool_ok.1
      rw [hp] at h
      exact (List.nodup_cons.mp h).1
    have hbfree : dlookup b s.b_to_as = none := hv.poolFree b (by rw [hp]; simp)
    have hs3pool : (mmEnsureB (mmEnsureA ({ s with pool := rest } : MMState α) a) b).pool
        = rest := by
      rw [mmEnsureB_pool, mmEnsureA_pool]
    rw [mmAttachBoth_eq_addEdge (by rw [hs3pool]; exact hbrest)]
    have hlookB : ∀ b' : Nat, b' ≠ b →
        dlookup b' (mmEnsureB (mmEnsureA ({ s with pool := rest } : MMState α) a) b).b_to_as
          = dlookup b' s.b_to_as := by
      intro b' hne
      rw [dlookup_mmEnsureB_ne hne, mmEnsureA_b_to_as]
    refine mmInv_mmAddEdge ?_ ?_ ?_ ?_ ?_ ?_ ?_ ?_
    · rw [mmEnsureB_ordered, mmEnsureA_ordered]
      exact hv.orderedEq
    · rw [mmEnsureB_ordered, mmEnsureA_ordered, hs3pool]
      have h := hv.pool_ok
      rw [hp] at h
      exact ⟨(List.nodup_cons.mp h.1).2, fun ho => (h.2 ho).of_cons⟩
    · refine keysB_mmEnsureB ?_
      rw [mmEnsureA_b_to_as]
      exact hv.keysB
    · rw [mmEnsureB_a_to_bs]
      exact keysA_mmEnsureA hv.keysA
    · intro a' b'
      have hownC : mmOwnersOf (mmEnsureB (mmEnsureA ({ s with pool := rest } : MMState α) a) b) b'
          = mmOwnersOf s b' := by
        rw [mmOwnersOf_mmEnsureB, mmOwnersOf_mmEnsureA]
        rfl
      have hslC : mmSlotsOf (mmEnsureB (mmEnsureA ({ s with pool := rest } : MMState α) a) b) a'
          = mmSlotsOf s a' := by
        rw [mmSlotsOf_mmEnsureB, mmSlotsOf_mmEnsureA]
        rfl
      rw [hownC, hslC]
      exact hv.bidir a' b'
    · intro x hx
      rw [hs3pool] at hx
      have hxne : x ≠ b := fun he => hbrest (he ▸ hx)
      rw [hlookB x hxne]
      exact hv.poolFree x (by rw [hp]; exact List.mem_cons_of_mem b hx)
    · intro u hu hub
      rcases hv.cover u hu with h | h
      · rw [hp] at h
        rcases List.mem_cons.mp h with rfl | h2
        · exact absurd rfl hub
        · rw [hs3pool]
          exact Or.inl h2
      · rw [hlookB u hub]
        exact Or.inr h
    · intro b' T hbb hT
      rw [hlookB b' hbb] at hT
      exact hv.slotNE b' T hT

/-- Shared `associate` preserves the invariant. -/
theorem mmInv_mmAssociate {s : MMState α} (hv : MMInv univ om s) (a : α)
    (bs : List Nat) : MMInv univ om (mmAssociate s a bs) :=
  foldl_preserves (fun t => MMInv univ om t)
    (fun t b ht => mmInv_mmAssocStep ht a b) bs _ (mmInv_mmEnsureA hv a)

/-- The behaviour of the shared `remove_a` loop: the owner disappears
from every listed slot's owner set (slots are released when that empties
them), all other edges survive, and the owner index is untouched. -/
theorem mmRemove_aStep_fold {a : α} :
    ∀ (L : List Nat) (t : MMState α), (dkeys t.b_to_as).Nodup →
    PoolOK t.ordered t.pool → L.Nodup →
    (∀ b : Nat, a ∈ mmOwnersOf t b ↔ b ∈ L) →
    (∀ x ∈ t.pool, dlookup x t.b_to_as = none) →
    (∀ (b : Nat) (T : Finset α), dlookup b t.b_to_as = some T → T ≠ ∅) →
    (dkeys (L.foldl (mmRemove_aStep a) t).b_to_as).Nodup ∧
    PoolOK (L.foldl (mmRemove_aStep a) t).ordered (L.foldl (mmRemove_aStep a) t).pool ∧
    (L.foldl (mmRemove_aStep a) t).a_to_bs = t.a_to_bs ∧
    (L.foldl (mmRemove_aStep a) t).ordered = t.ordered ∧
    (∀ b : Nat, a ∉ mmOwnersOf (L.foldl (mmRemove_aStep a) t) b) ∧
    (∀ (a' : α) (b : Nat), a' ≠ a →
      (a' ∈ mmOwnersOf (L.foldl (mmRemove_aStep a) t) b ↔ a' ∈ mmOwnersOf t b)) ∧
    (∀ x ∈ (L.foldl (mmRemove_aStep a) t).pool,
      dlookup x (L.foldl (mmRemove_aStep a) t).b_to_as = none) ∧
    (∀ u : Nat, u ∈ t.pool ∨ (dlookup u t.b_to_as).isSome = true →
      u ∈ (L.foldl (mmRemove_aStep a) t).pool ∨
        (dlookup u (L.foldl (mmRemove_aStep a) t).b_to_as).isSome = true) ∧
    (∀ (b : Nat) (T : Finset α),
      dlookup b (L.foldl (mmRemove_aStep a) t).b_to_as = some T → T ≠ ∅)
  | [], t, hkB, hpo, _, hL, hfree, hNE => by
      refine ⟨hkB, hpo, rfl, rfl, ?_, ?_, hfree, ?_, hNE⟩
      · intro b
        intro hmem
        exact (List.not_mem_nil b) ((hL b).mp hmem)
      · intro a' b _
        exact Iff.rfl
      · intro u hu
        exact hu
  | b :: bs, t, hkB, hpo, hLnd, hL, hfree, hNE => by
      have hab : a ∈ mmOwnersOf t b := (hL b).mpr (by simp)
      have hT : ∃ T, dlookup b t.b_to_as = some T ∧ a ∈ T := by
        rcases h : dlookup b t.b_to_as with _ | T
        · rw [mmOwnersOf_eq_empty_of_none h] at hab
          exact absurd hab (Finset.not_mem_empty a)
        · rw [mmOwnersOf_eq_of_lookup h] at hab
          exact ⟨T, rfl, hab⟩
      obtain ⟨T, hTl, haT⟩ := hT
      have hbp : b ∉ t.pool := by
        intro hb2
        rw [hfree b hb2] at hTl
        cases hTl
      have hdrop_eq : T.erase a = ∅ → mmRemove_aStep a t b = mmDropSlot t b := by
        intro he
        unfold mmRemove_aStep
        rw [hTl]
        exact if_pos he
      have hshrink_eq : ¬T.erase a = ∅ →
          mmRemove_aStep a t b = mmShrinkSlot t b (T.erase a) := by
        intro he
        unfold mmRemove_aStep
        rw [hTl]
        exact if_neg he
      have hstep_owners : ∀ b' : Nat, mmOwnersOf (mmRemove_aStep a t b) b'
          = if b' = b then T.erase a else mmOwnersOf t b' := by
        intro b'
        by_cases he : T.erase a = ∅
        · rw [hdrop_eq he]
          by_cases hbb : b' = b
          · subst hbb
            rw [if_pos rfl, he]
            unfold mmOwnersOf
            rw [show (mmDropSlot t b').b_to_as = ddel b' t.b_to_as from rfl,
              dlookup_ddel_self hkB]
            rfl
          · rw [if_neg hbb]
            unfold mmOwnersOf
            rw [show (mmDropSlot t b).b_to_as = ddel b t.b_to_as from rfl,
              dlookup_ddel_ne hbb]
        · rw [hshrink_eq he]
          by_cases hbb : b' = b
          · subst hbb
            rw [if_pos rfl]
            exact mmOwnersOf_eq_of_lookup dlookup_dset_self
          · rw [if_neg hbb]
            unfold mmOwnersOf
            rw [show (mmShrinkSlot t b (T.erase a)).b_to_as
                = dset b (T.erase a) t.b_to_as from rfl, dlookup_dset_ne hbb]
      have hstep_a_to_bs : (mmRemove_aStep a t b).a_to_bs = t.a_to_bs := by
        by_cases he : T.erase a = ∅
        · rw [hdrop_eq he]
          rfl
        · rw [hshrink_eq he]
          rfl
      have hstep_ordered : (mmRemove_aStep a t b).ordered = t.ordered := by
        by_cases he : T.erase a = ∅
        · rw [hdrop_eq he]
          rfl
        · rw [hshrink_eq he]
          rfl
      have hstep_kB : (dkeys (mmRemove_aStep a t b).b_to_as).Nodup := by
        by_cases he : T.erase a = ∅
        · rw [hdrop_eq he]
          exact dkeys_nodup_ddel hkB
        · rw [hshrink_eq he]
          exact dkeys_nodup_dset hkB
      have hstep_po : PoolOK (mmRemove_aStep a t b).ordered (mmRemove_aStep a t b).pool := by
        by_cases he : T.erase a = ∅
        · rw [hdrop_eq he]
          exact poolOK_releaseId_not_mem hpo hbp
        · rw [hshrink_eq he]
          exact hpo
      have hstep_lookup : ∀ b' : Nat, b' ≠ b →
          dlookup b' (mmRemove_aStep a t b).b_to_as = dlookup b' t.b_to_as := by
        intro b' hbb
        by_cases he : T.erase a = ∅
        · rw [hdrop_eq he]
          exact dlookup_ddel_ne hbb
        · rw [hshrink_eq he]
          exact dlookup_dset_ne hbb
      have hstep_lookup_self : dlookup b (mmRemove_aStep a t b).b_to_as
          = if T.erase a = ∅ then none else some (T.erase a) := by
        by_cases he : T.erase a = ∅
        · rw [hdrop_eq he, if_pos he]
          exact dlookup_ddel_self hkB
        · rw [hshrink_eq he, if_neg he]
          exact dlookup_dset_self
      have hstep_pool : ∀ x : Nat, x ∈ (mmRemove_aStep a t b).pool
          ↔ (T.erase a = ∅ ∧ x = b) ∨ x ∈ t.pool := by
        intro x
        by_cases he : T.erase a = ∅
        · rw [hdrop_eq he]
          show x ∈ releaseId t.ordered false t.pool b ↔ _
          rw [mem_releaseId]
          constructor
          · rintro (rfl | h)
            · exact Or.inl ⟨he, rfl⟩
            · exact Or.inr h
          · rintro (⟨_, rfl⟩ | h)
            · exact Or.inl rfl
            · exact Or.inr h
        · rw [hshrink_eq he]
          show x ∈ t.pool ↔ _
          constructor
          · intro h
            exact Or.inr h
          · rintro (⟨he2, _⟩ | h)
            · exact absurd he2 he
            · exact h
      have hL' : ∀ b' : Nat, a ∈ mmOwnersOf (mmRemove_aStep a t b) b' ↔ b' ∈ bs := by
        intro b'
        rw [hstep_owners b']
        by_cases hbb : b' = b
        · subst hbb
          rw [if_pos rfl]
          constructor
          · intro h
            exact absurd h (Finset.not_mem_erase a T)
          · intro h
            exact absurd h (List.nodup_cons.mp hLnd).1
        · rw [if_neg hbb]
          rw [hL b']
          simp [hbb]
      have hfree' : ∀ x ∈ (mmRemove_aStep a t b).pool,
          dlookup x (mmRemove_aStep a t b).b_to_as = none := by
        intro x hx
        rcases (hstep_pool x).mp hx with ⟨he, rfl⟩ | hx2
        · rw [hstep_lookup_self, if_pos he]
        · have hxb : x ≠ b := fun h2 => hbp (h2 ▸ hx2)
          rw [hstep_lookup x hxb]
          exact hfree x hx2
      have hNE' : ∀ (b' : Nat) (T' : Finset α),
          dlookup b' (mmRemove_aStep a t b).b_to_as = some T' → T' ≠ ∅ := by
        intro b' T' hT'
        by_cases hbb : b' = b
        · subst hbb
          rw [hstep_lookup_self] at hT'
          by_cases he : T.erase a = ∅
          · rw [if_pos he] at hT'
            cases hT'
          · rw [if_neg he] at hT'
            rw [← Option.some.inj hT']
            exact he
        · rw [hstep_lookup b' hbb] at hT'
          exact hNE b' T' hT'
      obtain ⟨c1, c2, c3, c4, c5, c6, c7, c8, c9⟩ :=
        mmRemove_aStep_fold bs (mmRemove_aStep a t b) hstep_kB hstep_po
          (List.nodup_cons.mp hLnd).2 hL' hfree' hNE'
      rw [List.foldl_cons]
      refine ⟨c1, c2, c3.trans hstep_a_to_bs, c4.trans hstep_ordered, c5, ?_, c7, ?_, c9⟩
      · intro a' b' haa
        rw [c6 a' b' haa, hstep_owners b']
        by_cases hbb : b' = b
        · subst hbb
          rw [if_pos rfl, mmOwnersOf_eq_of_lookup hTl, Finset.mem_erase]
          constructor
          · intro h
            exact h.2
          · intro h
            exact ⟨haa, h⟩
        · rw [if_neg hbb]
      · intro u hu
        refine c8 u ?_
        rcases hu with h | h
        · exact Or.inl ((hstep_pool u).mpr (Or.inr h))
        · by_cases hub : u = b
          · subst hub
            by_cases he : T.erase a = ∅
            · exact Or.inl ((hstep_pool u).mpr (Or.inl ⟨he, rfl⟩))
            · refine Or.inr ?_
              rw [hstep_lookup_self, if_neg he]
              rfl
          · refine Or.inr ?_
            rw [hstep_lookup u hub]
            exact h

/-- Shared `remove_a` preserves the invariant. -/
theorem mmInv_mmRemove_a {s : MMState α} (hv : MMInv univ om s) (a : α) :
    MMInv univ om (mmRemove_a s a) := by
  rcases h : dlookup a s.a_to_bs with _ | S
  · unfold mmRemove_a
    rw [h]
    exact hv
  · unfold mmRemove_a
    rw [h]
    have hS : mmSlotsOf s a = S := mmSlotsOf_eq_of_lookup h
    have hL : ∀ b : Nat, a ∈ mmOwnersOf ({ s with a_to_bs := ddel a s.a_to_bs } :
        MMState α) b ↔ b ∈ finList S := by
      intro b
      rw [show mmOwnersOf ({ s with a_to_bs := ddel a s.a_to_bs } : MMState α) b
          = mmOwnersOf s b from rfl, hv.bidir a b, hS, mem_finList]
    obtain ⟨c1, c2, c3, c4, c5, c6, c7, c8, c9⟩ :=
      mmRemove_aStep_fold (finList S) ({ s with a_to_bs := ddel a s.a_to_bs } : MMState α)
        hv.keysB hv.pool_ok nodup_finList hL hv.poolFree hv.slotNE
    have hsl : ∀ a' : α, mmSlotsOf ((finList S).foldl (mmRemove_aStep a)
        ({ s with a_to_bs := ddel a s.a_to_bs } : MMState α)) a'
        = if a' = a then ∅ else mmSlotsOf s a' := by
      intro a'
      have heq : mmSlotsOf ((finList S).foldl (mmRemove_aStep a)
          ({ s with a_to_bs := ddel a s.a_to_bs } : MMState α)) a'
          = (dlookup a' (ddel a s.a_to_bs)).getD ∅ := by
        unfold mmSlotsOf
        rw [c3]
      rw [heq]
      by_cases ha' : a' = a
      · subst ha'
        rw [if_pos rfl, dlookup_ddel_self hv.keysA]
        rfl
      · rw [if_neg ha', dlookup_ddel_ne ha']
        rfl
    refine ⟨c4.trans hv.orderedEq, c2, c1, ?_, ?_, c7, ?_, c9⟩
    · rw [c3]
      exact dkeys_nodup_ddel hv.keysA
    · intro a' b
      rw [hsl a']
      by_cases ha' : a' = a
      · subst ha'
        rw [if_pos rfl]
        constructor
        · intro hmem
          exact absurd hmem (c5 b)
        · intro hmem
          exact absurd hmem (Finset.not_mem_empty b)
      · rw [if_neg ha']
        rw [c6 a' b ha']
        exact hv.bidir a' b
    · intro u hu
      exact c8 u (hv.cover u hu)

/-- The behaviour of the shared `remove_b` loop: slot `b` disappears
from every listed owner's slot set (owners pruned when empty), all other
slot memberships survive, and everything except the owner index is
untouched. -/
theorem mmRemove_bStep_fold {b : Nat} :
    ∀ (L : List α) (t : MMState α), (dkeys t.a_to_bs).Nodup → L.Nodup →
    (∀ a : α, b ∈ mmSlotsOf t a ↔ a ∈ L) →
    (dkeys (L.foldl (mmRemove_bStep b) t).a_to_bs).Nodup ∧
    (L.foldl (mmRemove_bStep b) t).b_to_as = t.b_to_as ∧
    (L.foldl (mmRemove_bStep b) t).pool = t.pool ∧
    (L.foldl (mmRemove_bStep b) t).ordered = t.ordered ∧
    (∀ a : α, b ∉ mmSlotsOf (L.foldl (mmRemove_bStep b) t) a) ∧
    (∀ (a : α) (b' : Nat), b' ≠ b →
      (b' ∈ mmSlotsOf (L.foldl (mmRemove_bStep b) t) a ↔ b' ∈ mmSlotsOf t a))
  | [], t, hkA, _, hL => by
      refine ⟨hkA, rfl, rfl, rfl, ?_, ?_⟩
      · intro a hmem
        exact (List.not_mem_nil a) ((hL a).mp hmem)
      · intro a b' _
        exact Iff.rfl
  | a :: as, t, hkA, hLnd, hL => by
      have hmem : b ∈ mmSlotsOf t a := (hL a).mpr (by simp)
      have hSex : ∃ S, dlookup a t.a_to_bs = some S ∧ b ∈ S := by
        rcases h : dlookup a t.a_to_bs with _ | S
        · rw [mmSlotsOf_eq_empty_of_none h] at hmem
          exact absurd hmem (Finset.not_mem_empty b)
        · rw [mmSlotsOf_eq_of_lookup h] at hmem
          exact ⟨S, rfl, hmem⟩
      obtain ⟨S, hSl, hbS⟩ := hSex
      have hprune_eq : S.erase b = ∅ → mmRemove_bStep b t a = mmPruneOwner t a := by
        intro he
        unfold mmRemove_bStep
        rw [hSl]
        exact if_pos he
      have hshrink_eq : ¬S.erase b = ∅ →
          mmRemove_bStep b t a = mmShrinkOwner t a (S.erase b) := by
        intro he
        unfold mmRemove_bStep
        rw [hSl]
        exact if_neg he
      have hstep_slots : ∀ a' : α, mmSlotsOf (mmRemove_bStep b t a) a'
          = if a' = a then S.erase b else mmSlotsOf t a' := by
        intro a'
        by_cases he : S.erase b = ∅
        · rw [hprune_eq he]
          by_cases haa : a' = a
          · subst haa
            rw [if_pos rfl, he]
            unfold mmSlotsOf
            rw [show (mmPruneOwner t a').a_to_bs = ddel a' t.a_to_bs from rfl,
              dlookup_ddel_self hkA]
            rfl
          · rw [if_neg haa]
            unfold mmSlotsOf
            rw [show (mmPruneOwner t a).a_to_bs = ddel a t.a_to_bs from rfl,
              dlookup_ddel_ne haa]
        · rw [hshrink_eq he]
          by_cases haa : a' = a
          · subst haa
            rw [if_pos rfl]
            exact mmSlotsOf_eq_of_lookup dlookup_dset_self
          · rw [if_neg haa]
            unfold mmSlotsOf
            rw [show (mmShrinkOwner t a (S.erase b)).a_to_bs
                = dset a (S.erase b) t.a_to_bs from rfl, dlookup_dset_ne haa]
      have hstep_b_to_as : (mmRemove_bStep b t a).b_to_as = t.b_to_as := by
        by_cases he : S.erase b = ∅
        · rw [hprune_eq he]
          rfl
        · rw [hshrink_eq he]
          rfl
      have hstep_pool : (mmRemove_bStep b t a).pool = t.pool := by
        by_cases he : S.erase b = ∅
        · rw [hprune_eq he]
          rfl
        · rw [hshrink_eq he]
          rfl
      have hstep_ordered : (mmRemove_bStep b t a).ordered = t.ordered := by
        by_cases he : S.erase b = ∅
        · rw [hprune_eq he]
          rfl
        · rw [hshrink_eq he]
          rfl
      have hstep_kA : (dkeys (mmRemove_bStep b t a).a_to_bs).Nodup := by
        by_cases he : S.erase b = ∅
        · rw [hprune_eq he]
          exact dkeys_nodup_ddel hkA
        · rw [hshrink_eq he]
          exact dkeys_nodup_dset hkA
      have hL' : ∀ a' : α, b ∈ mmSlotsOf (mmRemove_bStep b t a) a' ↔ a' ∈ as := by
        intro a'
        rw [hstep_slots a']
        by_cases haa : a' = a
        · subst haa
          rw [if_pos rfl]
          constructor
          · intro h
            exact absurd h (Finset.not_mem_erase b S)
          · intro h
            exact absurd h (List.nodup_cons.mp hLnd).1
        · rw [if_neg haa, hL a']
          simp [haa]
      obtain ⟨c1, c2, c3, c4, c5, c6⟩ :=
        mmRemove_bStep_fold as (mmRemove_bStep b t a) hstep_kA
          (List.nodup_cons.mp hLnd).2 hL'
      rw [List.foldl_cons]
      refine ⟨c1, c2.trans hstep_b_to_as, c3.trans hstep_pool,
        c4.trans hstep_ordered, c5, ?_⟩
      intro a' b' hbb
      rw [c6 a' b' hbb, hstep_slots a']
      by_cases haa : a' = a
      · subst haa
        rw [if_pos rfl, mmSlotsOf_eq_of_lookup hSl, Finset.mem_erase]
        constructor
        · intro h
          exact h.2
        · intro h
          exact ⟨hbb, h⟩
      · rw [if_neg haa]

/-- Shared `remove_b` preserves the invariant. -/
theorem mmInv_mmRemove_b {s : MMState α} (hv : MMInv univ om s) (b : Nat) :
    MMInv univ om (mmRemove_b s b) := by
  rcases hT : dlookup b s.b_to_as with _ | T
  · unfold mmRemove_b
    rw [hT]
    refine ⟨hv.orderedEq, poolOK_releaseId_chk hv.pool_ok, hv.keysB, hv.keysA,
      hv.bidir, ?_, ?_, hv.slotNE⟩
    · intro x hx
      rcases mem_releaseId.mp hx with rfl | hx2
      · exact hT
      · exact hv.poolFree x hx2
    · intro u hu
      rcases hv.cover u hu with h | h
      · exact Or.inl (mem_releaseId.mpr (Or.inr h))
      · exact Or.inr h
  · unfold mmRemove_b
    rw [hT]
    show MMInv univ om (mmFinishRemove_b ((finListA T).foldl (mmRemove_bStep b)
      ({ s with b_to_as := ddel b s.b_to_as } : MMState α)) b)
    have hTO : mmOwnersOf s b = T := mmOwnersOf_eq_of_lookup hT
    have hbp : b ∉ s.pool := by
      intro hp
      rw [hv.poolFree b hp] at hT
      cases hT
    have hL : ∀ a : α, b ∈ mmSlotsOf ({ s with b_to_as := ddel b s.b_to_as } :
        MMState α) a ↔ a ∈ finListA T := by
      intro a
      rw [show mmSlotsOf ({ s with b_to_as := ddel b s.b_to_as } : MMState α) a
          = mmSlotsOf s a from rfl, ← hv.bidir a b, hTO, mem_finListA]
    obtain ⟨c1, c2, c3, c4, c5, c6⟩ :=
      mmRemove_bStep_fold (finListA T) ({ s with b_to_as := ddel b s.b_to_as } : MMState α)
        hv.keysA nodup_finListA hL
    generalize hgen : (finListA T).foldl (mmRemove_bStep b)
        ({ s with b_to_as := ddel b s.b_to_as } : MMState α) = s2 at c1 c2 c3 c4 c5 c6
    have hb2 : s2.b_to_as = ddel b s.b_to_as := c2
    have hp2 : s2.pool = s.pool := c3
    have ho2 : s2.ordered = s.ordered := c4
    have hown : ∀ b' : Nat, mmOwnersOf s2 b'
        = if b' = b then ∅ else mmOwnersOf s b' := by
      intro b'
      unfold mmOwnersOf
      rw [hb2]
      by_cases hbb : b' = b
      · subst hbb
        rw [if_pos rfl, dlookup_ddel_self hv.keysB]
        rfl
      · rw [if_neg hbb, dlookup_ddel_ne hbb]
    refine ⟨?_, ?_, ?_, c1, ?_, ?_, ?_, ?_⟩
    · show s2.ordered = om
      exact ho2.trans hv.orderedEq
    · show PoolOK s2.ordered (releaseId s2.ordered false s2.pool b)
      refine poolOK_releaseId_not_mem ?_ ?_
      · rw [ho2, hp2]
        exact hv.pool_ok
      · rw [hp2]
        exact hbp
    · show (dkeys s2.b_to_as).Nodup
      rw [hb2]
      exact dkeys_nodup_ddel hv.keysB
    · intro a' b'
      show a' ∈ mmOwnersOf s2 b' ↔ b' ∈ mmSlotsOf s2 a'
      rw [hown b']
      by_cases hbb : b' = b
      · subst hbb
        rw [if_pos rfl]
        constructor
        · intro h
          exact absurd h (Finset.not_mem_empty a')
        · intro h
          exact absurd h (c5 a')
      · rw [if_neg hbb, c6 a' b' hbb]
        exact hv.bidir a' b'
    · intro x hx
      show dlookup x s2.b_to_as = none
      rw [hb2]
      have hx2 : x ∈ releaseId s2.ordered false s2.pool b := hx
      rcases mem_releaseId.mp hx2 with rfl | hx3
      · exact dlookup_ddel_self hv.keysB
      · rw [hp2] at hx3
        have hxb : x ≠ b := fun h2 => hbp (h2 ▸ hx3)
        rw [dlookup_ddel_ne hxb]
        exact hv.poolFree x hx3
    · intro u hu
      by_cases hub : u = b
      · subst hub
        exact Or.inl (mem_releaseId.mpr (Or.inl rfl))
      · rcases hv.cover u hu with h | h
        · refine Or.inl (mem_releaseId.mpr (Or.inr ?_))
          rw [hp2]
          exact h
        · refine Or.inr ?_
          show (dlookup u s2.b_to_as).isSome = true
          rw [hb2, dlookup_ddel_ne hub]
          exact h
    · intro b' T' hT'
      have hT2 : dlookup b' s2.b_to_as = some T' := hT'
      rw [hb2] at hT2
      by_cases hbb : b' = b
      · subst hbb
        rw [dlookup_ddel_self hv.keysB] at hT2
        cases hT2
      · rw [dlookup_ddel_ne hbb] at hT2
        exact hv.slotNE b' T' hT2

theorem mmClear_b_to_as {s : MMState α} : (mmClear s).b_to_as = [] := rfl

theorem mmClear_a_to_bs {s : MMState α} : (mmClear s).a_to_bs = [] := rfl

theorem mmClear_pool {s : MMState α} :
    (mmClear s).pool = if s.ordered then sortNat (dkeys s.b_to_as ++ s.pool)
                       else (dkeys s.b_to_as).foldl setAdd s.pool := rfl

/-- In the shared table the held ids and the pool are disjoint. -/
theorem mm_held_pool_disjoint {s : MMState α} (hv : MMInv univ om s) :
    ∀ x ∈ dkeys s.b_to_as, x ∉ s.pool := by
  intro x hx hp
  have h1 := hv.poolFree x hp
  rw [dlookup_eq_none] at h1
  exact h1 hx

/-- Shared `clear` preserves the invariant. -/
theorem mmInv_mmClear {s : MMState α} (hv : MMInv univ om s) :
    MMInv univ om (mmClear s) := by
  have hpool : PoolOK (mmClear s).ordered (mmClear s).pool := by
    rw [show (mmClear s).ordered = s.ordered from rfl, mmClear_pool]
    cases ho : s.ordered
    · rw [if_neg (by simp)]
      exact ⟨nodup_foldl_setAdd _ _ hv.pool_ok.1, fun hh => Bool.noConfusion hh⟩
    · rw [if_pos rfl]
      have hnd : (dkeys s.b_to_as ++ s.pool).Nodup :=
        List.Nodup.append hv.keysB hv.pool_ok.1 (mm_held_pool_disjoint hv)
      exact ⟨nodup_sortNat hnd, fun _ => sorted_sortNat hnd⟩
  refine ⟨hv.orderedEq, hpool, ?_, ?_, ?_, ?_, ?_, ?_⟩
  · rw [mmClear_b_to_as]
    exact List.nodup_nil
  · rw [mmClear_a_to_bs]
    exact List.nodup_nil
  · intro a b
    constructor
    · intro h
      rw [show mmOwnersOf (mmClear s) b = ∅ from rfl] at h
      exact absurd h (Finset.not_mem_empty a)
    · intro h
      rw [show mmSlotsOf (mmClear s) a = ∅ from rfl] at h
      exact absurd h (Finset.not_mem_empty b)
  · intro x _
    rfl
  · intro u hu
    refine Or.inl ?_
    rw [mmClear_pool]
    have hor : u ∈ dkeys s.b_to_as ++ s.pool := by
      rcases hv.cover u hu with h | h
      · exact List.mem_append.mpr (Or.inr h)
      · exact List.mem_append.mpr (Or.inl (dlookup_isSome.mp h))
    cases ho : s.ordered
    · rw [if_neg (by simp)]
      rcases List.mem_append.mp hor with h | h
      · exact (mem_foldl_setAdd _ _).mpr (Or.inr h)
      · exact (mem_foldl_setAdd _ _).mpr (Or.inl h)
    · rw [if_pos rfl]
      exact mem_sortNat.mpr hor
  · intro b T hT
    rw [show (mmClear s).b_to_as = ([] : List (Nat × Finset α)) from rfl] at hT
    cases hT

/-- The initial shared state satisfies the invariant. -/
theorem mmInv_init (univ : List Nat) (om : Bool) (hnd : univ.Nodup) :
    MMInv univ om (initMM univ om : MMState α) := by
  have hpool : PoolOK om (if om = true then sortNat univ else univ) := by
    cases om
    · rw [if_neg (by simp)]
      exact ⟨hnd, fun hh => Bool.noConfusion hh⟩
    · rw [if_pos rfl]
      exact ⟨nodup_sortNat hnd, fun _ => sorted_sortNat hnd⟩
  refine ⟨rfl, hpool, List.nodup_nil, List.nodup_nil, ?_, ?_, ?_, ?_⟩
  · intro a b
    constructor
    · intro h
      exact absurd h (Finset.not_mem_empty a)
    · intro h
      exact absurd h (Finset.not_mem_empty b)
  · intro x _
    rfl
  · intro u hu
    refine Or.inl ?_
    show u ∈ (if om = true then sortNat univ else univ)
    cases om
    · rw [if_neg (by simp)]
      exact hu
    · rw [if_pos rfl]
      exact mem_sortNat.mpr hu
  · intro b T hT
    cases hT

/-- Main induction: every reachable state of the shared manager
satisfies the invariant. -/
theorem mmInv_run (univ : List Nat) (om : Bool) (hnd : univ.Nodup)
    (ops : List (MMOp α)) : MMInv univ om (runMM univ om ops) := by
  refine foldl_preserves (fun t => MMInv univ om t) ?_ ops _ (mmInv_init univ om hnd)
  intro t op ht
  cases op with
  | assoc a bs => exact mmInv_mmAssociate ht a bs
  | dissoc a bs => exact mmInv_mmDissociate ht a bs
  | alloc a => exact mmInv_mmAllocate ht a
  | rmA a => exact mmInv_mmRemove_a ht a
  | rmB b => exact mmInv_mmRemove_b ht b
  | clr => exact mmInv_mmClear ht

/-- Every reachable state of the shared manager satisfies the invariant. -/
theorem mmInv_reach {univ : List Nat} {om : Bool} {s : MMState α}
    (hnd : univ.Nodup) (hr : MMReach univ om s) : MMInv univ om s := by
  obtain ⟨ops, rfl⟩ := hr
  exact mmInv_run univ om hnd ops

end MMPreservation

section ReachLemmas

variable {univ : List Nat} {sm om : Bool}

theorem exclReach_step {s : ExclState α} (hr : ExclReach univ sm om s)
    (op : ExclOp α) : ExclReach univ sm om (applyExclOp s op) := by
  obtain ⟨ops, rfl⟩ := hr
  refine ⟨ops ++ [op], ?_⟩
  unfold runExcl
  rw [List.foldl_append]
  rfl

theorem mmReach_step {s : MMState α} (hr : MMReach univ om s)
    (op : MMOp α) : MMReach univ om (applyMMOp s op) := by
  obtain ⟨ops, rfl⟩ := hr
  refine ⟨ops ++ [op], ?_⟩
  unfold runMM
  rw [List.foldl_append]
  rfl

theorem releaseId_chk_mem {o : Bool} {p : List Nat} {b : Nat} (hb : b ∈ p) :
    releaseId o true p b = p := by
  unfold releaseId setAdd
  cases o
  · simp [hb]
  · simp [hb]

/-- The number of free ids after `clear` on the exclusive table. -/
theorem exclClear_count {s : ExclState α} (hv : ExclInv univ sm om s) :
    (exclClear s).pool.length = s.pool.length + (dkeys s.b_to_a).length := by
  rw [exclClear_pool]
  cases ho : s.ordered
  · rw [if_neg (by simp)]
    rw [length_foldl_setAdd (dkeys s.b_to_a) s.pool (held_pool_disjoint hv) hv.keysB]
  · rw [if_pos rfl, length_sortNat, List.length_append]
    omega

/-- The number of free ids after `clear` on the shared table. -/
theorem mmClear_count {s : MMState α} (hv : MMInv univ om s) :
    (mmClear s).pool.length = s.pool.length + (dkeys s.b_to_as).length := by
  rw [mmClear_pool]
  cases ho : s.ordered
  · rw [if_neg (by simp)]
    rw [length_foldl_setAdd (dkeys s.b_to_as) s.pool (mm_held_pool_disjoint hv) hv.keysB]
  · rw [if_pos rfl, length_sortNat, List.length_append]
    omega

/-- All previously held ids land in the pool after `clear` (exclusive). -/
theorem exclClear_mem_pool {s : ExclState α} {b : Nat}
    (hb : b ∈ dkeys s.b_to_a) : b ∈ (exclClear s).pool := by
  rw [exclClear_pool]
  cases ho : s.ordered
  · rw [if_neg (by simp)]
    exact (mem_foldl_setAdd _ _).mpr (Or.inr hb)
  · rw [if_pos rfl]
    exact mem_sortNat.mpr (List.mem_append.mpr (Or.inl hb))

/-- All previously held ids land in the pool after `clear` (shared). -/
theorem mmClear_mem_pool {s : MMState α} {b : Nat}
    (hb : b ∈ dkeys s.b_to_as) : b ∈ (mmClear s).pool := by
  rw [mmClear_pool]
  cases ho : s.ordered
  · rw [if_neg (by simp)]
    exact (mem_foldl_setAdd _ _).mpr (Or.inr hb)
  · rw [if_pos rfl]
    exact mem_sortNat.mpr (List.mem_append.mpr (Or.inl hb))

end ReachLemmas

section MoreEquations

theorem dlookup_ensureA_ne {s : ExclState α} {a a' : α} (hne : a' ≠ a) :
    dlookup a' (ensureA s a).a_to_bs = dlookup a' s.a_to_bs := by
  unfold ensureA
  by_cases hs : (dlookup a s.a_to_bs).isSome = true
  · rw [if_pos hs]
  · rw [if_neg hs]
    exact dlookup_dset_ne hne

theorem dlookup_mmEnsureA_ne {s : MMState α} {a a' : α} (hne : a' ≠ a) :
    dlookup a' (mmEnsureA s a).a_to_bs = dlookup a' s.a_to_bs := by
  unfold mmEnsureA
  by_cases hs : (dlookup a s.a_to_bs).isSome = true
  · rw [if_pos hs]
  · rw [if_neg hs]
    exact dlookup_dset_ne hne

theorem allocate_noentry_eq {s : ExclState α} {a : α} {force : Bool}
    (hsm : s.single = true) (hA : dlookup a s.a_to_bs = none) :
    allocate s a force = allocDraw s a := by
  unfold allocate
  rw [if_pos hsm, hA]

theorem allocate_multi_eq {s : ExclState α} {a : α} {force : Bool}
    (hsm : s.single = false) :
    allocate s a force = allocDraw s a := by
  unfold allocate
  rw [hsm]
  rfl

theorem allocate_entry_force_eq {s : ExclState α} {a : α} {S : Finset Nat}
    (hsm : s.single = true) (hA : dlookup a s.a_to_bs = some S) :
    allocate s a true = allocDraw ((finList S).foldl remove_b s) a := by
  unfold allocate
  rw [if_pos hsm, hA]
  rfl

theorem allocate_entry_noforce_eq {s : ExclState α} {a : α} {S : Finset Nat}
    (hsm : s.single = true) (hA : dlookup a s.a_to_bs = some S) :
    allocate s a false
      = (match (finList S).head? with
         | some b => (Except.ok b, s)
         | none => (Except.error PyErr.stopIter, s)) := by
  unfold allocate
  rw [if_pos hsm, hA]
  rfl

theorem allocate_entry_noforce_state {s : ExclState α} {a : α} {S : Finset Nat}
    (hsm : s.single = true) (hA : dlookup a s.a_to_bs = some S) :
    (allocate s a false).2 = s := by
  rw [allocate_entry_noforce_eq hsm hA]
  cases hfin : (finList S).head?
  · rfl
  · rfl

theorem mmDissociate_some_eq {s : MMState α} {a : α} {bs : List Nat}
    (h : (dlookup a s.a_to_bs).isSome = true) :
    mmDissociate s a bs = mmPostPrune a (bs.foldl (mmDissocStep a) s) := by
  unfold mmDissociate
  rw [if_pos h]

theorem mmDissociate_none_eq {s : MMState α} {a : α} {bs : List Nat}
    (h : ¬(dlookup a s.a_to_bs).isSome = true) :
    mmDissociate s a bs = s := by
  unfold mmDissociate
  rw [if_neg h]

theorem mmPostPrune_none_eq {t : MMState α} {a : α}
    (h : dlookup a t.a_to_bs = none) : mmPostPrune a t = t := by
  unfold mmPostPrune
  rw [h]

theorem mmPostPrune_some_empty_eq {t : MMState α} {a : α}
    (h : dlookup a t.a_to_bs = some ∅) :
    mmPostPrune a t = { t with a_to_bs := ddel a t.a_to_bs } := by
  unfold mmPostPrune
  rw [h]
  exact if_pos rfl

theorem mmPostPrune_some_ne_eq {t : MMState α} {a : α} {S : Finset Nat}
    (h : dlookup a t.a_to_bs = some S) (hS : S ≠ ∅) :
    mmPostPrune a t = t := by
  unfold mmPostPrune
  rw [h]
  exact if_neg hS

theorem mmPostPrune_b_to_as {t : MMState α} {a : α} :
    (mmPostPrune a t).b_to_as = t.b_to_as := by
  rcases hA : dlookup a t.a_to_bs with _ | S
  · rw [mmPostPrune_none_eq hA]
  · by_cases h : S = ∅
    · subst h
      rw [mmPostPrune_some_empty_eq hA]
    · rw [mmPostPrune_some_ne_eq hA h]

theorem mmPostPrune_pool {t : MMState α} {a : α} :
    (mmPostPrune a t).pool = t.pool := by
  rcases hA : dlookup a t.a_to_bs with _ | S
  · rw [mmPostPrune_none_eq hA]
  · by_cases h : S = ∅
    · subst h
      rw [mmPostPrune_some_empty_eq hA]
    · rw [mmPostPrune_some_ne_eq hA h]

theorem mmRemove_a_none_eq {s : MMState α} {a : α}
    (h : dlookup a s.a_to_bs = none) : mmRemove_a s a = s := by
  unfold mmRemove_a
  rw [h]

theorem mmRemove_a_some_eq {s : MMState α} {a : α} {S : Finset Nat}
    (h : dlookup a s.a_to_bs = some S) :
    mmRemove_a s a
      = (finList S).foldl (mmRemove_aStep a) { s with a_to_bs := ddel a s.a_to_bs } := by
  unfold mmRemove_a
  rw [h]

theorem mmRemove_aStep_none_eq {t : MMState α} {a : α} {b : Nat}
    (h : dlookup b t.b_to_as = none) : mmRemove_aStep a t b = t := by
  unfold mmRemove_aStep
  rw [h]

theorem mmRemove_aStep_drop_eq {t : MMState α} {a : α} {b : Nat} {T : Finset α}
    (h : dlookup b t.b_to_as = some T) (he : T.erase a = ∅) :
    mmRemove_aStep a t b = mmDropSlot t b := by
  unfold mmRemove_aStep
  rw [h]
  exact if_pos he

theorem mmRemove_aStep_shrink_eq {t : MMState α} {a : α} {b : Nat} {T : Finset α}
    (h : dlookup b t.b_to_as = some T) (he : ¬T.erase a = ∅) :
    mmRemove_aStep a t b = mmShrinkSlot t b (T.erase a) := by
  unfold mmRemove_aStep
  rw [h]
  exact if_neg he

theorem mmRemove_b_none_eq {s : MMState α} {b : Nat}
    (h : dlookup b s.b_to_as = none) :
    mmRemove_b s b = { s with pool := releaseId s.ordered true s.pool b } := by
  unfold mmRemove_b
  rw [h]

theorem mmRemove_b_some_eq {s : MMState α} {b : Nat} {T : Finset α}
    (h : dlookup b s.b_to_as = some T) :
    mmRemove_b s b = mmFinishRemove_b
      ((finListA T).foldl (mmRemove_bStep b) { s with b_to_as := ddel b s.b_to_as }) b := by
  unfold mmRemove_b
  rw [h]

theorem mmRemove_bStep_none_eq {t : MMState α} {b : Nat} {a : α}
    (h : dlookup a t.a_to_bs = none) : mmRemove_bStep b t a = t := by
  unfold mmRemove_bStep
  rw [h]

theorem mmRemove_bStep_prune_eq {t : MMState α} {b : Nat} {a : α} {S : Finset Nat}
    (h : dlookup a t.a_to_bs = some S) (he : S.erase b = ∅) :
    mmRemove_bStep b t a = mmPruneOwner t a := by
  unfold mmRemove_bStep
  rw [h]
  exact if_pos he

theorem mmRemove_bStep_shrink_eq {t : MMState α} {b : Nat} {a : α} {S : Finset Nat}
    (h : dlookup a t.a_to_bs = some S) (he : ¬S.erase b = ∅) :
    mmRemove_bStep b t a = mmShrinkOwner t a (S.erase b) := by
  unfold mmRemove_bStep
  rw [h]
  exact if_neg he

end MoreEquations

section EmptyEntryExcl

variable {univ : List Nat} {sm om : Bool}

theorem exclNE_detachOwner {s : ExclState α} {oldA : α} {b : Nat}
    (hkA : (dkeys s.a_to_bs).Nodup) (hne : ExclNE s) :
    ExclNE (detachOwner s oldA b) := by
  intro a S hS
  unfold detachOwner at hS
  by_cases hps : (slotsOf s oldA).erase b = ∅
  · rw [if_pos hps] at hS
    by_cases ha : a = oldA
    · subst ha
      rw [dlookup_ddel_self hkA] at hS
      exact Option.noConfusion hS
    · rw [dlookup_ddel_ne ha] at hS
      exact hne a S hS
  · rw [if_neg hps] at hS
    by_cases ha : a = oldA
    · subst ha
      rw [dlookup_dset_self] at hS
      obtain rfl := Option.some.inj hS
      exact hps
    · rw [dlookup_dset_ne ha] at hS
      exact hne a S hS

theorem exclNE_remove_b {s : ExclState α} (hkA : (dkeys s.a_to_bs).Nodup)
    (hne : ExclNE s) (b : Nat) : ExclNE (remove_b s b) := by
  rcases hb : dlookup b s.b_to_a with _ | oldA
  · rw [remove_b_unknown_eq hb]
    exact hne
  · rw [remove_b_owned_eq hb]
    intro a S hS
    exact exclNE_detachOwner hkA hne a S hS

theorem exclNE_detachOwner_other {s : ExclState α} {a oldA : α} {b : Nat}
    (hkA : (dkeys s.a_to_bs).Nodup)
    (hnx : ∀ (a' : α) (S : Finset Nat), a' ≠ a → dlookup a' s.a_to_bs = some S → S ≠ ∅) :
    ∀ (a' : α) (S : Finset Nat), a' ≠ a
      → dlookup a' (detachOwner s oldA b).a_to_bs = some S → S ≠ ∅ := by
  intro a' S ha' hS
  unfold detachOwner at hS
  by_cases hps : (slotsOf s oldA).erase b = ∅
  · rw [if_pos hps] at hS
    by_cases ha : a' = oldA
    · subst ha
      rw [dlookup_ddel_self hkA] at hS
      exact Option.noConfusion hS
    · rw [dlookup_ddel_ne ha] at hS
      exact hnx a' S ha' hS
  · rw [if_neg hps] at hS
    by_cases ha : a' = oldA
    · subst ha
      rw [dlookup_dset_self] at hS
      obtain rfl := Option.some.inj hS
      exact hps
    · rw [dlookup_dset_ne ha] at hS
      exact hnx a' S ha' hS

theorem exclNE_assocStep_other {s : ExclState α} {a : α} (b : Nat)
    (hkA : (dkeys s.a_to_bs).Nodup)
    (hnx : ∀ (a' : α) (S : Finset Nat), a' ≠ a → dlookup a' s.a_to_bs = some S → S ≠ ∅) :
    ∀ (a' : α) (S : Finset Nat), a' ≠ a
      → dlookup a' (assocStep a s b).a_to_bs = some S → S ≠ ∅ := by
  intro a' S ha' hS
  rcases hb : dlookup b s.b_to_a with _ | oldA
  · rw [assocStep_free_eq hb] at hS
    rw [show (exclAttach a b { s with pool := poolDiscard s.ordered s.pool b }).a_to_bs
        = dset a (insert b (slotsOf s a)) s.a_to_bs from rfl] at hS
    rw [dlookup_dset_ne ha'] at hS
    exact hnx a' S ha' hS
  · by_cases haa : oldA = a
    · subst haa
      rw [assocStep_self_eq hb] at hS
      exact hnx a' S ha' hS
    · rw [assocStep_steal_eq hb haa] at hS
      rw [show (exclAttach a b (detachOwner s oldA b)).a_to_bs
          = dset a (insert b (slotsOf (detachOwner s oldA b) a))
              (detachOwner s oldA b).a_to_bs from rfl] at hS
      rw [dlookup_dset_ne ha'] at hS
      exact exclNE_detachOwner_other hkA hnx a' S ha' hS

theorem slotsOf_assocStep_mono {s : ExclState α} {a : α} {b : Nat}
    (hkA : (dkeys s.a_to_bs).Nodup) :
    slotsOf s a ⊆ slotsOf (assocStep a s b) a := by
  intro x hx
  rcases hb : dlookup b s.b_to_a with _ | oldA
  · rw [assocStep_free_eq hb, slotsOf_exclAttach_self]
    exact Finset.mem_insert_of_mem hx
  · by_cases haa : oldA = a
    · subst haa
      rw [assocStep_self_eq hb]
      exact hx
    · rw [assocStep_steal_eq hb haa, slotsOf_exclAttach_self,
        slotsOf_detachOwner hkA, if_neg (fun h => haa h.symm)]
      exact Finset.mem_insert_of_mem hx

theorem mem_slotsOf_assocStep_self {s : ExclState α} (hv : ExclInv univ sm om s)
    (a : α) (b : Nat) : b ∈ slotsOf (assocStep a s b) a := by
  rcases hb : dlookup b s.b_to_a with _ | oldA
  · rw [assocStep_free_eq hb, slotsOf_exclAttach_self]
    exact Finset.mem_insert_self b _
  · by_cases haa : oldA = a
    · subst haa
      rw [assocStep_self_eq hb]
      exact (hv.bidir _ b).mp hb
    · rw [assocStep_steal_eq hb haa, slotsOf_exclAttach_self]
      exact Finset.mem_insert_self b _

theorem assocStep_fold_props {a : α} :
    ∀ (bs : List Nat) (t : ExclState α), ExclInv univ sm om t
      → (∀ (a' : α) (S : Finset Nat), a' ≠ a → dlookup a' t.a_to_bs = some S → S ≠ ∅)
      → ExclInv univ sm om (bs.foldl (assocStep a) t)
        ∧ (∀ (a' : α) (S : Finset Nat), a' ≠ a
            → dlookup a' (bs.foldl (assocStep a) t).a_to_bs = some S → S ≠ ∅)
        ∧ slotsOf t a ⊆ slotsOf (bs.foldl (assocStep a) t) a
  | [], _, hv, hnx => ⟨hv, hnx, Finset.Subset.refl _⟩
  | b :: rest, t, hv, hnx => by
      have hv1 := exclInv_assocStep hv a b
      have hnx1 := exclNE_assocStep_other b hv.keysA hnx
      have ih := assocStep_fold_props rest (assocStep a t b) hv1 hnx1
      exact ⟨ih.1, ih.2.1, Finset.Subset.trans (slotsOf_assocStep_mono hv.keysA) ih.2.2⟩

theorem exclNE_associate {s : ExclState α} (hv : ExclInv univ sm om s)
    (h1 : Single1 s) (hne : ExclNE s) (a : α) {bs : List Nat} (hbs : bs ≠ []) :
    ExclNE (associate s a bs).2 := by
  by_cases herr : s.single = true ∧ 1 < bs.length
  · rw [associate_err_eq herr.1 herr.2]
    exact hne
  · rw [associate_ok_eq herr]
    have hpre : ExclInv univ sm om (if s.single = true then singlePreRelease s a else s)
        ∧ ExclNE (if s.single = true then singlePreRelease s a else s) := by
      by_cases hsm : s.single = true
      · rw [if_pos hsm]
        refine ⟨(exclInv_singlePreRelease hv h1 a).1, ?_⟩
        unfold singlePreRelease
        rcases hA : dlookup a s.a_to_bs with _ | S
        · exact hne
        · exact (foldl_preserves (fun t => ExclInv univ sm om t ∧ ExclNE t)
            (fun t b ht => ⟨exclInv_remove_b ht.1 b, exclNE_remove_b ht.1.keysA ht.2 b⟩)
            _ s ⟨hv, hne⟩).2
      · rw [if_neg hsm]
        exact ⟨hv, hne⟩
    have hv0 : ExclInv univ sm om
        (ensureA (if s.single = true then singlePreRelease s a else s) a) :=
      exclInv_ensureA hpre.1 a
    have hnx0 : ∀ (a' : α) (S : Finset Nat), a' ≠ a
        → dlookup a' (ensureA (if s.single = true then singlePreRelease s a else s)
            a).a_to_bs = some S → S ≠ ∅ := by
      intro a' S ha' hS
      rw [dlookup_ensureA_ne ha'] at hS
      exact hpre.2 a' S hS
    rcases bs with _ | ⟨b, rest⟩
    · exact absurd rfl hbs
    · have hv1 := exclInv_assocStep hv0 a b
      have hfold := assocStep_fold_props rest
        (assocStep a (ensureA (if s.single = true then singlePreRelease s a else s) a) b)
        hv1 (exclNE_assocStep_other b hv0.keysA hnx0)
      have hmem : b ∈ slotsOf ((b :: rest).foldl (assocStep a)
          (ensureA (if s.single = true then singlePreRelease s a else s) a)) a := by
        rw [List.foldl_cons]
        exact hfold.2.2 (mem_slotsOf_assocStep_self hv0 a b)
      intro a' S hS
      by_cases ha' : a' = a
      · subst ha'
        have hSeq : slotsOf ((b :: rest).foldl (assocStep a')
            (ensureA (if s.single = true then singlePreRelease s a' else s) a')) a' = S :=
          slotsOf_eq_of_lookup hS
        rw [hSeq] at hmem
        intro hh
        rw [hh] at hmem
        exact absurd hmem (Finset.not_mem_empty b)
      · rw [List.foldl_cons] at hS
        exact hfold.2.1 a' S ha' hS

theorem exclNE_allocDraw {s : ExclState α} (hne : ExclNE s) (a : α) :
    ExclNE (allocDraw s a).2 := by
  rcases hp : s.pool with _ | ⟨b, rest⟩
  · rw [allocDraw_nil_eq hp]
    exact hne
  · rw [allocDraw_cons_eq hp]
    intro a' S hS
    rw [show (exclAttach a b (ensureA { s with pool := rest } a)).a_to_bs
        = dset a (insert b (slotsOf (ensureA { s with pool := rest } a) a))
            (ensureA { s with pool := rest } a).a_to_bs from rfl] at hS
    by_cases ha' : a' = a
    · subst ha'
      rw [dlookup_dset_self] at hS
      obtain rfl := Option.some.inj hS
      exact Finset.insert_ne_empty b _
    · rw [dlookup_dset_ne ha', dlookup_ensureA_ne ha'] at hS
      exact hne a' S hS

theorem exclNE_allocate {s : ExclState α} (hv : ExclInv univ sm om s)
    (hne : ExclNE s) (a : α) (force : Bool) :
    ExclNE (allocate s a force).2 := by
  by_cases hsm : s.single = true
  · rcases hA : dlookup a s.a_to_bs with _ | S
    · rw [allocate_noentry_eq hsm hA]
      exact exclNE_allocDraw hne a
    · cases force
      · rw [allocate_entry_noforce_state hsm hA]
        exact hne
      · rw [allocate_entry_force_eq hsm hA]
        refine exclNE_allocDraw ?_ a
        exact (foldl_preserves (fun t => ExclInv univ sm om t ∧ ExclNE t)
          (fun t b ht => ⟨exclInv_remove_b ht.1 b, exclNE_remove_b ht.1.keysA ht.2 b⟩)
          _ s ⟨hv, hne⟩).2
  · have hsm' : s.single = false := by
      cases h : s.single
      · rfl
      · exact absurd h hsm
    rw [allocate_multi_eq hsm']
    exact exclNE_allocDraw hne a

theorem exclNE_remove_a {s : ExclState α} (hkA : (dkeys s.a_to_bs).Nodup)
    (hne : ExclNE s) (a : α) : ExclNE (remove_a s a) := by
  rcases hA : dlookup a s.a_to_bs with _ | S
  · rw [remove_a_none_eq hA]
    exact hne
  · rw [remove_a_some_eq hA]
    intro a' S' hS'
    have hproj : ((finList S).foldl releaseStep
        ({ s with a_to_bs := ddel a s.a_to_bs } : ExclState α)).a_to_bs
        = ddel a s.a_to_bs := by
      refine foldl_proj (fun t : ExclState α => t.a_to_bs) ?_ _ _
      intro t b
      rfl
    rw [hproj] at hS'
    by_cases ha' : a' = a
    · subst ha'
      rw [dlookup_ddel_self hkA] at hS'
      exact Option.noConfusion hS'
    · rw [dlookup_ddel_ne ha'] at hS'
      exact hne a' S' hS'

theorem exclNE_exclClear {s : ExclState α} : ExclNE (exclClear s) := by
  intro a S hS
  rw [show dlookup a (exclClear s).a_to_bs = none from rfl] at hS
  exact Option.noConfusion hS

theorem exclInvStep_applyOp {s : ExclState α} (hv : ExclInv univ sm om s)
    (h1 : Single1 s) (op : ExclOp α) :
    ExclInv univ sm om (applyExclOp s op) ∧ Single1 (applyExclOp s op) := by
  cases op with
  | assoc a bs => exact exclInv_associate hv h1 a bs
  | alloc a f => exact exclInv_allocate hv h1 a f
  | rmA a => exact exclInv_remove_a hv h1 a
  | rmB b => exact ⟨exclInv_remove_b hv b, single1_remove_b hv h1 b⟩
  | clr => exact exclInv_exclClear hv

theorem exclNE_applyOp {s : ExclState α} (hv : ExclInv univ sm om s) (h1 : Single1 s)
    (hne : ExclNE s) {op : ExclOp α} (hop : ExclOpNE op = true) :
    ExclNE (applyExclOp s op) := by
  cases op with
  | assoc a bs =>
      have hbs : bs ≠ [] := by
        intro hh
        subst hh
        exact Bool.noConfusion hop
      exact exclNE_associate hv h1 hne a hbs
  | alloc a f => exact exclNE_allocate hv hne a f
  | rmA a => exact exclNE_remove_a hv.keysA hne a
  | rmB b => exact exclNE_remove_b hv.keysA hne b
  | clr => exact exclNE_exclClear

theorem exclNE_run (univ : List Nat) (sm om : Bool) (hnd : univ.Nodup)
    (ops : List (ExclOp α)) (hops : ∀ op ∈ ops, ExclOpNE op = true) :
    ExclNE (runExcl univ sm om ops) := by
  suffices h : ∀ (L : List (ExclOp α)) (t : ExclState α),
      (∀ op ∈ L, ExclOpNE op = true) → ExclInv univ sm om t → Single1 t → ExclNE t
      → ExclNE (L.foldl applyExclOp t) by
    have hinit : ExclInv univ sm om (initExcl univ sm om : ExclState α)
        ∧ Single1 (initExcl univ sm om : ExclState α) := exclInv_init univ sm om hnd
    refine h ops _ hops hinit.1 hinit.2 ?_
    intro a S hS
    rw [show dlookup a (initExcl univ sm om : ExclState α).a_to_bs = none from rfl] at hS
    exact Option.noConfusion hS
  intro L
  induction L with
  | nil =>
      intro t _ _ _ hne
      exact hne
  | cons op rest ih =>
      intro t hops' hv h1 hne
      have hstep := exclInvStep_applyOp hv h1 op
      exact ih (applyExclOp t op)
        (fun o ho => hops' o (List.mem_cons_of_mem op ho)) hstep.1 hstep.2
        (exclNE_applyOp hv h1 hne (hops' op (List.mem_cons_self op rest)))

end EmptyEntryExcl

section EmptyEntryMM

variable {univ : List Nat} {om : Bool}

theorem mmNE_mmAssocStep_other {s : MMState α} {a : α} (b : Nat)
    (hnx : ∀ (a' : α) (S : Finset Nat), a' ≠ a → dlookup a' s.a_to_bs = some S → S ≠ ∅) :
    ∀ (a' : α) (S : Finset Nat), a' ≠ a
      → dlookup a' (mmAssocStep a s b).a_to_bs = some S → S ≠ ∅ := by
  intro a' S ha' hS
  rw [show (mmAssocStep a s b).a_to_bs
      = dset a (insert b (mmSlotsOf s a)) s.a_to_bs from rfl] at hS
  rw [dlookup_dset_ne ha'] at hS
  exact hnx a' S ha' hS

theorem mmEntryNE_mmAssocStep {s : MMState α} (a : α) (b : Nat) :
    ∃ S : Finset Nat, dlookup a (mmAssocStep a s b).a_to_bs = some S ∧ S ≠ ∅ := by
  refine ⟨insert b (mmSlotsOf s a), ?_, Finset.insert_ne_empty b _⟩
  rw [show (mmAssocStep a s b).a_to_bs
      = dset a (insert b (mmSlotsOf s a)) s.a_to_bs from rfl]
  exact dlookup_dset_self

theorem mmNE_mmAssociate {s : MMState α} (hne : MMNE s) (a : α) {bs : List Nat}
    (hbs : bs ≠ []) : MMNE (mmAssociate s a bs) := by
  unfold mmAssociate
  have hnx0 : ∀ (a' : α) (S : Finset Nat), a' ≠ a
      → dlookup a' (mmEnsureA s a).a_to_bs = some S → S ≠ ∅ := by
    intro a' S ha' hS
    rw [dlookup_mmEnsureA_ne ha'] at hS
    exact hne a' S hS
  rcases bs with _ | ⟨b, rest⟩
  · exact absurd rfl hbs
  · rw [List.foldl_cons]
    have hstep := foldl_preserves
      (fun t => (∀ (a' : α) (S : Finset Nat), a' ≠ a
          → dlookup a' t.a_to_bs = some S → S ≠ ∅)
        ∧ ∃ S : Finset Nat, dlookup a t.a_to_bs = some S ∧ S ≠ ∅)
      (fun t b' ht => ⟨mmNE_mmAssocStep_other b' ht.1, mmEntryNE_mmAssocStep a b'⟩)
      rest (mmAssocStep a (mmEnsureA s a) b)
      ⟨mmNE_mmAssocStep_other b hnx0, mmEntryNE_mmAssocStep a b⟩
    intro a' S hS
    by_cases ha' : a' = a
    · subst ha'
      obtain ⟨S0, hS0, hS0ne⟩ := hstep.2
      rw [hS0] at hS
      obtain rfl := Option.some.inj hS
      exact hS0ne
    · exact hstep.1 a' S ha' hS

theorem mmNEx_mmDissocStep {s : MMState α} (hv : MMInv univ om s) {a : α} (b : Nat)
    (hnx : ∀ (a' : α) (S : Finset Nat), a' ≠ a → dlookup a' s.a_to_bs = some S → S ≠ ∅) :
    ∀ (a' : α) (S : Finset Nat), a' ≠ a
      → dlookup a' (mmDissocStep a s b).a_to_bs = some S → S ≠ ∅ := by
  intro a' S ha' hS
  rcases hT : dlookup b s.b_to_as with _ | T
  · have hmem : b ∉ mmSlotsOf s a := by
      intro hm
      have h2 := (hv.bidir a b).mpr hm
      rw [mmOwnersOf_eq_empty_of_none hT] at h2
      exact absurd h2 (Finset.not_mem_empty a)
    rw [mmDissocStep_skip_none hmem hT] at hS
    exact hnx a' S ha' hS
  · by_cases haT : a ∈ T
    · have hmem : b ∈ mmSlotsOf s a := by
        refine (hv.bidir a b).mp ?_
        rw [mmOwnersOf_eq_of_lookup hT]
        exact haT
      by_cases he : T.erase a = ∅
      · rw [mmDissocStep_drop hmem hT haT he] at hS
        rw [show (mmDissocDrop s a b).a_to_bs
            = dset a ((mmSlotsOf s a).erase b) s.a_to_bs from rfl] at hS
        rw [dlookup_dset_ne ha'] at hS
        exact hnx a' S ha' hS
      · rw [mmDissocStep_keep hmem hT haT he] at hS
        rw [show (mmDissocKeep s a b T).a_to_bs
            = dset a ((mmSlotsOf s a).erase b) s.a_to_bs from rfl] at hS
        rw [dlookup_dset_ne ha'] at hS
        exact hnx a' S ha' hS
    · by_cases hmem : b ∈ mmSlotsOf s a
      · have h2 := (hv.bidir a b).mpr hmem
        rw [mmOwnersOf_eq_of_lookup hT] at h2
        exact absurd h2 haT
      · rw [mmDissocStep_skip_some hmem hT haT] at hS
        exact hnx a' S ha' hS

theorem mmNE_mmDissociate {s : MMState α} (hv : MMInv univ om s) (hne : MMNE s)
    (a : α) (bs : List Nat) : MMNE (mmDissociate s a bs) := by
  by_cases hs : (dlookup a s.a_to_bs).isSome = true
  · rw [mmDissociate_some_eq hs]
    have hfold := foldl_preserves
      (fun t => MMInv univ om t
        ∧ ∀ (a' : α) (S : Finset Nat), a' ≠ a → dlookup a' t.a_to_bs = some S → S ≠ ∅)
      (fun t b ht => ⟨mmInv_mmDissocStep ht.1 a b, mmNEx_mmDissocStep ht.1 b ht.2⟩)
      bs s ⟨hv, fun a' S _ hS => hne a' S hS⟩
    intro a' S hS
    by_cases ha' : a' = a
    · subst ha'
      rcases hA : dlookup a' (bs.foldl (mmDissocStep a') s).a_to_bs with _ | S0
      · rw [mmPostPrune_none_eq hA, hA] at hS
        exact Option.noConfusion hS
      · by_cases h0 : S0 = ∅
        · subst h0
          rw [mmPostPrune_some_empty_eq hA] at hS
          rw [show ({ bs.foldl (mmDissocStep a') s with
              a_to_bs := ddel a' (bs.foldl (mmDissocStep a') s).a_to_bs } : MMState α).a_to_bs
              = ddel a' (bs.foldl (mmDissocStep a') s).a_to_bs from rfl,
            dlookup_ddel_self hfold.1.keysA] at hS
          exact Option.noConfusion hS
        · rw [mmPostPrune_some_ne_eq hA h0, hA] at hS
          obtain rfl := Option.some.inj hS
          exact h0
    · have hpp : dlookup a' (mmPostPrune a (bs.foldl (mmDissocStep a) s)).a_to_bs
          = dlookup a' (bs.foldl (mmDissocStep a) s).a_to_bs := by
        rcases hA : dlookup a (bs.foldl (mmDissocStep a) s).a_to_bs with _ | S0
        · rw [mmPostPrune_none_eq hA]
        · by_cases h0 : S0 = ∅
          · subst h0
            rw [mmPostPrune_some_empty_eq hA]
            exact dlookup_ddel_ne ha'
          · rw [mmPostPrune_some_ne_eq hA h0]
      rw [hpp] at hS
      exact hfold.2 a' S ha' hS
  · rw [mmDissociate_none_eq hs]
    exact hne

theorem mmNE_mmAllocate {s : MMState α} (hne : MMNE s) (a : α) :
    MMNE (mmAllocate s a).2 := by
  rcases hp : s.pool with _ | ⟨b, rest⟩
  · rw [mmAllocate_nil_eq hp]
    exact hne
  · rw [mmAllocate_cons_eq hp]
    intro a' S hS
    rw [show (mmAttachBoth (mmEnsureB (mmEnsureA { s with pool := rest } a) b) a b).a_to_bs
        = dset a (insert b (mmSlotsOf (mmEnsureB (mmEnsureA { s with pool := rest } a) b) a))
            (mmEnsureB (mmEnsureA { s with pool := rest } a) b).a_to_bs from rfl] at hS
    by_cases ha' : a' = a
    · subst ha'
      rw [dlookup_dset_self] at hS
      obtain rfl := Option.some.inj hS
      exact Finset.insert_ne_empty b _
    · rw [dlookup_dset_ne ha', mmEnsureB_a_to_bs, dlookup_mmEnsureA_ne ha'] at hS
      exact hne a' S hS

theorem mmNE_mmRemove_a {s : MMState α} (hkA : (dkeys s.a_to_bs).Nodup)
    (hne : MMNE s) (a : α) : MMNE (mmRemove_a s a) := by
  rcases hA : dlookup a s.a_to_bs with _ | S
  · rw [mmRemove_a_none_eq hA]
    exact hne
  · rw [mmRemove_a_some_eq hA]
    intro a' S' hS'
    have hproj : ((finList S).foldl (mmRemove_aStep a)
        ({ s with a_to_bs := ddel a s.a_to_bs } : MMState α)).a_to_bs
        = ddel a s.a_to_bs := by
      refine foldl_proj (fun t : MMState α => t.a_to_bs) ?_ _ _
      intro t b
      rcases hT : dlookup b t.b_to_as with _ | T
      · rw [mmRemove_aStep_none_eq hT]
      · by_cases he : T.erase a = ∅
        · rw [mmRemove_aStep_drop_eq hT he]
          rfl
        · rw [mmRemove_aStep_shrink_eq hT he]
          rfl
    rw [hproj] at hS'
    by_cases ha' : a' = a
    · subst ha'
      rw [dlookup_ddel_self hkA] at hS'
      exact Option.noConfusion hS'
    · rw [dlookup_ddel_ne ha'] at hS'
      exact hne a' S' hS'

theorem mmNE_mmRemove_bStep {t : MMState α} (b : Nat)
    (hkA : (dkeys t.a_to_bs).Nodup) (hne : MMNE t) (a : α) :
    (dkeys (mmRemove_bStep b t a).a_to_bs).Nodup ∧ MMNE (mmRemove_bStep b t a) := by
  rcases hA : dlookup a t.a_to_bs with _ | S
  · rw [mmRemove_bStep_none_eq hA]
    exact ⟨hkA, hne⟩
  · by_cases he : S.erase b = ∅
    · rw [mmRemove_bStep_prune_eq hA he]
      refine ⟨dkeys_nodup_ddel hkA, ?_⟩
      intro a' S' hS'
      rw [show (mmPruneOwner t a).a_to_bs = ddel a t.a_to_bs from rfl] at hS'
      by_cases ha' : a' = a
      · subst ha'
        rw [dlookup_ddel_self hkA] at hS'
        exact Option.noConfusion hS'
      · rw [dlookup_ddel_ne ha'] at hS'
        exact hne a' S' hS'
    · rw [mmRemove_bStep_shrink_eq hA he]
      refine ⟨dkeys_nodup_dset hkA, ?_⟩
      intro a' S' hS'
      rw [show (mmShrinkOwner t a (S.erase b)).a_to_bs
          = dset a (S.erase b) t.a_to_bs from rfl] at hS'
      by_cases ha' : a' = a
      · subst ha'
        rw [dlookup_dset_self] at hS'
        obtain rfl := Option.some.inj hS'
        exact he
      · rw [dlookup_dset_ne ha'] at hS'
        exact hne a' S' hS'

theorem mmNE_mmRemove_b {s : MMState α} (hkA : (dkeys s.a_to_bs).Nodup)
    (hne : MMNE s) (b : Nat) : MMNE (mmRemove_b s b) := by
  rcases hT : dlookup b s.b_to_as with _ | T
  · rw [mmRemove_b_none_eq hT]
    exact hne
  · rw [mmRemove_b_some_eq hT]
    have hfold := foldl_preserves
      (fun t => (dkeys t.a_to_bs).Nodup ∧ MMNE t)
      (fun t a ht => mmNE_mmRemove_bStep b ht.1 ht.2 a)
      (finListA T) ({ s with b_to_as := ddel b s.b_to_as } : MMState α) ⟨hkA, hne⟩
    intro a' S hS
    rw [show (mmFinishRemove_b ((finListA T).foldl (mmRemove_bStep b)
        ({ s with b_to_as := ddel b s.b_to_as } : MMState α)) b).a_to_bs
        = ((finListA T).foldl (mmRemove_bStep b)
            ({ s with b_to_as := ddel b s.b_to_as } : MMState α)).a_to_bs from rfl] at hS
    exact hfold.2 a' S hS

theorem mmNE_mmClear {s : MMState α} : MMNE (mmClear s) := by
  intro a S hS
  rw [show dlookup a (mmClear s).a_to_bs = none from rfl] at hS
  exact Option.noConfusion hS

theorem mmNE_applyOp {s : MMState α} (hv : MMInv univ om s)
    (hne : MMNE s) {op : MMOp α} (hop : MMOpNE op = true) :
    MMNE (applyMMOp s op) := by
  cases op with
  | assoc a bs =>
      have hbs : bs ≠ [] := by
        intro hh
        subst hh
        exact Bool.noConfusion hop
      exact mmNE_mmAssociate hne a hbs
  | dissoc a bs => exact mmNE_mmDissociate hv hne a bs
  | alloc a => exact mmNE_mmAllocate hne a
  | rmA a => exact mmNE_mmRemove_a hv.keysA hne a
  | rmB b => exact mmNE_mmRemove_b hv.keysA hne b
  | clr => exact mmNE_mmClear

theorem mmInvStep_applyOp {s : MMState α} (hv : MMInv univ om s) (op : MMOp α) :
    MMInv univ om (applyMMOp s op) := by
  cases op with
  | assoc a bs => exact mmInv_mmAssociate hv a bs
  | dissoc a bs => exact mmInv_mmDissociate hv a bs
  | alloc a => exact mmInv_mmAllocate hv a
  | rmA a => exact mmInv_mmRemove_a hv a
  | rmB b => exact mmInv_mmRemove_b hv b
  | clr => exact mmInv_mmClear hv

theorem mmNE_run (univ : List Nat) (om : Bool) (hnd : univ.Nodup)
    (ops : List (MMOp α)) (hops : ∀ op ∈ ops, MMOpNE op = true) :
    MMNE (runMM univ om ops) := by
  suffices h : ∀ (L : List (MMOp α)) (t : MMState α),
      (∀ op ∈ L, MMOpNE op = true) → MMInv univ om t → MMNE t
      → MMNE (L.foldl applyMMOp t) by
    have hinit : MMInv univ om (initMM univ om : MMState α) := mmInv_init univ om hnd
    refine h ops _ hops hinit ?_
    intro a S hS
    rw [show dlookup a (initMM univ om : MMState α).a_to_bs = none from rfl] at hS
    exact Option.noConfusion hS
  intro L
  induction L with
  | nil =>
      intro t _ _ hne
      exact hne
  | cons op rest ih =>
      intro t hops' hv hne
      exact ih (applyMMOp t op)
        (fun o ho => hops' o (List.mem_cons_of_mem op ho)) (mmInvStep_applyOp hv op)
        (mmNE_applyOp hv hne (hops' op (List.mem_cons_self op rest)))

end EmptyEntryMM

section Claims

/-- C1: Bidirectional consistency of the exclusive table — in every
reachable state, `get_a(s) = o` iff `s` is in the slot set recorded for
`o` (the set `get_bs` reports). -/
theorem c1_bidirectional_consistency {α : Type} [DecidableEq α] [LinearOrder α]
    (univ : List Nat) (sm om : Bool) (s : ExclState α) (a : α) (b : Nat)
    (hnd : univ.Nodup) (hr : ExclReach univ sm om s) :
    get_a s b = some a ↔ b ∈ get_bs_multi s a :=
  (exclInv_reach hnd hr).1.bidir a b

theorem c1_witness :
    get_a (runExcl [0, 1, 2] false true [ExclOp.assoc 5 [1]]) 1 = some 5
      ↔ 1 ∈ get_bs_multi (runExcl [0, 1, 2] false true [ExclOp.assoc 5 [1]]) 5 :=
  c1_bidirectional_consistency [0, 1, 2] false true _ 5 1 (by decide)
    ⟨[ExclOp.assoc 5 [1]], rfl⟩

/-- C2: Partition invariant — in every reachable state of either table,
every universe slot is either free and unowned, or held (by exactly one
owner in the exclusive table, by a non-empty owner set in the shared
table) and not free; and the free pool never contains a duplicate id. -/
theorem c2_partition_invariant {α : Type} [DecidableEq α] [LinearOrder α]
    (univ₁ univ₂ : List Nat) (sm om om' : Bool)
    (s : ExclState α) (t : MMState α) (b₁ b₂ : Nat)
    (hnd₁ : univ₁.Nodup) (hr₁ : ExclReach univ₁ sm om s)
    (hnd₂ : univ₂.Nodup) (hr₂ : MMReach univ₂ om' t)
    (hb₁ : b₁ ∈ univ₁) (hb₂ : b₂ ∈ univ₂) :
    ((b₁ ∈ s.pool ∧ get_a s b₁ = none)
      ∨ (b₁ ∉ s.pool ∧ ∃ a : α, get_a s b₁ = some a))
    ∧ ((b₂ ∈ t.pool ∧ dlookup b₂ t.b_to_as = none)
      ∨ (b₂ ∉ t.pool ∧ ∃ T : Finset α, dlookup b₂ t.b_to_as = some T ∧ T ≠ ∅))
    ∧ s.pool.Nodup ∧ t.pool.Nodup := by
  have hv₁ := (exclInv_reach hnd₁ hr₁).1
  have hv₂ := mmInv_reach hnd₂ hr₂
  refine ⟨?_, ?_, hv₁.pool_ok.1, hv₂.pool_ok.1⟩
  · by_cases hp : b₁ ∈ s.pool
    · exact Or.inl ⟨hp, hv₁.poolFree b₁ hp⟩
    · rcases hv₁.cover b₁ hb₁ with h | h
      · exact absurd h hp
      · refine Or.inr ⟨hp, ?_⟩
        rcases hs : dlookup b₁ s.b_to_a with _ | a
        · rw [hs] at h
          cases h
        · exact ⟨a, hs⟩
  · by_cases hp : b₂ ∈ t.pool
    · exact Or.inl ⟨hp, hv₂.poolFree b₂ hp⟩
    · rcases hv₂.cover b₂ hb₂ with h | h
      · exact absurd h hp
      · refine Or.inr ⟨hp, ?_⟩
        rcases hs : dlookup b₂ t.b_to_as with _ | T
        · rw [hs] at h
          cases h
        · exact ⟨T, rfl, hv₂.slotNE b₂ T hs⟩

theorem c2_witness :
    ((1 ∈ (runExcl [0, 1] true true [ExclOp.alloc 9 false] : ExclState Nat).pool
        ∧ get_a (runExcl [0, 1] true true [ExclOp.alloc 9 false]) 1 = none)
      ∨ (1 ∉ (runExcl [0, 1] true true [ExclOp.alloc 9 false] : ExclState Nat).pool
        ∧ ∃ a : Nat, get_a (runExcl [0, 1] true true [ExclOp.alloc 9 false]) 1 = some a))
    ∧ ((0 ∈ (runMM [0] false [MMOp.assoc 4 [0]] : MMState Nat).pool
        ∧ dlookup 0 (runMM [0] false [MMOp.assoc 4 [0]] : MMState Nat).b_to_as = none)
      ∨ (0 ∉ (runMM [0] false [MMOp.assoc 4 [0]] : MMState Nat).pool
        ∧ ∃ T : Finset Nat,
            dlookup 0 (runMM [0] false [MMOp.assoc 4 [0]] : MMState Nat).b_to_as = some T
              ∧ T ≠ ∅))
    ∧ (runExcl [0, 1] true true [ExclOp.alloc 9 false] : ExclState Nat).pool.Nodup
    ∧ (runMM [0] false [MMOp.assoc 4 [0]] : MMState Nat).pool.Nodup :=
  c2_partition_invariant [0, 1] [0] true true false
    (runExcl [0, 1] true true [ExclOp.alloc 9 false])
    (runMM [0] false [MMOp.assoc 4 [0]]) 1 0
    (by decide) ⟨[ExclOp.alloc 9 false], rfl⟩
    (by decide) ⟨[MMOp.assoc 4 [0]], rfl⟩ (by decide) (by decide)

/-- C3 counterexample: the claim fails as stated — `associate(o, [])` on
either table creates an owner entry whose slot set is empty, and no code
path of that call prunes it, so the very next state violates I3. -/
theorem c3_counterexample :
    dlookup 7 (runExcl [0] false true [ExclOp.assoc 7 []] : ExclState Nat).a_to_bs
      = some ∅
    ∧ dlookup 7 (runMM [0] false [MMOp.assoc 7 []] : MMState Nat).a_to_bs = some ∅ := by
  refine ⟨?_, ?_⟩ <;> decide

/-- C3 (amended): if every `associate` call of the history supplies a
non-empty slot list, then no owner entry of either table carries an empty
slot set; and the slot-to-owners entries of the shared table are never
empty in any reachable state whatsoever, with no restriction on the
history. -/
theorem c3_empty_entry_pruning {α : Type} [DecidableEq α] [LinearOrder α]
    (univ₁ univ₂ : List Nat) (sm om om' : Bool)
    (ops₁ : List (ExclOp α)) (ops₂ : List (MMOp α)) (t : MMState α)
    (hnd₁ : univ₁.Nodup) (hnd₂ : univ₂.Nodup)
    (hops₁ : ∀ op ∈ ops₁, ExclOpNE op = true)
    (hops₂ : ∀ op ∈ ops₂, MMOpNE op = true)
    (hr : MMReach univ₂ om' t) :
    ExclNE (runExcl univ₁ sm om ops₁)
    ∧ MMNE (runMM univ₂ om' ops₂)
    ∧ ∀ (b : Nat) (T : Finset α), dlookup b t.b_to_as = some T → T ≠ ∅ :=
  ⟨exclNE_run univ₁ sm om hnd₁ ops₁ hops₁,
   mmNE_run univ₂ om' hnd₂ ops₂ hops₂,
   (mmInv_reach hnd₂ hr).slotNE⟩

theorem c3_witness :
    ExclNE (runExcl [0, 1] true true
      [ExclOp.assoc 4 [0], ExclOp.alloc 4 true, ExclOp.rmB 0] : ExclState Nat)
    ∧ MMNE (runMM [0, 1] false
      [MMOp.assoc 4 [0, 1], MMOp.dissoc 4 [0]] : MMState Nat)
    ∧ ∀ (b : Nat) (T : Finset Nat),
        dlookup b (runMM [0, 1] false
          [MMOp.assoc 7 [], MMOp.alloc 6] : MMState Nat).b_to_as
          = some T → T ≠ ∅ :=
  c3_empty_entry_pruning [0, 1] [0, 1] true true false
    [ExclOp.assoc 4 [0], ExclOp.alloc 4 true, ExclOp.rmB 0]
    [MMOp.assoc 4 [0, 1], MMOp.dissoc 4 [0]]
    (runMM [0, 1] false [MMOp.assoc 7 [], MMOp.alloc 6])
    (by decide) (by decide) (by decide) (by decide)
    ⟨[MMOp.assoc 7 [], MMOp.alloc 6], rfl⟩

/-- C4 counterexample: on a reachable single-mode state whose owner entry
is the empty set, `allocate(o)` with `force=False` raises the undocumented
StopIteration even though the free pool is non-empty, contradicting the
claim that PoolExhausted is the only allocation error. -/
theorem c4_counterexample :
    (allocate (runExcl [0] true true [ExclOp.assoc 7 []] : ExclState Nat) 7 false).1
      = Except.error PyErr.stopIter
    ∧ (runExcl [0] true true [ExclOp.assoc 7 []] : ExclState Nat).pool ≠ [] := by
  have h1 : (runExcl [0] true true [ExclOp.assoc 7 []] : ExclState Nat)
      = ⟨[0], [], [(7, ∅)], true, true⟩ := by decide
  have h2 : allocate (⟨[0], [], [(7, ∅)], true, true⟩ : ExclState Nat) 7 false
      = (Except.error PyErr.stopIter, ⟨[0], [], [(7, ∅)], true, true⟩) := by
    have hfe : (finList (∅ : Finset Nat)).head? = none := by
      rw [finList_empty]
      rfl
    have he : allocate (⟨[0], [], [(7, ∅)], true, true⟩ : ExclState Nat) 7 false
        = (match (finList (∅ : Finset Nat)).head? with
           | some b => (Except.ok b, (⟨[0], [], [(7, ∅)], true, true⟩ : ExclState Nat))
           | none => (Except.error PyErr.stopIter,
               ⟨[0], [], [(7, ∅)], true, true⟩)) := rfl
    rw [he, hfe]
  constructor
  · rw [h1, h2]
  · rw [h1]
    decide

/-- C4 (amended): the exact allocation error contract — PoolExhausted is
raised iff the original pool is empty and the call is not a single-mode
call on an existing entry that either returns the held id (`force=False`)
or re-draws the single released id (`force=True` on a one-element entry);
StopIteration is raised iff `force=False` meets an empty single-mode
entry; every failing call leaves the state unchanged, and every
non-failing call returns a slot id. -/
theorem c4_allocation_error_contract {α : Type} [DecidableEq α] [LinearOrder α]
    (univ : List Nat) (sm om : Bool) (s : ExclState α) (a : α) (force : Bool)
    (hnd : univ.Nodup) (hr : ExclReach univ sm om s) :
    ((allocate s a force).1 = Except.error PyErr.memError
       ↔ s.pool = [] ∧ (s.single = true → ∀ S : Finset Nat,
            dlookup a s.a_to_bs = some S → force = true ∧ S = ∅))
    ∧ ((allocate s a force).1 = Except.error PyErr.stopIter
       ↔ s.single = true ∧ force = false ∧ dlookup a s.a_to_bs = some ∅)
    ∧ (∀ e : PyErr, (allocate s a force).1 = Except.error e
        → (allocate s a force).2 = s)
    ∧ (¬(allocate s a force).1 = Except.error PyErr.memError
        → ¬(allocate s a force).1 = Except.error PyErr.stopIter
        → ∃ b : Nat, (allocate s a force).1 = Except.ok b) := by
  obtain ⟨hv, h1⟩ := exclInv_reach hnd hr
  by_cases hsm : s.single = true
  · rcases hA : dlookup a s.a_to_bs with _ | S
    · rw [allocate_noentry_eq hsm hA]
      rcases hp : s.pool with _ | ⟨b, rest⟩
      · rw [allocDraw_nil_eq hp]
        refine ⟨⟨fun _ => ⟨rfl, ?_⟩, fun _ => rfl⟩, ⟨fun h => by simp at h, ?_⟩,
          fun e _ => rfl, fun hme _ => absurd rfl hme⟩
        · intro _ S hS
          exact Option.noConfusion hS
        · rintro ⟨_, _, hS⟩
          exact Option.noConfusion hS
      · rw [allocDraw_cons_eq hp]
        refine ⟨⟨fun h => by simp at h, ?_⟩, ⟨fun h => by simp at h, ?_⟩,
          fun e he => by simp at he, fun _ _ => ⟨b, rfl⟩⟩
        · rintro ⟨hpe, _⟩
          exact List.noConfusion hpe
        · rintro ⟨_, _, hS⟩
          exact Option.noConfusion hS
    · have hcard : S.card ≤ 1 := by
        have hc := h1 hsm a
        rw [slotsOf_eq_of_lookup hA] at hc
        exact hc
      cases force
      · rcases card_le_one_cases hcard with rfl | ⟨x, rfl⟩
        · have hfe : (finList (∅ : Finset Nat)).head? = none := by
            rw [finList_empty]
            rfl
          have heq : allocate s a false = (Except.error PyErr.stopIter, s) := by
            rw [allocate_entry_noforce_eq hsm hA, hfe]
          rw [heq]
          refine ⟨⟨fun h => by simp at h, ?_⟩, ⟨fun _ => ⟨hsm, rfl, rfl⟩, fun _ => rfl⟩,
            fun e _ => rfl, fun _ hsi => absurd rfl hsi⟩
          rintro ⟨_, himp⟩
          obtain ⟨hfor, _⟩ := himp hsm ∅ rfl
          exact Bool.noConfusion hfor
        · have hfx : (finList ({x} : Finset Nat)).head? = some x := by
            rw [finList_singleton]
            rfl
          have heq : allocate s a false = (Except.ok x, s) := by
            rw [allocate_entry_noforce_eq hsm hA, hfx]
          rw [heq]
          refine ⟨⟨fun h => by simp at h, ?_⟩, ⟨fun h => by simp at h, ?_⟩,
            fun e he => by simp at he, fun _ _ => ⟨x, rfl⟩⟩
          · rintro ⟨_, himp⟩
            obtain ⟨hfor, _⟩ := himp hsm {x} rfl
            exact Bool.noConfusion hfor
          · rintro ⟨_, _, hS⟩
            exact absurd (Option.some.inj hS) (Finset.singleton_ne_empty x)
      · rcases card_le_one_cases hcard with rfl | ⟨x, rfl⟩
        · have heq0 : allocate s a true = allocDraw s a := by
            rw [allocate_entry_force_eq hsm hA, finList_empty]
            rfl
          rw [heq0]
          rcases hp : s.pool with _ | ⟨b, rest⟩
          · rw [allocDraw_nil_eq hp]
            refine ⟨⟨fun _ => ⟨rfl, ?_⟩, fun _ => rfl⟩, ⟨fun h => by simp at h, ?_⟩,
              fun e _ => rfl, fun hme _ => absurd rfl hme⟩
            · intro _ S' hS'
              obtain rfl := Option.some.inj hS'
              exact ⟨rfl, rfl⟩
            · rintro ⟨_, hfor, _⟩
              exact Bool.noConfusion hfor
          · rw [allocDraw_cons_eq hp]
            refine ⟨⟨fun h => by simp at h, ?_⟩, ⟨fun h => by simp at h, ?_⟩,
              fun e he => by simp at he, fun _ _ => ⟨b, rfl⟩⟩
            · rintro ⟨hpe, _⟩
              exact List.noConfusion hpe
            · rintro ⟨_, hfor, _⟩
              exact Bool.noConfusion hfor
        · have hxa : dlookup x s.b_to_a = some a := by
            refine (hv.bidir a x).mpr ?_
            rw [slotsOf_eq_of_lookup hA]
            exact Finset.mem_singleton_self x
          have heq1 : allocate s a true = allocDraw (remove_b s x) a := by
            rw [allocate_entry_force_eq hsm hA, finList_singleton]
            rfl
          have hpool : (remove_b s x).pool = releaseId s.ordered false s.pool x := by
            rw [remove_b_owned_eq hxa]
            rfl
          have hxm : x ∈ (remove_b s x).pool := by
            rw [hpool]
            exact mem_releaseId.mpr (Or.inl rfl)
          rcases hp2 : (remove_b s x).pool with _ | ⟨b, rest⟩
          · rw [hp2] at hxm
            exact absurd hxm (List.not_mem_nil x)
          · rw [heq1, allocDraw_cons_eq hp2]
            refine ⟨⟨fun h => by simp at h, ?_⟩, ⟨fun h => by simp at h, ?_⟩,
              fun e he => by simp at he, fun _ _ => ⟨b, rfl⟩⟩
            · rintro ⟨_, himp⟩
              obtain ⟨_, hse⟩ := himp hsm {x} rfl
              exact absurd hse (Finset.singleton_ne_empty x)
            · rintro ⟨_, hfor, _⟩
              exact Bool.noConfusion hfor
  · have hsm' : s.single = false := by
      cases h : s.single
      · rfl
      · exact absurd h hsm
    rw [allocate_multi_eq hsm']
    rcases hp : s.pool with _ | ⟨b, rest⟩
    · rw [allocDraw_nil_eq hp]
      refine ⟨⟨fun _ => ⟨rfl, fun hs1 => absurd hs1 hsm⟩, fun _ => rfl⟩,
        ⟨fun h => by simp at h, ?_⟩, fun e _ => rfl, fun hme _ => absurd rfl hme⟩
      rintro ⟨hs1, _, _⟩
      exact absurd hs1 hsm
    · rw [allocDraw_cons_eq hp]
      refine ⟨⟨fun h => by simp at h, ?_⟩, ⟨fun h => by simp at h, ?_⟩,
        fun e he => by simp at he, fun _ _ => ⟨b, rfl⟩⟩
      · rintro ⟨hpe, _⟩
        exact List.noConfusion hpe
      · rintro ⟨hs1, _, _⟩
        exact absurd hs1 hsm

theorem c4_witness :
    ((allocate (runExcl [0, 1] true true [] : ExclState Nat) 9 false).1
        = Except.error PyErr.memError
      ↔ (runExcl [0, 1] true true [] : ExclState Nat).pool = []
        ∧ ((runExcl [0, 1] true true [] : ExclState Nat).single = true
          → ∀ S : Finset Nat,
              dlookup 9 (runExcl [0, 1] true true [] : ExclState Nat).a_to_bs = some S
              → false = true ∧ S = ∅))
    ∧ ((allocate (runExcl [0, 1] true true [] : ExclState Nat) 9 false).1
        = Except.error PyErr.stopIter
      ↔ (runExcl [0, 1] true true [] : ExclState Nat).single = true ∧ false = false
        ∧ dlookup 9 (runExcl [0, 1] true true [] : ExclState Nat).a_to_bs = some ∅)
    ∧ (∀ e : PyErr,
        (allocate (runExcl [0, 1] true true [] : ExclState Nat) 9 false).1
          = Except.error e
        → (allocate (runExcl [0, 1] true true [] : ExclState Nat) 9 false).2
          = runExcl [0, 1] true true [])
    ∧ (¬(allocate (runExcl [0, 1] true true [] : ExclState Nat) 9 false).1
          = Except.error PyErr.memError
        → ¬(allocate (runExcl [0, 1] true true [] : ExclState Nat) 9 false).1
          = Except.error PyErr.stopIter
        → ∃ b : Nat,
            (allocate (runExcl [0, 1] true true [] : ExclState Nat) 9 false).1
              = Except.ok b) :=
  c4_allocation_error_contract [0, 1] true true
    (runExcl [0, 1] true true []) 9 false (by decide) ⟨[], rfl⟩

/-- C5: Single-owner-mode cardinality — on a table constructed with
`single_mode = True`, after any sequence of public operations every
owner's recorded slot set has at most one element. -/
theorem c5_single_mode_cardinality {α : Type} [DecidableEq α] [LinearOrder α]
    (univ : List Nat) (om : Bool) (ops : List (ExclOp α)) (a : α)
    (hnd : univ.Nodup) :
    (slotsOf (runExcl univ true om ops) a).card ≤ 1 := by
  have h := exclInv_run univ true om hnd ops
  exact h.2 h.1.singleEq a

theorem c5_witness :
    (slotsOf (runExcl [0, 1, 2] true true
      [ExclOp.alloc 7 false, ExclOp.assoc 7 [2], ExclOp.alloc 8 true]) 7).card ≤ 1 :=
  c5_single_mode_cardinality [0, 1, 2] true
    [ExclOp.alloc 7 false, ExclOp.assoc 7 [2], ExclOp.alloc 8 true] 7 (by decide)

/-- C6: Deterministic idempotent and forced allocation — on a fresh
single-mode ordered table over `0..4`, `allocate(10)` returns `0`; a
second `allocate(10, force=False)` returns `0` again and leaves the whole
state unchanged; `allocate(10, force=True)` from that state again
returns `0`. -/
theorem c6_deterministic_allocation :
    (allocate (initExcl (List.range 5) true true : ExclState Nat) 10 false).1
        = Except.ok 0
    ∧ (allocate (allocate (initExcl (List.range 5) true true : ExclState Nat)
        10 false).2 10 false).1 = Except.ok 0
    ∧ (allocate (allocate (initExcl (List.range 5) true true : ExclState Nat)
        10 false).2 10 false).2
      = (allocate (initExcl (List.range 5) true true : ExclState Nat) 10 false).2
    ∧ (allocate (allocate (initExcl (List.range 5) true true : ExclState Nat)
        10 false).2 10 true).1 = Except.ok 0 := by
  have hf : finList ({0} : Finset Nat) = [0] := finList_singleton
  have hh : (finList ({0} : Finset Nat)).head? = some 0 := by rw [hf]; rfl
  have h1 : (allocate (initExcl (List.range 5) true true : ExclState Nat) 10 false).2
      = ⟨[1, 2, 3, 4], [(0, 10)], [(10, {0})], true, true⟩ := by decide
  have h2 : allocate (⟨[1, 2, 3, 4], [(0, 10)], [(10, {0})], true, true⟩ : ExclState Nat) 10 false
      = (Except.ok 0, ⟨[1, 2, 3, 4], [(0, 10)], [(10, {0})], true, true⟩) := by
    have he : allocate (⟨[1, 2, 3, 4], [(0, 10)], [(10, {0})], true, true⟩ : ExclState Nat) 10 false
        = (match (finList ({0} : Finset Nat)).head? with
           | some b => (Except.ok b,
               (⟨[1, 2, 3, 4], [(0, 10)], [(10, {0})], true, true⟩ : ExclState Nat))
           | none => (Except.error PyErr.stopIter,
               ⟨[1, 2, 3, 4], [(0, 10)], [(10, {0})], true, true⟩)) := rfl
    rw [he, hh]
  have h3 : (allocate (⟨[1, 2, 3, 4], [(0, 10)], [(10, {0})], true, true⟩ : ExclState Nat)
      10 true).1 = Except.ok 0 := by
    have he : allocate (⟨[1, 2, 3, 4], [(0, 10)], [(10, {0})], true, true⟩ : ExclState Nat) 10 true
        = allocDraw ((finList ({0} : Finset Nat)).foldl remove_b
            (⟨[1, 2, 3, 4], [(0, 10)], [(10, {0})], true, true⟩ : ExclState Nat)) 10 := rfl
    rw [he, hf]
    decide
  refine ⟨by decide, ?_, ?_, ?_⟩
  · rw [h1, h2]
  · rw [h1, h2]
  · rw [h1]
    exact h3

/-- C7: Reference-counted release in the shared table — when slot `x` is
owned exactly by `{a, b}` with `a ≠ b` in a reachable state, dissociating
`a` keeps `x` held (out of the pool, owner set `{b}`), and a subsequent
dissociation of `b` removes the slot entry and returns `x` to the pool. -/
theorem c7_refcounted_release {α : Type} [DecidableEq α] [LinearOrder α]
    (univ : List Nat) (om : Bool) (t : MMState α) (a b : α) (x : Nat)
    (hnd : univ.Nodup) (hr : MMReach univ om t) (hab : a ≠ b)
    (hOwn : dlookup x t.b_to_as = some {a, b}) :
    x ∉ (mmDissociate t a [x]).pool
    ∧ dlookup x (mmDissociate t a [x]).b_to_as = some {b}
    ∧ dlookup x (mmDissociate (mmDissociate t a [x]) b [x]).b_to_as = none
    ∧ x ∈ (mmDissociate (mmDissociate t a [x]) b [x]).pool := by
  have hv := mmInv_reach hnd hr
  have hmemA : x ∈ mmSlotsOf t a := by
    refine (hv.bidir a x).mp ?_
    rw [mmOwnersOf_eq_of_lookup hOwn]
    exact Finset.mem_insert_self a {b}
  have hsomeA : (dlookup a t.a_to_bs).isSome = true := by
    rcases hA : dlookup a t.a_to_bs with _ | S
    · rw [mmSlotsOf_eq_empty_of_none hA] at hmemA
      exact absurd hmemA (Finset.not_mem_empty x)
    · rfl
  have herase1 : ({a, b} : Finset α).erase a = {b} := by
    refine Finset.erase_insert ?_
    intro hh
    exact hab (Finset.mem_singleton.mp hh)
  have hne1 : ¬({a, b} : Finset α).erase a = ∅ := by
    rw [herase1]
    exact Finset.singleton_ne_empty b
  have hstep1 : mmDissocStep a t x = mmDissocKeep t a x {a, b} :=
    mmDissocStep_keep hmemA hOwn (Finset.mem_insert_self a {b}) hne1
  have ht1 : mmDissociate t a [x] = mmPostPrune a (mmDissocKeep t a x {a, b}) := by
    rw [mmDissociate_some_eq hsomeA, List.foldl_cons, List.foldl_nil, hstep1]
  have ht1pool : (mmDissociate t a [x]).pool = t.pool := by
    rw [ht1, mmPostPrune_pool, mmDissocKeep_pool]
  have hOwn2 : dlookup x (mmDissociate t a [x]).b_to_as = some {b} := by
    rw [ht1, mmPostPrune_b_to_as, mmDissocKeep_b_to_as, dlookup_dset_self, herase1]
  have hv1 : MMInv univ om (mmDissociate t a [x]) := mmInv_mmDissociate hv a [x]
  have hmemB : x ∈ mmSlotsOf (mmDissociate t a [x]) b := by
    refine (hv1.bidir b x).mp ?_
    rw [mmOwnersOf_eq_of_lookup hOwn2]
    exact Finset.mem_singleton_self b
  have hsomeB : (dlookup b (mmDissociate t a [x]).a_to_bs).isSome = true := by
    rcases hB : dlookup b (mmDissociate t a [x]).a_to_bs with _ | S
    · rw [mmSlotsOf_eq_empty_of_none hB] at hmemB
      exact absurd hmemB (Finset.not_mem_empty x)
    · rfl
  have hstep2 : mmDissocStep b (mmDissociate t a [x]) x
      = mmDissocDrop (mmDissociate t a [x]) b x :=
    mmDissocStep_drop hmemB hOwn2 (Finset.mem_singleton_self b)
      (Finset.erase_singleton b)
  have ht2 : mmDissociate (mmDissociate t a [x]) b [x]
      = mmPostPrune b (mmDissocDrop (mmDissociate t a [x]) b x) := by
    rw [mmDissociate_some_eq hsomeB, List.foldl_cons, List.foldl_nil, hstep2]
  refine ⟨?_, hOwn2, ?_, ?_⟩
  · rw [ht1pool]
    intro hp
    rw [hv.poolFree x hp] at hOwn
    exact Option.noConfusion hOwn
  · rw [ht2, mmPostPrune_b_to_as, mmDissocDrop_b_to_as]
    exact dlookup_ddel_self hv1.keysB
  · rw [ht2, mmPostPrune_pool, mmDissocDrop_pool]
    exact mem_releaseId.mpr (Or.inl rfl)

theorem c7_witness :
    (0 : Nat) ∉ (mmDissociate
      (runMM [0, 1] true [MMOp.assoc 5 [0], MMOp.assoc 4 [0]] : MMState Nat) 4 [0]).pool
    ∧ dlookup 0 (mmDissociate
        (runMM [0, 1] true [MMOp.assoc 5 [0], MMOp.assoc 4 [0]] : MMState Nat)
        4 [0]).b_to_as = some {5}
    ∧ dlookup 0 (mmDissociate (mmDissociate
        (runMM [0, 1] true [MMOp.assoc 5 [0], MMOp.assoc 4 [0]] : MMState Nat)
        4 [0]) 5 [0]).b_to_as = none
    ∧ (0 : Nat) ∈ (mmDissociate (mmDissociate
        (runMM [0, 1] true [MMOp.assoc 5 [0], MMOp.assoc 4 [0]] : MMState Nat)
        4 [0]) 5 [0]).pool :=
  c7_refcounted_release [0, 1] true
    (runMM [0, 1] true [MMOp.assoc 5 [0], MMOp.assoc 4 [0]]) 4 5 0
    (by decide) ⟨[MMOp.assoc 5 [0], MMOp.assoc 4 [0]], rfl⟩ (by decide) rfl

/-- C8: Single-mode multi-slot rejection is atomic — in every reachable
state of a single-mode table, `associate` with two or more target slots
raises `MultipleSlotsNotAllowed` and leaves the state unchanged. -/
theorem c8_multi_slot_rejection_atomic {α : Type} [DecidableEq α] [LinearOrder α]
    (univ : List Nat) (om : Bool) (s : ExclState α) (a : α) (bs : List Nat)
    (hnd : univ.Nodup) (hr : ExclReach univ true om s) (hlen : 2 ≤ bs.length) :
    associate s a bs = (some PyErr.valueMulti, s) :=
  associate_err_eq (exclInv_reach hnd hr).1.singleEq (by omega)

theorem c8_witness :
    associate (runExcl [0, 1, 2] true true [ExclOp.assoc 4 [0]]) 4 [1, 2]
      = (some PyErr.valueMulti, runExcl [0, 1, 2] true true [ExclOp.assoc 4 [0]]) :=
  c8_multi_slot_rejection_atomic [0, 1, 2] true _ 4 [1, 2] (by decide)
    ⟨[ExclOp.assoc 4 [0]], rfl⟩ (by decide)

/-- C9: Idempotent, permissive release — in every reachable state, for a
slot with no recorded owner, `remove_b` leaves both indexes unchanged and
makes the slot present in the pool exactly once; if the slot was already
free nothing changes at all. -/
theorem c9_idempotent_release {α : Type} [DecidableEq α] [LinearOrder α]
    (univ : List Nat) (sm om : Bool) (s : ExclState α) (b : Nat)
    (hnd : univ.Nodup) (hr : ExclReach univ sm om s) (hb : get_a s b = none) :
    (remove_b s b).b_to_a = s.b_to_a
    ∧ (remove_b s b).a_to_bs = s.a_to_bs
    ∧ (remove_b s b).pool.count b = 1
    ∧ (remove_b s b).pool.Nodup
    ∧ (b ∈ s.pool → remove_b s b = s) := by
  have hv := (exclInv_reach hnd hr).1
  rw [remove_b_unknown_eq hb]
  have hnd2 : (releaseId s.ordered true s.pool b).Nodup :=
    (poolOK_releaseId_chk hv.pool_ok).1
  refine ⟨rfl, rfl, ?_, hnd2, ?_⟩
  · exact List.count_eq_one_of_mem hnd2 (mem_releaseId.mpr (Or.inl rfl))
  · intro hmem
    rw [releaseId_chk_mem hmem]

theorem c9_witness :
    (remove_b (runExcl [0, 1] false true [] : ExclState Nat) 5).b_to_a
        = (runExcl [0, 1] false true [] : ExclState Nat).b_to_a
    ∧ (remove_b (runExcl [0, 1] false true [] : ExclState Nat) 5).a_to_bs
        = (runExcl [0, 1] false true [] : ExclState Nat).a_to_bs
    ∧ (remove_b (runExcl [0, 1] false true [] : ExclState Nat) 5).pool.count 5 = 1
    ∧ (remove_b (runExcl [0, 1] false true [] : ExclState Nat) 5).pool.Nodup
    ∧ (5 ∈ (runExcl [0, 1] false true [] : ExclState Nat).pool →
        remove_b (runExcl [0, 1] false true [] : ExclState Nat) 5
          = runExcl [0, 1] false true []) :=
  c9_idempotent_release [0, 1] false true _ 5 (by decide) ⟨[], rfl⟩ (by decide)

/-- C10: `clear()` empties both indexes of either table, makes `is_empty`
true and the active id reports empty, returns every previously held slot
to the free pool, and afterwards `count_free` equals the old `count_free`
plus the number of previously held slots, with no duplicate in the pool. -/
theorem c10_clear_behaviour {α : Type} [DecidableEq α] [LinearOrder α]
    (univ₁ univ₂ : List Nat) (sm om om' : Bool)
    (s : ExclState α) (t : MMState α)
    (hnd₁ : univ₁.Nodup) (hr₁ : ExclReach univ₁ sm om s)
    (hnd₂ : univ₂.Nodup) (hr₂ : MMReach univ₂ om' t) :
    (is_empty (exclClear s) = true
      ∧ get_all_active_a (exclClear s) = [] ∧ get_all_active_b (exclClear s) = []
      ∧ count_free (exclClear s) = count_free s + (get_all_active_b s).length
      ∧ (∀ b ∈ get_all_active_b s, b ∈ (exclClear s).pool)
      ∧ (exclClear s).pool.Nodup)
    ∧ (mmIsEmpty (mmClear t) = true
      ∧ mmActiveA (mmClear t) = [] ∧ mmActiveB (mmClear t) = []
      ∧ mmCountFree (mmClear t) = mmCountFree t + (mmActiveB t).length
      ∧ (∀ b ∈ mmActiveB t, b ∈ (mmClear t).pool)
      ∧ (mmClear t).pool.Nodup) := by
  have hv₁ := (exclInv_reach hnd₁ hr₁).1
  have hv₂ := mmInv_reach hnd₂ hr₂
  refine ⟨⟨rfl, rfl, rfl, exclClear_count hv₁, ?_, (exclInv_exclClear hv₁).1.pool_ok.1⟩,
    ⟨rfl, rfl, rfl, mmClear_count hv₂, ?_, (mmInv_mmClear hv₂).pool_ok.1⟩⟩
  · intro b hb
    exact exclClear_mem_pool hb
  · intro b hb
    exact mmClear_mem_pool hb

theorem c10_witness :
    (is_empty (exclClear (runExcl [0, 1] false true [ExclOp.assoc 3 [0]])) = true
      ∧ get_all_active_a (exclClear (runExcl [0, 1] false true [ExclOp.assoc 3 [0]])) = []
      ∧ get_all_active_b (exclClear (runExcl [0, 1] false true [ExclOp.assoc 3 [0]])) = []
      ∧ count_free (exclClear (runExcl [0, 1] false true [ExclOp.assoc 3 [0]]))
          = count_free (runExcl ([0, 1] : List Nat) false true [ExclOp.assoc 3 [0]])
            + (get_all_active_b (runExcl ([0, 1] : List Nat) false true
                [ExclOp.assoc 3 [0]])).length
      ∧ (∀ b ∈ get_all_active_b (runExcl ([0, 1] : List Nat) false true
            [ExclOp.assoc 3 [0]]),
          b ∈ (exclClear (runExcl [0, 1] false true [ExclOp.assoc 3 [0]])).pool)
      ∧ (exclClear (runExcl ([0, 1] : List Nat) false true
          [ExclOp.assoc 3 [0]])).pool.Nodup)
    ∧ (mmIsEmpty (mmClear (runMM [0, 1] true [MMOp.alloc 6])) = true
      ∧ mmActiveA (mmClear (runMM [0, 1] true [MMOp.alloc 6])) = []
      ∧ mmActiveB (mmClear (runMM [0, 1] true [MMOp.alloc 6])) = []
      ∧ mmCountFree (mmClear (runMM [0, 1] true [MMOp.alloc 6]))
          = mmCountFree (runMM ([0, 1] : List Nat) true [MMOp.alloc 6])
            + (mmActiveB (runMM ([0, 1] : List Nat) true [MMOp.alloc 6])).length
      ∧ (∀ b ∈ mmActiveB (runMM ([0, 1] : List Nat) true [MMOp.alloc 6]),
          b ∈ (mmClear (runMM [0, 1] true [MMOp.alloc 6])).pool)
      ∧ (mmClear (runMM ([0, 1] : List Nat) true [MMOp.alloc 6])).pool.Nodup) :=
  c10_clear_behaviour [0, 1] [0, 1] false true true
    (runExcl [0, 1] false true [ExclOp.assoc 3 [0]])
    (runMM [0, 1] true [MMOp.alloc 6])
    (by decide) ⟨[ExclOp.assoc 3 [0]], rfl⟩ (by decide) ⟨[MMOp.alloc 6], rfl⟩

end Claims

end IdsAssoc
